import Mathlib

/-!
Verification of the Skrafl crossword-game engine (Python sources:
skraflmechanics.py, skraflplayer.py, dawgbuilder.py, dawgdictionary.py,
languages.py).  Strings are modelled as `List Char`; Python dicts that are
iterated in insertion order are modelled as association lists; the mutable
object graph of the DAWG builder is modelled as an explicit heap indexed by
node ids.  Machine integers are modelled as `Nat` (all quantities involved
are non-negative; Python 2 integer division `/` on ints is `Nat` division).
-/

namespace Skrafl

/-- Strings are lists of characters. -/
abbrev Str := List Char

/-! ## languages.py : class Alphabet (scores and order) -/

/-- `Alphabet.scores` — tile scores of the new Icelandic tile set
(languages.py).  The Python dict raises `KeyError` for characters outside
the table; it is only ever consulted for validated tiles and letters, so the
out-of-table default 0 is never reached on valid inputs. -/
def alphaScore : Char → Nat
  | 'a' => 1 | 'á' => 3 | 'b' => 5 | 'd' => 5 | 'ð' => 2 | 'e' => 3 | 'é' => 7
  | 'f' => 3 | 'g' => 3 | 'h' => 4 | 'i' => 1 | 'í' => 4 | 'j' => 6 | 'k' => 2
  | 'l' => 2 | 'm' => 2 | 'n' => 1 | 'o' => 5 | 'ó' => 3 | 'p' => 5 | 'r' => 1
  | 's' => 1 | 't' => 2 | 'u' => 2 | 'ú' => 4 | 'v' => 5 | 'x' => 10 | 'y' => 6
  | 'ý' => 5 | 'þ' => 7 | 'æ' => 4 | 'ö' => 6 | '?' => 0
  | _ => 0

/-- `Alphabet.order` — sort ordering of Icelandic letters allowed in Scrabble. -/
def alphaOrder : Str := "aábdðeéfghiíjklmnoóprstuúvxyýþæö".toList

/-! ## skraflmechanics.py : class Board -/

/-- `Board.SIZE` — a standard Scrabble board is 15 x 15 squares. -/
def boardSize : Nat := 15

/-- `Board._wordscore` — squares with word-score multipliers. -/
def wordscoreTable : List Str :=
  ["311111131111113", "121111111111121", "112111111111211", "111211111112111",
   "111121111121111", "111111111111111", "111111111111111", "311111121111113",
   "111111111111111", "111111111111111", "111121111121111", "111211111112111",
   "112111111111211", "121111111111121", "311111131111113"].map String.toList

/-- `Board._letterscore` — squares with letter-score multipliers. -/
def letterscoreTable : List Str :=
  ["111211111112111", "111113111311111", "111111212111111", "211111121111112",
   "111111111111111", "131111111111131", "112111111111211", "111211111112111",
   "112111111111211", "131111111111131", "111111111111111", "211111121111112",
   "111111212111111", "111113111311111", "111211111112111"].map String.toList

/-- `Board.wordscore(row, col)` = `int(Board._wordscore[row][col])`. -/
def wordscore (row col : Nat) : Nat :=
  ((wordscoreTable.getD row []).getD col '1').toNat - '0'.toNat

/-- `Board.letterscore(row, col)` = `int(Board._letterscore[row][col])`. -/
def letterscore (row col : Nat) : Nat :=
  ((letterscoreTable.getD row []).getD col '1').toNat - '0'.toNat

/-- The mutable state of a `Board` object: letters, tiles and the
closed-square markers are 15 lists of 15 characters, plus the two
running counters kept in sync with them. -/
structure Board where
  letters : List Str
  tiles : List Str
  opens : List Str        -- the `_open` field (closed-square markers)
  numletters : Nat
  numtiles : Nat
deriving DecidableEq

/-- `Board.__init__` — an empty 15 x 15 board. -/
def Board.init : Board :=
  { letters := List.replicate boardSize (List.replicate boardSize ' ')
    tiles := List.replicate boardSize (List.replicate boardSize ' ')
    opens := List.replicate boardSize (List.replicate boardSize ' ')
    numletters := 0
    numtiles := 0 }

/-- `Board.letter_at(row, col)` = `self._letters[row][col]`. -/
def Board.letter_at (b : Board) (row col : Nat) : Char :=
  (b.letters.getD row []).getD col ' '

/-- `Board.tile_at(row, col)` = `self._tiles[row][col]`. -/
def Board.tile_at (b : Board) (row col : Nat) : Char :=
  (b.tiles.getD row []).getD col ' '

/-- `Board.is_covered(row, col)` — is the square already covered? -/
def Board.is_covered (b : Board) (row col : Nat) : Bool :=
  b.letter_at row col != ' '

/-- `Board.is_closed(row, col)` — is the square unable to receive a tile? -/
def Board.is_closed (b : Board) (row col : Nat) : Bool :=
  (b.opens.getD row []).getD col ' ' != ' '

/-- `Board.is_empty()` — the board contains no tiles. -/
def Board.is_empty (b : Board) : Bool :=
  b.numletters == 0 && b.numtiles == 0

/-- `Board.has_adjacent(row, col)` — any covered square next to this one? -/
def Board.has_adjacent (b : Board) (row col : Nat) : Bool :=
  (decide (row > 0) && b.is_covered (row - 1) col) ||
  (decide (row < boardSize - 1) && b.is_covered (row + 1) col) ||
  (decide (col > 0) && b.is_covered row (col - 1)) ||
  (decide (col < boardSize - 1) && b.is_covered row (col + 1))

/-- Python string surgery `s[0:col] + ch + s[col+1:]` used by the setters. -/
def setAt (s : Str) (col : Nat) (ch : Char) : Str :=
  s.take col ++ [ch] ++ s.drop (col + 1)

/-- `Board.set_letter(row, col, letter)`. -/
def Board.set_letter (b : Board) (row col : Nat) (letter : Char) : Board :=
  let prev := b.letter_at row col
  if prev = letter then b
  else
    let nl := if prev = ' ' ∧ letter ≠ ' ' then b.numletters + 1 else b.numletters
    { b with
      numletters := nl
      letters := b.letters.set row (setAt (b.letters.getD row []) col letter) }

/-- `Board.set_tile(row, col, tile)`. -/
def Board.set_tile (b : Board) (row col : Nat) (tile : Char) : Board :=
  let prev := b.tile_at row col
  if prev = tile then b
  else
    let nt := if prev = ' ' ∧ tile ≠ ' ' then b.numtiles + 1 else b.numtiles
    { b with
      numtiles := nt
      tiles := b.tiles.set row (setAt (b.tiles.getD row []) col tile) }

/-- The upward walk of `Board.adjacent(row, col, -1, 0, getter)`: collect
letters going up from `row - 1` while squares are covered, prepending. -/
def scanUp (b : Board) (get : Board → Nat → Nat → Char) (row col : Nat) : Str :=
  match row with
  | 0 => []
  | r + 1 =>
    let ltr := get b r col
    if ltr = ' ' then [] else scanUp b get r col ++ [ltr]

/-- The downward walk of `Board.adjacent(row, col, 1, 0, getter)`: collect
letters from `row` downward while inside the board and covered.  The loop
guard `row in range(Board.SIZE)` is carried structurally as the remaining
number of rows, `boardSize - row`, so that the definition is
kernel-reducible. -/
def scanDownAux (b : Board) (get : Board → Nat → Nat → Char) (col : Nat) :
    Nat → Nat → Str
  | 0, _ => []
  | rem + 1, row =>
    let ltr := get b row col
    if ltr = ' ' then [] else ltr :: scanDownAux b get col rem (row + 1)

/-- The downward walk, starting at `row`. -/
def scanDown (b : Board) (get : Board → Nat → Nat → Char) (row col : Nat) : Str :=
  scanDownAux b get col (boardSize - row) row

/-- Leftward walk (columns decreasing), as in `adjacent(row, col, 0, -1, ...)`. -/
def scanLeft (b : Board) (get : Board → Nat → Nat → Char) (row col : Nat) : Str :=
  match col with
  | 0 => []
  | c + 1 =>
    let ltr := get b row c
    if ltr = ' ' then [] else scanLeft b get row c ++ [ltr]

/-- Rightward walk (columns increasing), as in `adjacent(row, col, 0, 1, ...)`;
the loop guard is carried structurally as `boardSize - col`. -/
def scanRightAux (b : Board) (get : Board → Nat → Nat → Char) (row : Nat) :
    Nat → Nat → Str
  | 0, _ => []
  | rem + 1, col =>
    let ltr := get b row col
    if ltr = ' ' then [] else ltr :: scanRightAux b get row rem (col + 1)

/-- The rightward walk, starting at `col`. -/
def scanRight (b : Board) (get : Board → Nat → Nat → Char) (row col : Nat) : Str :=
  scanRightAux b get row (boardSize - col) col

/-- `Board.letters_above(row, col)`. -/
def Board.letters_above (b : Board) (row col : Nat) : Str :=
  scanUp b Board.letter_at row col

/-- `Board.letters_below(row, col)`. -/
def Board.letters_below (b : Board) (row col : Nat) : Str :=
  scanDown b Board.letter_at (row + 1) col

/-- `Board.letters_left(row, col)`. -/
def Board.letters_left (b : Board) (row col : Nat) : Str :=
  scanLeft b Board.letter_at row col

/-- `Board.letters_right(row, col)`. -/
def Board.letters_right (b : Board) (row col : Nat) : Str :=
  scanRight b Board.letter_at row (col + 1)

/-- `Board.tiles_above(row, col)`. -/
def Board.tiles_above (b : Board) (row col : Nat) : Str :=
  scanUp b Board.tile_at row col

/-- `Board.tiles_below(row, col)`. -/
def Board.tiles_below (b : Board) (row col : Nat) : Str :=
  scanDown b Board.tile_at (row + 1) col

/-- `Board.tiles_left(row, col)`. -/
def Board.tiles_left (b : Board) (row col : Nat) : Str :=
  scanLeft b Board.tile_at row col

/-- `Board.tiles_right(row, col)`. -/
def Board.tiles_right (b : Board) (row col : Nat) : Str :=
  scanRight b Board.tile_at row (col + 1)

/-! ## skraflmechanics.py : class Rack -/

/-- `Rack.MAX_TILES` = 7. -/
def rackMaxTiles : Nat := 7

/-- A player's rack of tiles (`Rack._rack`, a Python string). -/
structure Rack where
  rack : Str
deriving DecidableEq

/-- Python `s.replace(c, "", 1)` — remove the first occurrence of `c`. -/
def replace1 : Str → Char → Str
  | [], _ => []
  | c :: t, x => if c = x then t else c :: replace1 t x

/-- `Rack.remove_tile(tile)`. -/
def Rack.remove_tile (r : Rack) (tile : Char) : Rack :=
  ⟨replace1 r.rack tile⟩

/-- `Rack.contains(tiles)` — remove each tile of `tiles` (first occurrence)
from a copy of the rack and compare the total length removed. -/
def Rack.contains (r : Rack) (tiles : Str) : Bool :=
  let temp := tiles.foldl replace1 r.rack
  r.rack.length - temp.length == tiles.length

/-! ## skraflmechanics.py : classes Cover and Move -/

/-- `Cover` — a covering of a square by a tile.  `add_cover` validates
`0 <= row, col < 15` before a cover enters a move, so coordinates are
modelled as `Nat`. -/
structure Cover where
  row : Nat
  col : Nat
  tile : Char
  letter : Char
deriving DecidableEq

/-- Error return codes of `Move.check_legality()`. -/
inductive MoveError where
  | LEGAL
  | NULL_MOVE
  | FIRST_MOVE_NOT_IN_CENTER
  | DISJOINT
  | NOT_ADJACENT
  | SQUARE_ALREADY_OCCUPIED
  | HAS_GAP
  | WORD_NOT_IN_DICTIONARY
  | CROSS_WORD_NOT_IN_DICTIONARY
  | TOO_MANY_TILES_PLAYED
  | TILE_NOT_IN_RACK
deriving DecidableEq

/-- `Move.BINGO_BONUS` = 50. -/
def bingoBonus : Nat := 50

/-- Insertion step of a stable sort: insert `a` after every element that
strictly precedes it under `lt`, before everything else. -/
def stableInsert (lt : α → α → Bool) (a : α) : List α → List α
  | [] => [a]
  | b :: t => if lt b a then b :: stableInsert lt a t else a :: b :: t

/-- A stable sort (insertion sort with a strict comparison), modelling
Python's stable `list.sort(key=...)`: elements with equal keys keep their
original relative order. -/
def stableSort (lt : α → α → Bool) : List α → List α
  | [] => []
  | a :: t => stableInsert lt a (stableSort lt t)

/-- The mutable state of a `Move` object. -/
structure Move where
  covers : List Cover
  numletters : Nat
  word : Str
  row : Nat
  col : Nat
  horizontal : Bool
deriving DecidableEq

/-- `Move.__init__(word, row, col)`. -/
def Move.init (word : Str) (row col : Nat) : Move :=
  { covers := [], numletters := word.length, word := word,
    row := row, col := col, horizontal := true }

/-- The occupied-square and gap checks of `check_legality`: walk the sorted
covers; for each, first the `SQUARE_ALREADY_OCCUPIED` test, then (except for
the first cover) the `HAS_GAP` test against the previous cover. -/
def coversLoop (board : Board) (horiz : Bool) :
    Option Cover → List Cover → Option MoveError
  | _, [] => none
  | prev, c :: rest =>
    if board.is_covered c.row c.col then some .SQUARE_ALREADY_OCCUPIED
    else
      match prev with
      | none => coversLoop board horiz (some c) rest
      | some p =>
        let gapOk :=
          if horiz then
            (List.range' (p.col + 1) (c.col - (p.col + 1))).all
              fun ix => board.is_covered c.row ix
          else
            (List.range' (p.row + 1) (c.row - (p.row + 1))).all
              fun ix => board.is_covered ix c.col
        if gapOk then coversLoop board horiz (some c) rest else some .HAS_GAP

/-- `while self._col > 0 and board.is_covered(self._row, self._col - 1):
self._col -= 1` — extend the word start backwards. -/
def extendBack (covered : Nat → Bool) : Nat → Nat
  | 0 => 0
  | c + 1 => if covered c then extendBack covered c else c + 1

/-- `while col + 1 < Board.SIZE and board.is_covered(self._row, col + 1):
col += 1` — extend the word end forwards; the loop guard
`col + 1 < Board.SIZE` is carried structurally as `boardSize - (col + 1)`. -/
def extendFwdAux (covered : Nat → Bool) : Nat → Nat → Nat
  | 0, col => col
  | rem + 1, col =>
    if covered (col + 1) then extendFwdAux covered rem (col + 1) else col

/-- The forward word extension, starting at `col`. -/
def extendFwd (covered : Nat → Bool) (col : Nat) : Nat :=
  extendFwdAux covered (boardSize - (col + 1)) col

/-- The word-assembly loop of `check_legality`: for `ix` in
`range(self._numletters)`, take the next cover's letter when its coordinate
matches, else the letter already on the board. -/
def assembleWord (board : Board) (horiz : Bool) (row0 col0 : Nat) :
    Nat → Nat → List Cover → Str
  | 0, _, _ => []
  | rem + 1, ix, covers =>
    match covers with
    | c :: rest =>
      if (if horiz then col0 + ix = c.col else row0 + ix = c.row) then
        c.letter :: assembleWord board horiz row0 col0 rem (ix + 1) rest
      else
        (if horiz then board.letter_at row0 (col0 + ix)
         else board.letter_at (row0 + ix) col0) ::
          assembleWord board horiz row0 col0 rem (ix + 1) covers
    | [] =>
      (if horiz then board.letter_at row0 (col0 + ix)
       else board.letter_at (row0 + ix) col0) ::
        assembleWord board horiz row0 col0 rem (ix + 1) []

/-- The cross-word checks of `check_legality` for a non-empty board. -/
def crossWordsLoop (db : Str → Bool) (board : Board) (horiz : Bool) :
    List Cover → Option MoveError
  | [] => none
  | c :: rest =>
    if board.is_closed c.row c.col then some .CROSS_WORD_NOT_IN_DICTIONARY
    else
      let cross :=
        if horiz then
          board.letters_above c.row c.col ++ [c.letter] ++
            board.letters_below c.row c.col
        else
          board.letters_left c.row c.col ++ [c.letter] ++
            board.letters_right c.row c.col
      if cross.length > 1 ∧ db cross = false then
        some .CROSS_WORD_NOT_IN_DICTIONARY
      else crossWordsLoop db board horiz rest

/-- The final phase of `Move.check_legality`, from the dictionary test on:
`mv` already carries the sorted covers, orientation, recomputed
`_row`/`_col`/`_numletters` and the assembled `_word`.
On the first move (`board.is_empty()`) one cover must be on the centre
square; `Board.SIZE / 2` is Python 2 integer division (this 2014-era module
is Python 2: its sibling skraflplayer.py uses Python 2 print statements),
hence the centre square is `(7, 7)`, matching `Nat` division `15 / 2`. -/
def clWordPhase (db : Str → Bool) (board : Board) (mv : Move) :
    MoveError × Move :=
  if db mv.word = false then (.WORD_NOT_IN_DICTIONARY, mv)
  else if board.is_empty then
    -- first move: must go through the centre square (15 / 2 = 7)
    if mv.covers.any fun c =>
        c.row = boardSize / 2 ∧ c.col = boardSize / 2 then
      (.LEGAL, mv)
    else (.FIRST_MOVE_NOT_IN_CENTER, mv)
  else
    if ¬ mv.covers.any fun c => board.has_adjacent c.row c.col then
      (.NOT_ADJACENT, mv)
    else
      match crossWordsLoop db board mv.horizontal mv.covers with
      | some err => (err, mv)
      | none => (.LEGAL, mv)

/-- The `horiz` flag computed by `check_legality`: every cover shares the
first cover's row. -/
def moveHoriz (mv : Move) : Bool :=
  mv.covers.all fun c => c.row = (mv.covers.headD ⟨0, 0, ' ', ' '⟩).row

/-- The `vert` flag computed by `check_legality`: every cover shares the
first cover's column. -/
def moveVert (mv : Move) : Bool :=
  mv.covers.all fun c => c.col = (mv.covers.headD ⟨0, 0, ' ', ' '⟩).col

/-- The cover sort performed by `check_legality`: ascending column order for
a horizontal move, ascending row order for a vertical one (Python's
`list.sort` is stable), with the `_horizontal` flag recorded. -/
def clSortMove (mv : Move) : Move :=
  { mv with
    covers :=
      if moveHoriz mv then
        stableSort (fun a b : Cover => a.col < b.col) mv.covers
      else stableSort (fun a b : Cover => a.row < b.row) mv.covers
    horizontal := moveHoriz mv }

/-- The word-extent search and word-assembly part of `check_legality`:
extend the start and end of the formed word over covered squares and build
`_word`, updating `_row`, `_col` and `_numletters`. -/
def clAssemble (board : Board) (mv : Move) : Move :=
  let horiz := mv.horizontal
  let covers := mv.covers
  let s0 := covers.headD ⟨0, 0, ' ', ' '⟩
  let sl := covers.getLastD ⟨0, 0, ' ', ' '⟩
  let startPos :=
    if horiz then extendBack (fun c => board.is_covered s0.row c) s0.col
    else extendBack (fun r => board.is_covered r s0.col) s0.row
  let endPos :=
    if horiz then extendFwd (fun c => board.is_covered s0.row c) sl.col
    else extendFwd (fun r => board.is_covered r s0.col) sl.row
  let numletters := endPos - startPos + 1
  let row0 := if horiz then s0.row else startPos
  let col0 := if horiz then startPos else s0.col
  let word := assembleWord board horiz row0 col0 numletters 0 covers
  { mv with row := row0, col := col0,
            numletters := numletters, word := word }

/-- The middle phase of `Move.check_legality`: the occupied-square and gap
loop, then `clAssemble` and the final phase.  `mv` already carries the
sorted covers and the orientation flag. -/
def clPlacementPhase (db : Str → Bool) (board : Board) (mv : Move) :
    MoveError × Move :=
  match coversLoop board mv.horizontal none mv.covers with
  | some err => (err, mv)
  | none => clWordPhase db board (clAssemble board mv)

/-- `Move.check_legality(board, rack)` (skraflmechanics.py).  The word
database singleton `Manager.word_db()` is passed as the membership test
`db`.  Returns the error code together with the move state as mutated by
the check (covers sorted along the axis, `_row`/`_col`/`_numletters`/`_word`
recomputed).  Note kept from the source: the `TILE_NOT_IN_RACK` test is
disabled — the source computes `rack.contains(played)` but then executes
`pass` under the comment `!!! TODO: Debugging aid; change this`, so that
error code is never returned. -/
def checkLegality (db : Str → Bool) (board : Board) (rack : Rack) (mv : Move) :
    MoveError × Move :=
  if mv.covers.length < 1 then (.NULL_MOVE, mv)
  else if mv.covers.length > rackMaxTiles then (.TOO_MANY_TILES_PLAYED, mv)
  else
    -- `played = ...; if not rack.contains(played): pass` — check disabled
    let _played := mv.covers.map (·.tile)
    if ¬moveHoriz mv ∧ ¬moveVert mv then (.DISJOINT, mv)
    else clPlacementPhase db board (clSortMove mv)

/-- The primary-word tally of `Move.score`: iterate `ix` over
`range(self._numletters)` tracking the cover index; returns the pair
`(sc, wsc)` — the letter-score sum and the word-multiplier product. -/
def primAcc (board : Board) (horiz : Bool) (row0 col0 : Nat) (word : Str) :
    Nat → Nat → List Cover → Nat × Nat
  | 0, _, _ => (0, 1)
  | rem + 1, ix, covers =>
    match covers with
    | c :: rest =>
      if (if horiz then col0 + ix = c.col else row0 + ix = c.row) then
        let lscore := (if c.tile = '?' then 0 else alphaScore c.tile) *
          letterscore c.row c.col
        let (sc, wsc) := primAcc board horiz row0 col0 word rem (ix + 1) rest
        (sc + lscore, wsc * wordscore c.row c.col)
      else
        let lscore := alphaScore (word.getD ix ' ')
        let (sc, wsc) := primAcc board horiz row0 col0 word rem (ix + 1) covers
        (sc + lscore, wsc)
    | [] =>
      let lscore := alphaScore (word.getD ix ' ')
      let (sc, wsc) := primAcc board horiz row0 col0 word rem (ix + 1) []
      (sc + lscore, wsc)

/-- The cross-word tally of `Move.score`: for each cover with a non-empty
perpendicular tile run, letter multiplier on the cover square only, word
multiplier of the cover square on the whole cross word. -/
def crossAcc (board : Board) (horiz : Bool) : List Cover → Nat
  | [] => 0
  | c :: rest =>
    let cross :=
      if horiz then board.tiles_above c.row c.col ++ board.tiles_below c.row c.col
      else board.tiles_left c.row c.col ++ board.tiles_right c.row c.col
    let here :=
      if cross ≠ [] then
        ((if c.tile = '?' then 0 else alphaScore c.tile) *
            letterscore c.row c.col +
          (cross.map fun tile =>
            if tile = '?' then 0 else alphaScore tile).sum) *
          wordscore c.row c.col
      else 0
    here + crossAcc board horiz rest

/-- `Move.score(board)` — primary word with multipliers at new covers, plus
cross words, plus the 50-point bingo bonus when all 7 tiles are played. -/
def Move.score (mv : Move) (board : Board) : Nat :=
  let p := primAcc board mv.horizontal mv.row mv.col mv.word
    mv.numletters 0 mv.covers
  let total := p.1 * p.2 + crossAcc board mv.horizontal mv.covers
  if mv.covers.length = rackMaxTiles then total + bingoBonus else total

/-- The primary-word component of `Move.score` (`sc * wsc` after the first
loop). -/
def Move.primaryScore (mv : Move) (board : Board) : Nat :=
  let p := primAcc board mv.horizontal mv.row mv.col mv.word
    mv.numletters 0 mv.covers
  p.1 * p.2

/-- The cross-word component of `Move.score` (the second loop). -/
def Move.crossScore (mv : Move) (board : Board) : Nat :=
  crossAcc board mv.horizontal mv.covers

/-- `Move.apply(board, rack)` — place each cover's letter and tile on the
board and remove the played tile from the rack. -/
def Move.apply (mv : Move) (board : Board) (rack : Rack) : Board × Rack :=
  mv.covers.foldl
    (fun br c =>
      (((br.1.set_letter c.row c.col c.letter).set_tile c.row c.col c.tile),
        br.2.remove_tile c.tile))
    (board, rack)

/-! ## skraflplayer.py : class AutoPlayer -/

/-- A two-word dictionary membership function. -/
def dbAB : Str → Bool := fun w => w == ['a', 'b']

/-- A move placing "ab" horizontally through the centre square (7,7). -/
def moveAB : Move :=
  { Move.init [] 0 0 with covers := [⟨7, 7, 'a', 'a'⟩, ⟨7, 8, 'b', 'b'⟩] }

/-- A move placing "ab" horizontally at row 6, off the centre square. -/
def moveOffCenter : Move :=
  { Move.init [] 0 0 with covers := [⟨6, 7, 'a', 'a'⟩, ⟨6, 8, 'b', 'b'⟩] }

/-- Well-formedness of the two 15 x 15 character grids of a board (the
invariant established by `Board.__init__` and preserved by the setters). -/
def RowsWF (rows : List Str) : Prop :=
  rows.length = boardSize ∧ ∀ r ∈ rows, r.length = boardSize

/-- A board whose letter and tile grids are 15 rows of 15 characters. -/
def BoardWF (b : Board) : Prop :=
  RowsWF b.letters ∧ RowsWF b.tiles

instance : DecidablePred RowsWF := fun rows => by
  unfold RowsWF; infer_instance

instance : DecidablePred BoardWF := fun b => by
  unfold BoardWF; infer_instance

/-! ## languages.py : the collation (sort) map

`Alphabet._init()` builds a 256-entry locale collation map by rotating
letters into place so that `full_upper` and then `full_order` are in
ascending order.  Note the source quirk: `adjust` iterates
`range(1, len(s) - 1)` and therefore never rotates the last character of
each sequence. -/

/-- `Alphabet.full_order` — sort ordering of all valid letters. -/
def fullOrder : Str := "aábcdðeéfghiíjklmnoópqrstuúvwxyýzþæö".toList

/-- `Alphabet.full_upper` — upper-case version of the full order string. -/
def fullUpper : Str := "AÁBCDÐEÉFGHIÍJKLMNOÓPQRSTUÚVWXYÝZÞÆÖ".toList

/-- One `rotate(letter, sort_after)` step on the collation map: the letter
is re-mapped to just after `sort_after`, shifting the values in between. -/
def lcRotate (m : List Nat) (letter sortAfter : Nat) : List Nat :=
  let sortAs := m.getD sortAfter 0 + 1
  let letterVal := m.getD letter 0
  let m1 :=
    if letterVal > sortAs then
      m.map fun v => if sortAs ≤ v ∧ v < letterVal then v + 1 else v
    else m
  m1.set letter sortAs

/-- `adjust(s)`: rotate `s[i]` after `s[i-1]` for `i` in
`range(1, len(s) - 1)` (the last character is skipped, as in the source). -/
def lcAdjust (m : List Nat) (s : List Nat) : List Nat :=
  (List.range' 1 (s.length - 2)).foldl
    (fun mm i => lcRotate mm (s.getD i 0) (s.getD (i - 1) 0)) m

/-- The case-sensitive collation map `Alphabet._lcmap` (identity on 0..255,
then adjusted for `full_upper` and `full_order`). -/
def lcmap : List Nat :=
  lcAdjust (lcAdjust (List.range 256) (fullUpper.map Char.toNat))
    (fullOrder.map Char.toNat)

/-- `Alphabet.sortkey(lstr)` — the per-character collation values.  The
source actually encodes to latin-1 (raising for code points above 255);
characters above 255 are given the out-of-range value 256 here, as in the
source's guard. -/
def sortkey (w : Str) : List Nat :=
  w.map fun ch => if ch.toNat ≤ 255 then lcmap.getD ch.toNat 0 else 256

/-- Strict lexicographic comparison of sort keys (Python list `<`). -/
def keyLt : List Nat → List Nat → Bool
  | [], [] => false
  | [], _ :: _ => true
  | _ :: _, [] => false
  | x :: xs, y :: ys =>
    if x < y then true else if y < x then false else keyLt xs ys

/-! ## dawgdictionary.py : the loaded DAWG and the generic navigation -/

/-- `dawgdictionary._Node` — a loaded node: `final` flag and the dict of
edges mapping a prefix string to the next node (`None` encoded as `none`),
in insertion order. -/
structure DNode where
  final : Bool
  edges : List (Str × Option Nat)
deriving DecidableEq

/-- A loaded graph as a total function from node ids; ids absent from the
loaded `_nodes` dict behave as fresh empty nodes (the placeholders that
`_parse_and_add` creates for forward references). -/
abbrev Graph := Nat → DNode

/-- The `DawgDictionary._nodes` dict after `load`: an insertion-ordered
association list from node id to node. -/
structure DawgDict where
  nodes : List (Nat × DNode)
deriving DecidableEq

/-- Dict lookup `self._nodes[i]`. -/
def lookupNode (nodes : List (Nat × DNode)) (i : Nat) : Option DNode :=
  match nodes with
  | [] => none
  | (j, nd) :: rest => if j = i then some nd else lookupNode rest i

/-- The total graph function derived from a loaded dictionary. -/
def DawgDict.graph (d : DawgDict) : Graph :=
  fun i => (lookupNode d.nodes i).getD ⟨false, []⟩

/-- A navigation policy (the duck-typed navigator interface of
`DawgDictionary.navigate`), as pure state transitions:
`pushEdge`/`popEdge` return the Python boolean result together with the
(possibly mutated) navigator state, and `accepts` returns `none` for
rejection (the navigators never mutate state when rejecting). -/
structure Navigator (σ : Type) where
  pushEdge : σ → Char → Bool × σ
  accepting : σ → Bool
  accepts : σ → Char → Option σ
  accept : σ → Str → Bool → σ
  popEdge : σ → Bool × σ

/-- Is the node after this edge null or final?  (The finality condition at
the last character of an edge prefix in `_navigate_from_edge`.) -/
def nullOrFinal (g : Graph) : Option Nat → Bool
  | none => true
  | some nid => (g nid).final

/-- `Navigation._navigate_from_edge`: walk the prefix characters while the
navigator accepts, marking finality at an embedded `'|'` or at the prefix
end when the next node is null or final; then descend into the next node
(via the supplied continuation `recNode`, which carries the fuel). -/
def navEdgeF (g : Graph) (nv : Navigator σ) (recNode : DNode → Str → σ → σ) :
    Str → Option Nat → Str → σ → σ
  | [], nx, matched, s =>
    if nv.accepting s then
      match nx with
      | none => s
      | some nid => recNode (g nid) matched s
    else s
  | ch :: rest, nx, matched, s =>
    if nv.accepting s then
      match nv.accepts s ch with
      | none => s
      | some s1 =>
        let matched2 := matched ++ [ch]
        match rest with
        | [] =>
          -- end of the prefix: final when the next node is null or final
          navEdgeF g nv recNode [] nx matched2
            (nv.accept s1 matched2 (nullOrFinal g nx))
        | r2 :: rest2 =>
          if r2 == '|' then
            -- skip the final-marker bar
            navEdgeF g nv recNode rest2 nx matched2 (nv.accept s1 matched2 true)
          else
            -- mid-prefix, no bar ahead: not a final position
            navEdgeF g nv recNode (r2 :: rest2) nx matched2
              (nv.accept s1 matched2 false)
    else s

/-- `Navigation._navigate_from_node`: try each outgoing edge in insertion
order; enter it if `push_edge` allows, and stop visiting siblings when
`pop_edge` returns false. -/
def navEdgesF (g : Graph) (nv : Navigator σ) (recNode : DNode → Str → σ → σ) :
    List (Str × Option Nat) → Str → σ → σ
  | [], _, s => s
  | (pfx, nx) :: rest, matched, s =>
    match nv.pushEdge s (pfx.headD ' ') with
    | (false, s1) => navEdgesF g nv recNode rest matched s1
    | (true, s1) =>
      let s2 := navEdgeF g nv recNode pfx nx matched s1
      match nv.popEdge s2 with
      | (false, s3) => s3
      | (true, s3) => navEdgesF g nv recNode rest matched s3

/-- Navigation from a node, with fuel bounding the node recursion depth.
The Python recursion needs no fuel: every navigator in the source stops
accepting after a bounded number of accepted characters, and every edge
prefix in a well-formed file is non-empty, so a sufficiently large fuel
never runs out; the query functions below pass such a fuel. -/
def navNode (g : Graph) (nv : Navigator σ) : Nat → DNode → Str → σ → σ
  | 0, _, _, s => s
  | fuel + 1, nd, matched, s => navEdgesF g nv (navNode g nv fuel) nd.edges matched s

/-- `Navigation.go(root)`: if the navigator is accepting, navigate from the
root with empty `matched`; `done()` is applied by the callers. -/
def navGo (g : Graph) (nv : Navigator σ) (fuel : Nat) (root : DNode) (s : σ) : σ :=
  if nv.accepting s then navNode g nv fuel root [] s else s

/-! ### FindNavigator -/

/-- The mutable state of `FindNavigator` (the word itself is immutable and
carried as a parameter of the navigator). -/
structure FindState where
  index : Nat
  found : Bool
deriving DecidableEq

/-- `FindNavigator(word)` — exact-match lookup. -/
def findNavigator (word : Str) : Navigator FindState where
  pushEdge := fun s c => (word.getD s.index ' ' == c, s)
  accepting := fun s => s.index < word.length
  accepts := fun s ch =>
    if word.getD s.index ' ' != ch then none
    else some { s with index := s.index + 1 }
  accept := fun s _matched fin =>
    if fin && s.index == word.length then { s with found := true } else s
  popEdge := fun s => (false, s)

/-- `DawgDictionary.find(word)`: `None` models the `KeyError` raised by
`navigate` when the loaded `_nodes` dict has no root entry (id 0), which
happens exactly when the loaded file had no non-empty line. -/
def DawgDict.find (d : DawgDict) (word : Str) : Option Bool :=
  match lookupNode d.nodes 0 with
  | none => none
  | some root =>
    some (navGo d.graph (findNavigator word) (word.length + 1) root
      ⟨0, false⟩).found

/-! ### MatchNavigator -/

/-- The mutable state of `MatchNavigator` (the pattern is the parameter). -/
structure MatchState where
  index : Nat
  chmatch : Char
  wildcard : Bool
  stack : List (Nat × Char × Bool)
  result : List Str
deriving DecidableEq

/-- `MatchNavigator(pattern, sort)` — pattern matching with `?` wildcards. -/
def matchNavigator (pattern : Str) : Navigator MatchState where
  pushEdge := fun s c =>
    if !s.wildcard && (c != s.chmatch) then (false, s)
    else (true, { s with stack := (s.index, s.chmatch, s.wildcard) :: s.stack })
  accepting := fun s => s.index < pattern.length
  accepts := fun s ch =>
    if !s.wildcard && (ch != s.chmatch) then none
    else
      let index := s.index + 1
      if index < pattern.length then
        let chmatch := pattern.getD index ' '
        some { s with index := index, chmatch := chmatch,
                      wildcard := chmatch == '?' }
      else some { s with index := index }
  accept := fun s matched fin =>
    if fin && s.index == pattern.length then
      { s with result := s.result ++ [matched] }
    else s
  popEdge := fun s =>
    match s.stack with
    | [] => (s.wildcard, s)     -- unreachable: pops match pushes
    | (ix, ch, wc) :: rest =>
      (wc, { s with index := ix, chmatch := ch, wildcard := wc, stack := rest })

/-- The initial `MatchNavigator` state (`pattern[0]` raises on an empty
pattern in the source; the default `' '` stands for that unreachable case). -/
def matchInit (pattern : Str) : MatchState :=
  ⟨0, pattern.headD ' ', pattern.headD ' ' == '?', [], []⟩

/-- `DawgDictionary.find_matches(pattern, sort)` (`None` for the missing
root, as in `find`).  `done()` sorts by `Alphabet.sortkey` when requested. -/
def DawgDict.find_matches (d : DawgDict) (pattern : Str) (sort : Bool) :
    Option (List Str) :=
  match lookupNode d.nodes 0 with
  | none => none
  | some root =>
    let s := navGo d.graph (matchNavigator pattern) (pattern.length + 1) root
      (matchInit pattern)
    some (if sort then
      stableSort (fun a b => keyLt (sortkey a) (sortkey b)) s.result
    else s.result)

/-! ### PermutationNavigator -/

/-- The mutable state of `PermutationNavigator` (`minlen` is a parameter). -/
structure PermState where
  rack : Str
  stack : List Str
  result : List Str
deriving DecidableEq

/-- `PermutationNavigator(rack, minlen)` — rack permutations. -/
def permNavigator (minlen : Nat) : Navigator PermState where
  pushEdge := fun s c =>
    if !(s.rack.contains c || s.rack.contains '?') then (false, s)
    else (true, { s with stack := s.rack :: s.stack })
  accepting := fun s => !s.rack.isEmpty
  accepts := fun s ch =>
    let exactmatch := s.rack.contains ch
    if !exactmatch && !(s.rack.contains '?') then none
    else if exactmatch then some { s with rack := replace1 s.rack ch }
    else some { s with rack := replace1 s.rack '?' }
  accept := fun s matched fin =>
    if fin && decide (minlen ≤ matched.length) then
      { s with result := s.result ++ [matched] }
    else s
  popEdge := fun s =>
    match s.stack with
    | [] => (true, s)           -- unreachable: pops match pushes
    | top :: rest => (true, { s with rack := top, stack := rest })

/-- The sort key used by `PermutationNavigator.done()`:
`(-len(x), Alphabet.sortkey(x))`. -/
def permLt (a b : Str) : Bool :=
  decide (b.length < a.length) ||
    (decide (a.length = b.length) && keyLt (sortkey a) (sortkey b))

/-- `DawgDictionary.find_permutations(rack, minlen)` (`None` for the
missing root, as in `find`). -/
def DawgDict.find_permutations (d : DawgDict) (rack : Str) (minlen : Nat) :
    Option (List Str) :=
  match lookupNode d.nodes 0 with
  | none => none
  | some root =>
    let s := navGo d.graph (permNavigator minlen) (rack.length + 1) root
      ⟨rack, [], []⟩
    some (stableSort permLt s.result)

/-! ### Reference predicates for the pattern and permutation navigators -/

/-- A suffix matches the pattern `p` from position `i`: it fills the
pattern exactly to its end, with every non-wildcard pattern position
matched literally. -/
def matchSfx (p : Str) (i : Nat) (sfx : Str) : Prop :=
  i + sfx.length = p.length ∧
  ∀ j < sfx.length, p.getD (i + j) ' ' = '?' ∨ sfx.getD j ' ' = p.getD (i + j) ' '

instance : ∀ p i sfx, Decidable (matchSfx p i sfx) := fun p i sfx => by
  unfold matchSfx; infer_instance

/-- Consume the characters of a word from a rack, one tile per character
(the successive `rack.replace(newchar, "", 1)` calls of
`PermutationNavigator.accepts` on a wildcard-free rack). -/
def eatAll (r : Str) : Str → Option Str
  | [] => some r
  | c :: cs => if r.contains c then eatAll (replace1 r c) cs else none

/-- A one-word dictionary (the loaded graph for the word "ab"), used to
instantiate the navigator theorems on concrete inputs. -/
def dawgD1 : DawgDict := ⟨[(0, ⟨false, [(['a', 'b'], none)]⟩)]⟩

/-! ### Well-formedness of loaded graphs -/

/-- Valid continuation of an edge prefix after a letter: a vertical bar is
always followed by a letter (never doubled, never last). -/
def barOk : Str → Bool
  | [] => true
  | r :: rest =>
    if r == '|' then
      match rest with
      | [] => false
      | d :: _ => d != '|' && barOk rest
    else barOk rest

/-- A well-formed edge prefix: non-empty, not starting with a bar, bars
neither doubled nor trailing. -/
def goodPfx (p : Str) : Bool :=
  match p with
  | [] => false
  | r :: rest => r != '|' && barOk rest

/-- A well-formed loaded node: all edge prefixes are well formed and edges
have pairwise distinct first characters (true of every builder-produced
file; `FindNavigator` and `MatchNavigator` rely on it when `pop_edge`
short-circuits the sibling loop). -/
def WFNode (nd : DNode) : Prop :=
  (∀ e ∈ nd.edges, goodPfx e.1 = true) ∧
  (nd.edges.map fun e => e.1.headD ' ').Nodup

/-- A well-formed graph: every node (including the default placeholder) is
well formed. -/
def WFGraph (g : Graph) : Prop := ∀ i, WFNode (g i)

instance : DecidablePred WFNode := fun nd => by
  unfold WFNode; infer_instance

/-! ### The denotational word semantics of a loaded graph -/

/-- Is a word allowed to end right after the character just consumed?
Either the rest of the prefix starts with a final bar, or the prefix is
exhausted and the next node is null or final. -/
def finalAt (g : Graph) (rest : Str) (nx : Option Nat) : Bool :=
  match rest with
  | [] => nullOrFinal g nx
  | r :: _ => r == '|'

/-- Skip a final-marker bar at the current position of an edge prefix. -/
def dropBar : Str → Str
  | [] => []
  | r :: rest2 => if r == '|' then rest2 else r :: rest2

mutual
/-- The words (suffixes) recognized starting at a node: one of its edges
recognizes the word. -/
inductive NodeSem (g : Graph) : DNode → Str → Prop where
  | via {nd : DNode} {pfx : Str} {nx : Option Nat} {w : Str} :
      (pfx, nx) ∈ nd.edges → EdgeSem g pfx nx w → NodeSem g nd w

/-- The words recognized along an edge whose remaining prefix and next
node are given: the word consumes prefix characters one at a time; it may
stop where a final marker allows, and it continues into the next node when
the prefix is exhausted. -/
inductive EdgeSem (g : Graph) : Str → Option Nat → Str → Prop where
  | stop {c : Char} {rest : Str} {nx : Option Nat} :
      finalAt g rest nx = true → EdgeSem g (c :: rest) nx [c]
  | more {c : Char} {rest : Str} {nx : Option Nat} {w2 : Str} :
      dropBar rest ≠ [] → EdgeSem g (dropBar rest) nx w2 →
      EdgeSem g (c :: rest) nx (c :: w2)
  | child {c : Char} {rest : Str} {nid : Nat} {w2 : Str} :
      dropBar rest = [] → NodeSem g (g nid) w2 →
      EdgeSem g (c :: rest) (some nid) (c :: w2)
end

/-- The semantics of `_navigate_from_edge` at an intermediate position: an
exhausted prefix continues into the next node (and recognizes nothing when
the next node is null), otherwise the remaining prefix recognizes the word
as an edge. -/
def edgeContSem (g : Graph) : Str → Option Nat → Str → Prop
  | [], some nid, ws => NodeSem g (g nid) ws
  | [], none, _ => False
  | pfx, nx, ws => EdgeSem g pfx nx ws


/-! ## dawgbuilder.py : the DAWG builder -/

/-- `MAXLEN` — the longest possible word to be processed. -/
def MAXLEN : Nat := 48

/-- A collapsed edge dict: insertion-ordered prefixes with child `none`
(the Python `None`) or `some k`, `k` being the index of the child's
signature in the `_unique_nodes` dict.  Python stores object references;
references to unique nodes correspond one-to-one to the indices of their
signatures, which is exactly what `_DawgNode.__eq__` compares. -/
abbrev BDict := List (Str × Option Nat)

/-- The `_unique_nodes` dict as its insertion-ordered key list: a `some`
entry is a registered node signature (final flag plus edges sorted by
`Alphabet.sortkey` of the prefix — the data of the node's `__str__`), and
a `none` entry is the Python `None` key that gets registered when a
collapsed single-child branch ends in a null child. -/
abbrev Unique := List (Option DNode)

/-- The pending (not yet collapsed) part of the builder tree: the nested
dicts `_dicts[0..lastlen]` along `_lastword`.  `tip settled` is a level
whose dict holds only settled entries; `grow settled c f sub` is a level
whose dict holds the settled entries followed by the entry for letter `c`,
the next letter of the last word, leading to a pending node with final
flag `f` and edge dict `sub`.  A settled entry `(c, f, d)` is a
single-letter edge to a node with final flag `f` whose own edge dict `d`
is already collapsed; the branch itself is collapsed together with its
level. -/
inductive Spine where
  | tip : List (Char × Bool × BDict) → Spine
  | grow : List (Char × Bool × BDict) → Char → Bool → Spine → Spine
deriving DecidableEq

/-- The builder state between `add_word` calls (`_lastword` is recovered
from the pending spine). -/
structure BState where
  spine : Spine
  unique : Unique
deriving DecidableEq

/-- `_Dawg.__init__`. -/
def initB : BState := ⟨.tip [], []⟩

/-- `_lastword`. -/
def spineWord : Spine → Str
  | .tip _ => []
  | .grow _ c _ sub => c :: spineWord sub

/-- The key order of `_DawgNode.sort_by_prefix` (Python `sorted` with
`key=lambda x: Alphabet.sortkey(x[0])`). -/
def pfxLt (a b : Str × Option Nat) : Bool := keyLt (sortkey a.1) (sortkey b.1)

/-- `_DawgNode.sort_by_prefix`. -/
def sortEdges (d : BDict) : BDict := stableSort pfxLt d

/-- Membership test and index lookup of a node signature in the
registered unique signatures (`node in self._unique_nodes`). -/
def findSig : Unique → DNode → Option Nat
  | [], _ => none
  | x :: rest, sig =>
    if x = some sig then some 0 else (findSig rest sig).map (· + 1)

/-- `_Dawg._collapse_branch`, acting on one pending entry `(c, fin, di)`
of the dict being collapsed.  Returns the entry in its final form, a flag
telling whether the entry moved to the end of the dict (the
`del parent[prefix]` plus re-insertion of the single-child merge), and
the updated unique dict. -/
def collapseBranch (u : Unique) (c : Char) (fin : Bool) (di : BDict) :
    (Str × Option Nat) × Bool × Unique :=
  match di with
  | [] =>
    -- childless node: it must be final; the parent points to None instead
    ((([c] : Str), none), false, u)
  | (tail0, lastd) :: di2 =>
    match di2 with
    | [] =>
      -- single child: collapse the chain into a multi-letter prefix,
      -- with a vertical bar if the chained node was final
      let pfx2 : Str := [c] ++ (if fin then '|' :: tail0 else tail0)
      match lastd with
      | none => ((pfx2, none), true, if u.contains none then u else u ++ [none])
      | some k => ((pfx2, some k), true, u)
    | _ :: _ =>
      let sig : DNode := ⟨fin, sortEdges di⟩
      match findSig u sig with
      | some k => ((([c] : Str), some k), false, u)
      | none => ((([c] : Str), some u.length), false, u ++ [some sig])

/-- `_Dawg._collapse` — process a snapshot of the entries of a pending
dict in insertion order, returning the entries that stayed in place, the
entries that moved to the end (in processing order), and the updated
unique dict. -/
def collapseEntries (u : Unique) :
    List (Char × Bool × BDict) → BDict × BDict × Unique
  | [] => ([], [], u)
  | (c, fin, di) :: rest =>
    let r1 := collapseBranch u c fin di
    let r2 := collapseEntries r1.2.2 rest
    if r1.2.1 then (r2.1, r1.1 :: r2.2.1, r2.2.2)
    else (r1.1 :: r2.1, r2.2.1, r2.2.2)

/-- `_Dawg._collapse` — the resulting dict: unmoved entries keep their
positions, moved entries follow at the end. -/
def collapseDict (u : Unique) (entries : List (Char × Bool × BDict)) :
    BDict × Unique :=
  let r := collapseEntries u entries
  (r.1 ++ r.2.1, r.2.2)

/-- Collapse a whole pending spine, deepest level first (the order of
`_collapse_to(0)` followed by `_collapse(self._root)`). -/
def collapseSpine (u : Unique) : Spine → BDict × Unique
  | .tip settled => collapseDict u settled
  | .grow settled c f sub =>
    let r := collapseSpine u sub
    collapseDict r.2 (settled ++ [(c, f, r.1)])

/-- `_Dawg._collapse_to(divergence)` — collapse the pending levels deeper
than the divergence level, deepest first; the pending entry at the
divergence level becomes a settled entry. -/
def collapseTo (u : Unique) : Spine → Nat → Spine × Unique
  | .tip settled, _ => (.tip settled, u)
  | .grow settled c f sub, 0 =>
    let r := collapseSpine u sub
    (.tip (settled ++ [(c, f, r.1)]), r.2)
  | .grow settled c f sub, i + 1 =>
    let r := collapseTo u sub i
    (.grow settled c f r.1, r.2)

/-- The fresh chain of nodes that `add_word` creates for the part of the
word after the divergence point; the last node is marked final. -/
def chainOf : Str → Spine
  | [] => .tip []
  | c :: rest => .grow [] c (decide (rest = [])) (chainOf rest)

/-- Attach the diverging rest of a word at the tip of the pending chain
(`d[wrd[i]] = nd` and the following extension loop of `add_word`).  A
settled entry with the same letter is dropped, mirroring the dict
overwrite `d[wrd[i]] = nd`; with words arriving in ascending order, as
`add_word` requires, this never happens. -/
def attachChain : Spine → Str → Spine
  | .tip settled, [] => .tip settled
  | .tip settled, c :: rest =>
    .grow (settled.filter (fun e => e.1 != c)) c (decide (rest = []))
      (chainOf rest)
  | .grow settled c0 f sub, rest => .grow settled c0 f (attachChain sub rest)

/-- The divergence computation of `add_word` (`wrd[i] == lastword[i]`
loop). -/
def commonPrefixLen : Str → Str → Nat
  | a :: as2, b :: bs => if a = b then commonPrefixLen as2 bs + 1 else 0
  | _, _ => 0

/-- `_Dawg.add_word`: raise when the word reaches `MAXLEN` letters;
otherwise collapse back to the divergence point and add the rest of the
word. -/
def addWord (st : BState) (wrd : Str) : Except Unit BState :=
  if MAXLEN ≤ wrd.length then .error () else
  let i := commonPrefixLen wrd (spineWord st.spine)
  let r := collapseTo st.unique st.spine i
  .ok ⟨attachChain r.1 (wrd.drop i), r.2⟩

/-- `_Dawg.finish` before renumbering: collapse everything, leaving the
root dict and the unique-node dict. -/
def finishB (st : BState) : BDict × Unique := collapseSpine st.unique st.spine

/-- Add a list of words in order (`DawgBuilder._output` main loop),
propagating the `add_word` error. -/
def buildAll : List Str → BState → Except Unit BState
  | [], st => .ok st
  | w :: ws, st =>
    match addWord st w with
    | .error e => .error e
    | .ok st2 => buildAll ws st2

/-! ### Serialization (`finish` renumbering and `write_text`) -/

/-- The id that the renumbering loop of `finish` assigns to the unique
entry at index `k`: ids start at 2 and skip the `None` entry. -/
def idAt (u : Unique) (k : Nat) : Nat :=
  2 + (u.take k).countP (fun x => x.isSome)

/-- The id written for an edge child: 0 for `None`, the renumbered id
otherwise. -/
def childId (u : Unique) : Option Nat → Nat
  | none => 0
  | some k => idAt u k

/-- Decimal digits of a number (`str(node.id)`), with fuel for the
division recursion; `natStr n` uses fuel `n`, which always suffices. -/
def natStrAux : Nat → Nat → Str
  | 0, n => [Nat.digitChar (n % 10)]
  | fuel + 1, n =>
    if n < 10 then [Nat.digitChar n]
    else natStrAux fuel (n / 10) ++ [Nat.digitChar (n % 10)]

/-- `str(n)` for a nonnegative integer. -/
def natStr (n : Nat) : Str := natStrAux n n

/-- One edge of `stringify_edges`: `prefix + ":" + str(id)`. -/
def edgeStr (u : Unique) (e : Str × Option Nat) : Str :=
  e.1 ++ ':' :: natStr (childId u e.2)

/-- `"_".join`. -/
def joinUnders : List Str → Str
  | [] => []
  | [s] => s
  | s :: s2 :: rest => s ++ '_' :: joinUnders (s2 :: rest)

/-- `_DawgNode.stringify_edges`. -/
def stringifyEdges (u : Unique) (d : BDict) : Str :=
  joinUnders ((sortEdges d).map (edgeStr u))

/-- `_DawgNode.__str__`: a final node is prefixed by `"|_"`. -/
def nodeLine (u : Unique) (nd : DNode) : Str :=
  (if nd.final then (['|', '_'] : Str) else []) ++ stringifyEdges u nd.edges

/-- `_Dawg.write_text`: the root line followed by one line per non-None
unique node, in unique-dict order (line numbers therefore equal the
renumbered ids). -/
def writeText (root : BDict) (u : Unique) : List Str :=
  stringifyEdges u root :: (u.filterMap id).map (nodeLine u)

/-- The whole build pipeline: add all words, finish, write the text. -/
def buildText (ws : List Str) : Except Unit (List Str) :=
  match buildAll ws initB with
  | .error e => .error e
  | .ok st =>
    let r := finishB st
    .ok (writeText r.1 r.2)

/-! ### Loading (`DawgDictionary.load` and `_parse_and_add`) -/

/-- `line.split(sep)` for a single-character separator, Python semantics
(the empty string yields one empty part). -/
def splitCh (sep : Char) : Str → List Str
  | [] => [[]]
  | c :: rest =>
    let r := splitCh sep rest
    if c = sep then [] :: r
    else (c :: r.headD []) :: r.tail

/-- `int(s)` on a string of decimal digits (the only strings the loader
meets in a builder-produced file). -/
def parseNat (s : Str) : Nat :=
  s.foldl (fun acc c => acc * 10 + (c.toNat - 48)) 0

/-- The loader state: the `_nodes` dict and the running `_index`. -/
structure LState where
  nodes : List (Nat × DNode)
  index : Nat
deriving DecidableEq

/-- `nodeid in self._nodes`. -/
def lookupHas (nodes : List (Nat × DNode)) (i : Nat) : Bool :=
  (lookupNode nodes i).isSome

/-- `newnode.final = final` on the node with the given id. -/
def setFinal (nodes : List (Nat × DNode)) (i : Nat) (f : Bool) :
    List (Nat × DNode) :=
  nodes.map (fun e => if e.1 = i then (e.1, ⟨f, e.2.edges⟩) else e)

/-- `newnode.edges[prefix] = child` on the node with the given id (a dict
assignment; all prefixes of one line are distinct in a builder-produced
file, so the fresh-key append case is the only one exercised). -/
def addEdgeL (nodes : List (Nat × DNode)) (i : Nat) (e : Str × Option Nat) :
    List (Nat × DNode) :=
  nodes.map (fun en =>
    if en.1 = i then (en.1, ⟨en.2.final, en.2.edges ++ [e]⟩) else en)

/-- One iteration of the edge loop of `_parse_and_add`. -/
def parseEdge (st : LState) (nodeid : Nat) (edge : Str) : LState :=
  let e := splitCh ':' edge
  let pfx := e.headD []
  let edgeid := parseNat (e.getD 1 [])
  if edgeid = 0 then ⟨addEdgeL st.nodes nodeid (pfx, none), st.index⟩
  else if lookupHas st.nodes edgeid then
    ⟨addEdgeL st.nodes nodeid (pfx, some edgeid), st.index⟩
  else
    ⟨addEdgeL (st.nodes ++ [(edgeid, ⟨false, []⟩)]) nodeid (pfx, some edgeid),
      st.index⟩

/-- `DawgDictionary._parse_and_add`. -/
def parseAndAdd (st : LState) (line : Str) : LState :=
  let nodeid := if 1 < st.index then st.index else 0
  let edgedata := splitCh '_' line
  let final := edgedata.headD [] == (['|'] : Str)
  let eds := if final then edgedata.tail else edgedata
  let nodes1 :=
    if lookupHas st.nodes nodeid then setFinal st.nodes nodeid final
    else st.nodes ++ [(nodeid, ⟨final, []⟩)]
  eds.foldl (fun s2 e => parseEdge s2 nodeid e) ⟨nodes1, st.index + 1⟩

/-- `DawgDictionary.load` on a list of already line-split, newline-free
lines: empty lines are skipped. -/
def loadLines (lines : List Str) : DawgDict :=
  ⟨(lines.foldl
      (fun st (line : Str) =>
        if line.isEmpty then st else parseAndAdd st line)
      ⟨[], 1⟩).nodes⟩

/-- `DawgBuilder._InFile.read_word`: a line read from an input file (after
newline stripping) is kept only if it is non-empty and shorter than
`MAXLEN`; other lines are skipped silently. -/
def readWordKeeps (line : Str) : Bool :=
  !line.isEmpty && decide (line.length < MAXLEN)


/-! ### Invariants of the builder state -/

/-- No two consecutive vertical bars (the claim's `||` hygiene). -/
def noDoubleBar : Str → Bool
  | [] => true
  | [_] => true
  | a :: b :: rest => !(a == '|' && b == '|') && noDoubleBar (b :: rest)

/-- A child reference is null or points at a registered `some` entry of
the unique dict. -/
def ChildOk (u : Unique) (ch : Option Nat) : Prop :=
  ∀ k, ch = some k → ∃ nd, u.getD k none = some nd

/-- All edges of a collapsed dict have well-formed prefixes and valid
child references. -/
def DictOk (u : Unique) (d : BDict) : Prop :=
  ∀ e ∈ d, goodPfx e.1 = true ∧ ChildOk u e.2

/-- The registered unique signatures are non-empty dicts whose children
are earlier registered entries. -/
def UniqueOk (u : Unique) : Prop :=
  ∀ k nd, u.getD k none = some nd → nd.edges ≠ [] ∧ DictOk (u.take k) nd.edges

/-- The settled entries of a pending dict level: single letters (never a
bar) leading to nodes with collapsed, well-formed edge dicts. -/
def SettledOk (u : Unique) (settled : List (Char × Bool × BDict)) : Prop :=
  ∀ e ∈ settled, e.1 ≠ '|' ∧ DictOk u e.2.2

/-- Well-formedness of the whole pending spine. -/
def SpineOk (u : Unique) : Spine → Prop
  | .tip settled => SettledOk u settled
  | .grow settled c _ sub => SettledOk u settled ∧ c ≠ '|' ∧ SpineOk u sub


/-! ### The builder semantics layer (for the round-trip theorem) -/

/-- The collation value of one character (`Alphabet.sortkey` per
character). -/
def charRank (c : Char) : Nat :=
  if c.toNat ≤ 255 then lcmap.getD c.toNat 0 else 256

/-- The graph denoted by the unique dict: index `k` names the registered
signature at `k` (out-of-range and `None` entries denote empty nodes). -/
def bGraph (u : Unique) : Graph :=
  fun k => (u.getD k none).getD ⟨false, []⟩

/-- The words recognized through the settled entries of a pending dict
level: a settled entry `(c, f, d)` recognizes `c` alone when `f` is set,
and `c` followed by any word of its collapsed edge dict. -/
def settledSem (u : Unique) (settled : List (Char × Bool × BDict))
    (w : Str) : Prop :=
  ∃ e ∈ settled, ∃ w2, w = e.1 :: w2 ∧
    (w2 = [] ∧ e.2.1 = true ∨ NodeSem (bGraph u) ⟨false, e.2.2⟩ w2)

/-- The words recognized by a pending spine: the settled entries of each
level plus the pending chain itself. -/
def spineSem (u : Unique) : Spine → Str → Prop
  | .tip settled, w => settledSem u settled w
  | .grow settled c f sub, w =>
    settledSem u settled w ∨
      ∃ w2, w = c :: w2 ∧ (w2 = [] ∧ f = true ∨ spineSem u sub w2)

/-- The edges of a collapsed dict as the loader will see them: sorted by
prefix collation and with child indices replaced by renumbered ids. -/
def renderEdges (u : Unique) (d : BDict) : List (Str × Option Nat) :=
  (sortEdges d).map (fun e =>
    (e.1, match e.2 with | none => none | some k => some (idAt u k)))

/-! ### Strengthened builder invariants (for the round-trip theorem) -/

/-- Edge prefixes of a collapsed dict: well-formed, with valid children,
pairwise distinct first letters, and characters drawn from the alphabet
plus the final-marker bar. -/
def DictPlus (u : Unique) (d : BDict) : Prop :=
  DictOk u d ∧ (d.map (fun e => e.1.headD ' ')).Nodup ∧
  (∀ e ∈ d, ∀ ch ∈ e.1, ch ∈ fullOrder ∨ ch = '|')

/-- Every registered unique signature is a `DictPlus` dict. -/
def UniquePlus (u : Unique) : Prop :=
  ∀ k nd, u.getD k none = some nd → DictPlus u nd.edges

/-- The settled entries of one pending level: alphabet letters in strictly
ascending collation order, childless settled nodes are final, and the
collapsed dicts are well formed. -/
def SettledPlus (u : Unique) (settled : List (Char × Bool × BDict)) :
    Prop :=
  (∀ e ∈ settled, e.1 ∈ fullOrder ∧ (e.2.2 = [] → e.2.1 = true) ∧
    DictPlus u e.2.2) ∧
  (settled.map (fun e => charRank e.1)).Pairwise (· < ·)

/-- The between-words shape of the pending spine: every level is a
`SettledPlus` level whose pending letter sorts after all settled letters,
the chain ends in an empty tip, and a chain end with no children is
final. -/
def SpinePlus (u : Unique) : Spine → Prop
  | .tip settled => SettledPlus u settled ∧ settled = []
  | .grow settled c f sub =>
    SettledPlus u settled ∧ c ∈ fullOrder ∧
    (∀ e ∈ settled, charRank e.1 < charRank c) ∧
    (sub = .tip [] → f = true) ∧ SpinePlus u sub

/-- The word order of the builder input (`Alphabet.sortkey` collation,
allowing duplicates). -/
def wordLe (a b : Str) : Prop :=
  keyLt (sortkey a) (sortkey b) = true ∨ a = b

/-! ## General lemmas about the embedding -/

theorem setAt_eq_set (s : Str) (col : Nat) (ch : Char) (h : col < s.length) :
    setAt s col ch = s.set col ch := by
  rw [List.set_eq_take_append_cons_drop, if_pos h]
  simp [setAt]

theorem getD_set_self {α : Type _} (l : List α) (i : Nat) (x : α) (d : α)
    (h : i < l.length) : (l.set i x).getD i d = x := by
  rw [List.getD_eq_getElem?_getD, List.getElem?_set_self h]
  rfl

theorem getD_set_ne {α : Type _} (l : List α) (i j : Nat) (x : α) (d : α)
    (h : i ≠ j) : (l.set i x).getD j d = l.getD j d := by
  rw [List.getD_eq_getElem?_getD, List.getElem?_set_ne h,
    ← List.getD_eq_getElem?_getD]

theorem setAt_getD_of_ne (s : Str) (col : Nat) (ch : Char) (c : Nat) (d : Char)
    (h : col < s.length) (hne : c ≠ col) :
    (setAt s col ch).getD c d = s.getD c d := by
  rw [setAt_eq_set s col ch h, List.getD_eq_getElem?_getD,
    List.getD_eq_getElem?_getD, List.getElem?_set_ne (Ne.symm hne)]

theorem setAt_length (s : Str) (col : Nat) (ch : Char) (h : col < s.length) :
    (setAt s col ch).length = s.length := by
  rw [setAt_eq_set s col ch h, List.length_set]

theorem rowsWF_getD_mem (rows : List Str) (h : RowsWF rows) (r : Nat)
    (hr : r < rows.length) : (rows.getD r []).length = boardSize := by
  apply h.2
  rw [List.getD_eq_getElem?_getD, List.getElem?_eq_getElem hr]
  exact List.getElem_mem hr

theorem rowsWF_setAt (rows : List Str) (h : RowsWF rows) (row col : Nat)
    (ch : Char) (hcol : col < boardSize) :
    RowsWF (rows.set row (setAt (rows.getD row []) col ch)) := by
  by_cases hrow : row < rows.length
  · refine ⟨by rw [List.length_set]; exact h.1, ?_⟩
    intro r hr
    rcases List.mem_or_eq_of_mem_set hr with hmem | heq
    · exact h.2 r hmem
    · subst heq
      have hlen : (rows.getD row []).length = boardSize :=
        rowsWF_getD_mem rows h row hrow
      rw [setAt_length _ _ _ (by omega), hlen]
  · rw [List.set_eq_of_length_le (Nat.le_of_not_lt hrow)]
    exact h

theorem letter_at_set_letter_ne (b : Board) (row col : Nat) (letter : Char)
    (r c : Nat) (hb : RowsWF b.letters) (hcol : col < boardSize)
    (hne : ¬(row = r ∧ col = c)) :
    (b.set_letter row col letter).letter_at r c = b.letter_at r c := by
  unfold Board.set_letter
  dsimp only
  split
  · rfl
  · unfold Board.letter_at
    simp only
    by_cases hr : row = r
    · subst hr
      have hcc : c ≠ col := fun hh => hne ⟨rfl, hh.symm⟩
      by_cases hrow : row < b.letters.length
      · rw [getD_set_self _ _ _ _ hrow]
        have hlen : (b.letters.getD row []).length = boardSize :=
          rowsWF_getD_mem _ hb row hrow
        exact setAt_getD_of_ne (b.letters.getD row []) col letter c ' '
          (by omega) hcc
      · rw [List.set_eq_of_length_le (Nat.le_of_not_lt hrow)]
    · rw [getD_set_ne _ _ _ _ _ hr]

theorem tile_at_set_letter (b : Board) (row col : Nat) (letter : Char)
    (r c : Nat) :
    (b.set_letter row col letter).tile_at r c = b.tile_at r c := by
  unfold Board.set_letter Board.tile_at
  dsimp only
  split <;> rfl

theorem letter_at_set_tile (b : Board) (row col : Nat) (tile : Char)
    (r c : Nat) :
    (b.set_tile row col tile).letter_at r c = b.letter_at r c := by
  unfold Board.set_tile Board.letter_at
  dsimp only
  split <;> rfl

theorem tile_at_set_tile_ne (b : Board) (row col : Nat) (tile : Char)
    (r c : Nat) (hb : RowsWF b.tiles) (hcol : col < boardSize)
    (hne : ¬(row = r ∧ col = c)) :
    (b.set_tile row col tile).tile_at r c = b.tile_at r c := by
  unfold Board.set_tile
  dsimp only
  split
  · rfl
  · unfold Board.tile_at
    simp only
    by_cases hr : row = r
    · subst hr
      have hcc : c ≠ col := fun hh => hne ⟨rfl, hh.symm⟩
      by_cases hrow : row < b.tiles.length
      · rw [getD_set_self _ _ _ _ hrow]
        have hlen : (b.tiles.getD row []).length = boardSize :=
          rowsWF_getD_mem _ hb row hrow
        exact setAt_getD_of_ne (b.tiles.getD row []) col tile c ' '
          (by omega) hcc
      · rw [List.set_eq_of_length_le (Nat.le_of_not_lt hrow)]
    · rw [getD_set_ne _ _ _ _ _ hr]

theorem boardWF_set_letter (b : Board) (row col : Nat) (letter : Char)
    (hwf : BoardWF b) (hcol : col < boardSize) :
    BoardWF (b.set_letter row col letter) := by
  unfold Board.set_letter
  dsimp only
  split
  · exact hwf
  · exact ⟨rowsWF_setAt b.letters hwf.1 row col letter hcol, hwf.2⟩

theorem boardWF_set_tile (b : Board) (row col : Nat) (tile : Char)
    (hwf : BoardWF b) (hcol : col < boardSize) :
    BoardWF (b.set_tile row col tile) := by
  unfold Board.set_tile
  dsimp only
  split
  · exact hwf
  · exact ⟨hwf.1, rowsWF_setAt b.tiles hwf.2 row col tile hcol⟩

theorem EdgeSem_shape {g : Graph} {pfx : Str} {nx : Option Nat} {ws : Str}
    (h : EdgeSem g pfx nx ws) :
    ∃ c p2 w2, pfx = c :: p2 ∧ ws = c :: w2 := by
  cases h with
  | stop hfin => exact ⟨_, _, _, rfl, rfl⟩
  | more hne hrec => exact ⟨_, _, _, rfl, rfl⟩
  | child hnil hnode => exact ⟨_, _, _, rfl, rfl⟩

theorem EdgeSem_not_nil {g : Graph} {pfx : Str} {nx : Option Nat}
    (h : EdgeSem g pfx nx []) : False := by
  obtain ⟨c, p2, w2, _, hw⟩ := EdgeSem_shape h
  cases hw

theorem NodeSem_not_nil {g : Graph} {nd : DNode}
    (h : NodeSem g nd []) : False := by
  cases h with
  | via hmem he => exact EdgeSem_not_nil he

theorem NodeSem_iff {g : Graph} {nd : DNode} {ws : Str} :
    NodeSem g nd ws ↔ ∃ e ∈ nd.edges, EdgeSem g e.1 e.2 ws := by
  constructor
  · intro h
    cases h with
    | via hmem he => exact ⟨_, hmem, he⟩
  · rintro ⟨⟨pfx, nx⟩, hmem, he⟩
    exact NodeSem.via hmem he

theorem goodPfx_ne_nil {p : Str} (h : goodPfx p = true) : p ≠ [] := by
  intro hnil; subst hnil; simp [goodPfx] at h

theorem drop_cons_of_lt {w : Str} {i : Nat} (h : i < w.length) :
    w.drop i = w.getD i ' ' :: w.drop (i + 1) := by
  rw [List.getD_eq_getElem w ' ' h]
  exact List.drop_eq_getElem_cons h

theorem stableInsert_perm (lt : α → α → Bool) (a : α) (l : List α) :
    List.Perm (stableInsert lt a l) (a :: l) := by
  induction l with
  | nil => simp [stableInsert]
  | cons b t ih =>
    unfold stableInsert
    split
    · exact (ih.cons b).trans (List.Perm.swap a b t)
    · exact List.Perm.refl _

theorem stableSort_perm (lt : α → α → Bool) (l : List α) :
    List.Perm (stableSort lt l) l := by
  induction l with
  | nil => exact List.Perm.refl _
  | cons a t ih =>
    exact (stableInsert_perm lt a (stableSort lt t)).trans (ih.cons a)

theorem getD_replicate {α : Type _} (n : Nat) (a : α) (i : Nat) (d : α) :
    (List.replicate n a).getD i d = if i < n then a else d := by
  rw [List.getD_eq_getElem?_getD, List.getElem?_replicate]
  split <;> rfl

theorem init_letter_at (r c : Nat) : Board.init.letter_at r c = ' ' := by
  unfold Board.init Board.letter_at
  dsimp only
  rw [getD_replicate]
  split
  · rw [getD_replicate]; split <;> rfl
  · rfl

theorem init_is_covered (r c : Nat) : Board.init.is_covered r c = false := by
  simp [Board.is_covered, init_letter_at]

theorem coversLoop_init (horiz : Bool) (prev : Option Cover)
    (covers : List Cover) :
    coversLoop Board.init horiz prev covers = none ∨
    coversLoop Board.init horiz prev covers = some .HAS_GAP := by
  induction covers generalizing prev with
  | nil => exact Or.inl rfl
  | cons c rest ih =>
    unfold coversLoop
    rw [init_is_covered]
    simp only [Bool.false_eq_true, if_false]
    cases prev with
    | none => exact ih (some c)
    | some p =>
      dsimp only
      split <;> split
      · exact ih (some c)
      · exact Or.inr rfl
      · exact ih (some c)
      · exact Or.inr rfl

theorem clAssemble_covers (board : Board) (mv : Move) :
    (clAssemble board mv).covers = mv.covers := rfl

theorem clSortMove_covers_perm (mv : Move) :
    List.Perm (clSortMove mv).covers mv.covers := by
  unfold clSortMove
  dsimp only
  split <;> exact stableSort_perm _ _

theorem clWordPhase_init_cases (db : Str → Bool) (mv : Move) :
    (clWordPhase db Board.init mv).1 = .WORD_NOT_IN_DICTIONARY ∨
    (clWordPhase db Board.init mv).1 =
      (if (mv.covers.any fun c =>
          c.row = boardSize / 2 ∧ c.col = boardSize / 2) = true then .LEGAL
       else .FIRST_MOVE_NOT_IN_CENTER) := by
  unfold clWordPhase
  by_cases hdb : db mv.word = false
  · rw [if_pos hdb]; exact Or.inl rfl
  · rw [if_neg hdb, if_pos (show Board.init.is_empty = true from rfl)]
    right
    by_cases hany : (mv.covers.any fun c =>
        c.row = boardSize / 2 ∧ c.col = boardSize / 2) = true
    · rw [if_pos hany, if_pos hany]
    · rw [if_neg hany, if_neg hany]

theorem clPlacementPhase_init_cases (db : Str → Bool) (mv : Move) :
    (clPlacementPhase db Board.init mv).1 = .HAS_GAP ∨
    (clPlacementPhase db Board.init mv).1 = .WORD_NOT_IN_DICTIONARY ∨
    (clPlacementPhase db Board.init mv).1 =
      (if (mv.covers.any fun c =>
          c.row = boardSize / 2 ∧ c.col = boardSize / 2) = true then .LEGAL
       else .FIRST_MOVE_NOT_IN_CENTER) := by
  unfold clPlacementPhase
  rcases coversLoop_init mv.horizontal none mv.covers with hcl | hcl <;>
    rw [hcl] <;> dsimp only
  · rcases clWordPhase_init_cases db (clAssemble Board.init mv) with h | h
    · exact Or.inr (Or.inl h)
    · rw [clAssemble_covers] at h
      exact Or.inr (Or.inr h)
  · exact Or.inl rfl

theorem checkLegality_init_cases (db : Str → Bool) (rack : Rack) (mv : Move) :
    (checkLegality db Board.init rack mv).1 = .NULL_MOVE ∨
    (checkLegality db Board.init rack mv).1 = .TOO_MANY_TILES_PLAYED ∨
    (checkLegality db Board.init rack mv).1 = .DISJOINT ∨
    (checkLegality db Board.init rack mv).1 = .HAS_GAP ∨
    (checkLegality db Board.init rack mv).1 = .WORD_NOT_IN_DICTIONARY ∨
    (checkLegality db Board.init rack mv).1 =
      (if ∃ cv ∈ mv.covers, cv.row = 7 ∧ cv.col = 7 then .LEGAL
       else .FIRST_MOVE_NOT_IN_CENTER) := by
  unfold checkLegality
  by_cases hlen : mv.covers.length < 1
  · rw [if_pos hlen]; exact Or.inl rfl
  rw [if_neg hlen]
  by_cases hmany : mv.covers.length > rackMaxTiles
  · rw [if_pos hmany]; exact Or.inr (Or.inl rfl)
  rw [if_neg hmany]
  by_cases hdis : ¬moveHoriz mv = true ∧ ¬moveVert mv = true
  · rw [if_pos hdis]; exact Or.inr (Or.inr (Or.inl rfl))
  rw [if_neg hdis]
  have hcenter : ((clSortMove mv).covers.any fun c =>
      c.row = boardSize / 2 ∧ c.col = boardSize / 2) = true ↔
      ∃ cv ∈ mv.covers, cv.row = 7 ∧ cv.col = 7 := by
    have hsz : boardSize / 2 = 7 := by decide
    simp only [List.any_eq_true, decide_eq_true_eq, hsz]
    constructor
    · rintro ⟨cv, hmem, hc⟩
      exact ⟨cv, (clSortMove_covers_perm mv).mem_iff.mp hmem, hc⟩
    · rintro ⟨cv, hmem, hc⟩
      exact ⟨cv, (clSortMove_covers_perm mv).mem_iff.mpr hmem, hc⟩
  rcases clPlacementPhase_init_cases db (clSortMove mv) with h | h | h
  · exact Or.inr (Or.inr (Or.inr (Or.inl h)))
  · exact Or.inr (Or.inr (Or.inr (Or.inr (Or.inl h))))
  · refine Or.inr (Or.inr (Or.inr (Or.inr (Or.inr ?_))))
    rw [h]
    by_cases hany : ∃ cv ∈ mv.covers, cv.row = 7 ∧ cv.col = 7
    · rw [if_pos (hcenter.mpr hany), if_pos hany]
    · rw [if_neg (fun hc => hany (hcenter.mp hc)), if_neg hany]

/-! ## Claim theorems -/

/-- Claim C2 (confirmed).  First-move centre rule: on the empty board, when
`check_legality` does not fail one of its earlier tests (cover count,
disjointness, gaps, dictionary), the result is `FIRST_MOVE_NOT_IN_CENTER`
exactly when no cover lies on the centre square (7, 7) (Python 2 integer
division: `Board.SIZE / 2 == 7`); in particular a dictionary-word move with
a cover on (7, 7) is not rejected with that code.  The empty board cannot
produce `SQUARE_ALREADY_OCCUPIED`, so that code needs no exclusion. -/
theorem checkLegality_first_move_center (db : Str → Bool) (rack : Rack)
    (mv : Move)
    (h1 : (checkLegality db Board.init rack mv).1 ≠ .NULL_MOVE)
    (h2 : (checkLegality db Board.init rack mv).1 ≠ .TOO_MANY_TILES_PLAYED)
    (h3 : (checkLegality db Board.init rack mv).1 ≠ .DISJOINT)
    (h4 : (checkLegality db Board.init rack mv).1 ≠ .HAS_GAP)
    (h5 : (checkLegality db Board.init rack mv).1 ≠ .WORD_NOT_IN_DICTIONARY) :
    ((checkLegality db Board.init rack mv).1 = .FIRST_MOVE_NOT_IN_CENTER ↔
      ¬ ∃ cv ∈ mv.covers, cv.row = 7 ∧ cv.col = 7) := by
  rcases checkLegality_init_cases db rack mv with h | h | h | h | h | h
  · exact absurd h h1
  · exact absurd h h2
  · exact absurd h h3
  · exact absurd h h4
  · exact absurd h h5
  · rw [h]
    by_cases hany : ∃ cv ∈ mv.covers, cv.row = 7 ∧ cv.col = 7
    · simp [hany]
    · simp [hany]

/-- Witness for C2: a dictionary-word move at row 6 (off centre) on the
empty board is rejected with `FIRST_MOVE_NOT_IN_CENTER`. -/
theorem checkLegality_first_move_center_witness :
    (checkLegality dbAB Board.init ⟨[]⟩ moveOffCenter).1 =
      .FIRST_MOVE_NOT_IN_CENTER := by
  exact (checkLegality_first_move_center dbAB ⟨[]⟩ moveOffCenter
    (by decide) (by decide) (by decide) (by decide) (by decide)).mpr
    (by decide)

/-- Claim C7 (confirmed).  Bingo bonus: `Move.score(board)` is exactly the
primary-word score plus the cross-word scores, plus 50 bonus points exactly
when the move has 7 covers (`Rack.MAX_TILES`) and no bonus otherwise.  In
particular a 7-cover move scores `base + 50 ≥ base + 50`. -/
theorem move_score_bingo_decomposition (mv : Move) (board : Board) :
    mv.score board = mv.primaryScore board + mv.crossScore board +
      (if mv.covers.length = rackMaxTiles then bingoBonus else 0) := by
  unfold Move.score Move.primaryScore Move.crossScore
  dsimp only
  split <;> simp

/-- Claim C10 (confirmed).  Frame property of `Move.apply`: the board is
modified only at the squares listed in the move's covers; every square
`(r, c)` that is not a cover position keeps its `letter_at` and `tile_at`
values.  The hypotheses record that the board grids are 15 x 15 (as
established by `Board.__init__`) and that the covers lie on the board (as
validated by `Move.add_cover`). -/
theorem move_apply_frame (mv : Move) (board : Board) (rack : Rack)
    (hwf : BoardWF board)
    (hcov : ∀ cv ∈ mv.covers, cv.row < boardSize ∧ cv.col < boardSize)
    (r c : Nat)
    (hnot : ∀ cv ∈ mv.covers, ¬(cv.row = r ∧ cv.col = c)) :
    (mv.apply board rack).1.letter_at r c = board.letter_at r c ∧
    (mv.apply board rack).1.tile_at r c = board.tile_at r c := by
  unfold Move.apply
  suffices hgen : ∀ (covers : List Cover) (b : Board) (rk : Rack), BoardWF b →
      (∀ cv ∈ covers, cv.row < boardSize ∧ cv.col < boardSize) →
      (∀ cv ∈ covers, ¬(cv.row = r ∧ cv.col = c)) →
      (covers.foldl
        (fun br cv =>
          (((br.1.set_letter cv.row cv.col cv.letter).set_tile
              cv.row cv.col cv.tile), br.2.remove_tile cv.tile))
        (b, rk)).1.letter_at r c = b.letter_at r c ∧
      (covers.foldl
        (fun br cv =>
          (((br.1.set_letter cv.row cv.col cv.letter).set_tile
              cv.row cv.col cv.tile), br.2.remove_tile cv.tile))
        (b, rk)).1.tile_at r c = b.tile_at r c by
    exact hgen mv.covers board rack hwf hcov hnot
  intro covers
  induction covers with
  | nil => intro b rk _ _ _; exact ⟨rfl, rfl⟩
  | cons cv rest ih =>
    intro b rk hwfb hcv hnt
    simp only [List.foldl_cons]
    have hcvr := hcv cv (List.mem_cons_self cv rest)
    have hwfl : BoardWF (b.set_letter cv.row cv.col cv.letter) :=
      boardWF_set_letter _ _ _ _ hwfb hcvr.2
    have hwf1 : BoardWF
        ((b.set_letter cv.row cv.col cv.letter).set_tile
          cv.row cv.col cv.tile) :=
      boardWF_set_tile _ _ _ _ hwfl hcvr.2
    have hrec := ih _ (rk.remove_tile cv.tile) hwf1
      (fun x hx => hcv x (List.mem_cons_of_mem _ hx))
      (fun x hx => hnt x (List.mem_cons_of_mem _ hx))
    have hne := hnt cv (List.mem_cons_self cv rest)
    constructor
    · rw [hrec.1, letter_at_set_tile,
        letter_at_set_letter_ne _ _ _ _ _ _ hwfb.1 hcvr.2 hne]
    · rw [hrec.2, tile_at_set_tile_ne _ _ _ _ _ _ hwfl.2 hcvr.2 hne,
        tile_at_set_letter]

/-- Witness for C10: the initial board, a concrete move covering (7,7) and
(7,8), and the untouched square (0,0). -/
theorem move_apply_frame_witness :
    BoardWF Board.init ∧
    (moveAB.apply Board.init ⟨[]⟩).1.letter_at 0 0 =
      Board.init.letter_at 0 0 := by
  have h := move_apply_frame moveAB Board.init ⟨[]⟩ (by decide) (by decide)
    0 0 (by decide)
  exact ⟨by decide, h.1⟩

/-- Claim C3 (code bug).  The source of `check_legality` computes
`rack.contains(played)` but the `return Move.TILE_NOT_IN_RACK` statement is
commented out under `!!! TODO: Debugging aid; change this`, so a move whose
tiles are not in the rack is not rejected: here an empty rack plays "ab"
through the centre of an empty board and the check answers `LEGAL`. -/
theorem checkLegality_rack_check_disabled :
    Rack.contains ⟨[]⟩ (moveAB.covers.map (·.tile)) = false ∧
    (checkLegality dbAB Board.init ⟨[]⟩ moveAB).1 = .LEGAL := by
  exact ⟨by decide, by decide⟩

theorem EdgeSem_single_iff {g : Graph} {c : Char} {nx : Option Nat}
    {w2 : Str} :
    EdgeSem g [c] nx (c :: w2) ↔
      (finalAt g [] nx = true ∧ w2 = []) ∨
      (∃ nid, nx = some nid ∧ NodeSem g (g nid) w2) := by
  constructor
  · intro h
    cases h with
    | stop hfin => exact Or.inl ⟨hfin, rfl⟩
    | more hne hrec => simp [dropBar] at hne
    | child hnil hnode => exact Or.inr ⟨_, rfl, hnode⟩
  · rintro (⟨hfin, rfl⟩ | ⟨nid, rfl, hnode⟩)
    · exact .stop hfin
    · exact .child (by simp [dropBar]) hnode

theorem EdgeSem_bar_iff {g : Graph} {c : Char} {rest2 : Str}
    {nx : Option Nat} {w2 : Str} (hne : rest2 ≠ []) :
    EdgeSem g (c :: '|' :: rest2) nx (c :: w2) ↔
      (w2 = [] ∨ EdgeSem g rest2 nx w2) := by
  constructor
  · intro h
    cases h with
    | stop hfin => exact Or.inl rfl
    | more hne2 hrec => exact Or.inr (by simpa [dropBar] using hrec)
    | child hnil hnode => simp [dropBar] at hnil; exact absurd hnil hne
  · rintro (rfl | hrec)
    · exact .stop (by simp [finalAt])
    · exact .more (by simpa [dropBar] using hne) (by simpa [dropBar] using hrec)

theorem EdgeSem_step_iff {g : Graph} {c r2 : Char} {rest2 : Str}
    {nx : Option Nat} {w2 : Str} (hbar : r2 ≠ '|') :
    EdgeSem g (c :: r2 :: rest2) nx (c :: w2) ↔
      EdgeSem g (r2 :: rest2) nx w2 := by
  constructor
  · intro h
    cases h with
    | stop hfin => simp [finalAt, hbar] at hfin
    | more hne2 hrec => simpa [dropBar, hbar] using hrec
    | child hnil hnode => simp [dropBar, hbar] at hnil
  · intro h
    exact .more (by simp [dropBar, hbar]) (by simpa [dropBar, hbar] using h)

theorem goodPfx_bar {c : Char} {rest2 : Str}
    (h : goodPfx (c :: '|' :: rest2) = true) :
    goodPfx rest2 = true ∧ rest2 ≠ [] := by
  simp only [goodPfx, Bool.and_eq_true, bne_iff_ne] at h
  obtain ⟨hc, hbar⟩ := h
  simp only [barOk] at hbar
  rw [if_pos (by simp)] at hbar
  cases rest2 with
  | nil => cases hbar
  | cons d t =>
    simp only [Bool.and_eq_true, bne_iff_ne] at hbar
    obtain ⟨hd, ht⟩ := hbar
    refine ⟨?_, by simp⟩
    simp only [goodPfx, Bool.and_eq_true, bne_iff_ne]
    refine ⟨hd, ?_⟩
    simpa [barOk, hd] using ht

theorem goodPfx_step {c r2 : Char} {rest2 : Str}
    (h : goodPfx (c :: r2 :: rest2) = true) (hbar : r2 ≠ '|') :
    goodPfx (r2 :: rest2) = true := by
  simp only [goodPfx, Bool.and_eq_true, bne_iff_ne] at h ⊢
  obtain ⟨hc, hrest⟩ := h
  refine ⟨hbar, ?_⟩
  simpa [barOk, hbar] using hrest

/-! ## Characterization of FindNavigator runs -/

theorem navEdgeF_nil {σ : Type} (g : Graph) (nv : Navigator σ)
    (recNode : DNode → Str → σ → σ) (nx : Option Nat) (matched : Str)
    (s : σ) :
    navEdgeF g nv recNode [] nx matched s =
      (if nv.accepting s then
        match nx with
        | none => s
        | some nid => recNode (g nid) matched s
      else s) := rfl

theorem navEdgeF_cons {σ : Type} (g : Graph) (nv : Navigator σ)
    (recNode : DNode → Str → σ → σ) (ch : Char) (rest : Str)
    (nx : Option Nat) (matched : Str) (s : σ) :
    navEdgeF g nv recNode (ch :: rest) nx matched s =
      (if nv.accepting s then
        match nv.accepts s ch with
        | none => s
        | some s1 =>
          match rest with
          | [] =>
            navEdgeF g nv recNode [] nx (matched ++ [ch])
              (nv.accept s1 (matched ++ [ch]) (nullOrFinal g nx))
          | r2 :: rest2 =>
            if r2 == '|' then
              navEdgeF g nv recNode rest2 nx (matched ++ [ch])
                (nv.accept s1 (matched ++ [ch]) true)
            else
              navEdgeF g nv recNode (r2 :: rest2) nx (matched ++ [ch])
                (nv.accept s1 (matched ++ [ch]) false)
      else s) := by
  conv_lhs => rw [navEdgeF]
  rfl

theorem navNode_zero {σ : Type} (g : Graph) (nv : Navigator σ) (nd : DNode)
    (matched : Str) (s : σ) : navNode g nv 0 nd matched s = s := rfl

theorem navNode_succ {σ : Type} (g : Graph) (nv : Navigator σ) (fuel : Nat)
    (nd : DNode) (matched : Str) (s : σ) :
    navNode g nv (fuel + 1) nd matched s =
      navEdgesF g nv (navNode g nv fuel) nd.edges matched s := rfl

theorem navEdgesF_nil {σ : Type} (g : Graph) (nv : Navigator σ)
    (recNode : DNode → Str → σ → σ) (matched : Str) (s : σ) :
    navEdgesF g nv recNode [] matched s = s := rfl

theorem navEdgesF_cons {σ : Type} (g : Graph) (nv : Navigator σ)
    (recNode : DNode → Str → σ → σ) (pfx : Str) (nx : Option Nat)
    (rest : List (Str × Option Nat)) (matched : Str) (s : σ) :
    navEdgesF g nv recNode ((pfx, nx) :: rest) matched s =
      (match nv.pushEdge s (pfx.headD ' ') with
      | (false, s1) => navEdgesF g nv recNode rest matched s1
      | (true, s1) =>
        match nv.popEdge (navEdgeF g nv recNode pfx nx matched s1) with
        | (false, s3) => s3
        | (true, s3) => navEdgesF g nv recNode rest matched s3) := rfl

/-- Walking an edge with `FindNavigator`: the `found` flag afterwards holds
exactly when it held before or the remaining word is recognized from this
point of the edge. -/
theorem findNav_edge_aux (g : Graph) (hg : WFGraph g) (w : Str) (fuel : Nat)
    (ihnode : ∀ nd : DNode, WFNode nd → ∀ (matched : Str) (i : Nat) (f : Bool),
      w.length ≤ i + fuel →
      ((navNode g (findNavigator w) fuel nd matched ⟨i, f⟩).found = true ↔
        (f = true ∨ NodeSem g nd (w.drop i))))
    (pfx : Str) (nx : Option Nat) (matched : Str) (i : Nat) (f : Bool)
    (hgood : pfx = [] ∨ goodPfx pfx = true)
    (hfuel : w.length ≤ i + fuel + (if pfx = [] then 0 else 1)) :
    ((navEdgeF g (findNavigator w) (navNode g (findNavigator w) fuel)
        pfx nx matched ⟨i, f⟩).found = true ↔
      (f = true ∨ edgeContSem g pfx nx (w.drop i))) := by
  cases pfx with
  | nil =>
    have hfuel0 : w.length ≤ i + fuel := by simpa using hfuel
    rw [navEdgeF_nil]
    by_cases hi : i < w.length
    · rw [if_pos (by simpa [findNavigator] using hi)]
      cases nx with
      | none =>
        show f = true ↔ f = true ∨ False
        simp
      | some nid =>
        show ((navNode g (findNavigator w) fuel (g nid) matched
          ⟨i, f⟩).found = true ↔ _)
        exact ihnode (g nid) (hg nid) matched i f hfuel0
    · rw [if_neg (by simpa [findNavigator] using hi)]
      have hdrop : w.drop i = [] := List.drop_eq_nil_of_le (by omega)
      rw [hdrop]
      cases nx with
      | none =>
        show f = true ↔ f = true ∨ False
        simp
      | some nid =>
        show f = true ↔ f = true ∨ NodeSem g (g nid) []
        constructor
        · exact Or.inl
        · rintro (hf | hns)
          · exact hf
          · exact absurd hns NodeSem_not_nil
  | cons ch rest =>
    have hgd : goodPfx (ch :: rest) = true := hgood.resolve_left (by simp)
    have hfuel1 : w.length ≤ i + fuel + 1 := by simpa using hfuel
    have hcont : edgeContSem g (ch :: rest) nx (w.drop i) =
        EdgeSem g (ch :: rest) nx (w.drop i) := rfl
    rw [navEdgeF_cons, hcont]
    by_cases hi : i < w.length
    · rw [if_pos (by simpa [findNavigator] using hi)]
      have hdrop := drop_cons_of_lt hi
      by_cases hc : w.getD i ' ' = ch
      · have hacc : (findNavigator w).accepts ⟨i, f⟩ ch =
            some ⟨i + 1, f⟩ := by
          have hc2 : w[i]?.getD ' ' = ch := by
            rw [← List.getD_eq_getElem?_getD]; exact hc
          simp only [findNavigator]
          rw [if_neg (by simp [hc2])]
        rw [hacc]
        dsimp only
        rw [hc] at hdrop
        cases rest with
        | nil =>
          dsimp only
          have hfin : nullOrFinal g nx = finalAt g [] nx := rfl
          rw [hfin]
          have haccept : (findNavigator w).accept ⟨i + 1, f⟩ (matched ++ [ch])
              (finalAt g [] nx) =
              (⟨i + 1, f || (finalAt g [] nx && decide (i + 1 = w.length))⟩ :
                FindState) := by
            simp only [findNavigator]
            by_cases hcond : finalAt g [] nx = true ∧ i + 1 = w.length
            · rw [if_pos (by simp [hcond.1, hcond.2])]
              simp [hcond.1, hcond.2]
            · rw [if_neg (by
                intro hcc
                simp only [Bool.and_eq_true, beq_iff_eq, decide_eq_true_eq]
                  at hcc
                exact hcond ⟨hcc.1, hcc.2⟩)]
              have hfls : (finalAt g [] nx &&
                  decide (i + 1 = w.length)) = false := by
                by_contra hne
                simp only [Bool.and_eq_true, decide_eq_true_eq,
                  Bool.not_eq_false] at hne
                exact hcond ⟨hne.1, hne.2⟩
              simp [hfls]
          rw [haccept]
          have hrec := findNav_edge_aux g hg w fuel ihnode [] nx
            (matched ++ [ch]) (i + 1)
            (f || (finalAt g [] nx && decide (i + 1 = w.length)))
            (Or.inl rfl) (by simp only [if_pos rfl]; omega)
          rw [hrec, hdrop]
          have hd1 : w.drop (i + 1) = [] ↔ i + 1 = w.length := by
            rw [List.drop_eq_nil_iff]
            omega
          rw [EdgeSem_single_iff]
          cases nx with
          | none =>
            show (f || (finalAt g [] none && decide (i + 1 = w.length))) =
                true ∨ False ↔ _
            simp only [finalAt, nullOrFinal, Bool.true_and, or_false,
              Bool.or_eq_true, decide_eq_true_eq]
            constructor
            · rintro (hf | hlen)
              · exact Or.inl hf
              · exact Or.inr (Or.inl ⟨trivial, hd1.mpr hlen⟩)
            · rintro (hf | ⟨_, hnil⟩ | ⟨nid, hsome, _⟩)
              · exact Or.inl hf
              · exact Or.inr (hd1.mp hnil)
              · cases hsome
          | some nid =>
            show (f || (finalAt g [] (some nid) && decide (i + 1 = w.length)))
                = true ∨ NodeSem g (g nid) (w.drop (i + 1)) ↔ _
            simp only [Bool.or_eq_true, Bool.and_eq_true, decide_eq_true_eq]
            constructor
            · rintro ((hf | ⟨hfin2, hlen⟩) | hns)
              · exact Or.inl hf
              · exact Or.inr (Or.inl ⟨hfin2, hd1.mpr hlen⟩)
              · exact Or.inr (Or.inr ⟨nid, rfl, hns⟩)
            · rintro (hf | ⟨hfin2, hnil⟩ | ⟨nid2, hsome, hns⟩)
              · exact Or.inl (Or.inl hf)
              · exact Or.inl (Or.inr ⟨hfin2, hd1.mp hnil⟩)
              · cases hsome
                exact Or.inr hns
        | cons r2 rest2 =>
          dsimp only
          by_cases hb : r2 = '|'
          · rw [if_pos (by simp [hb])]
            subst hb
            obtain ⟨hg2, hne2⟩ := goodPfx_bar hgd
            have haccept : (findNavigator w).accept ⟨i + 1, f⟩
                (matched ++ [ch]) true =
                (⟨i + 1, f || decide (i + 1 = w.length)⟩ : FindState) := by
              simp only [findNavigator, Bool.true_and]
              by_cases hlen : i + 1 = w.length
              · rw [if_pos (by simp [hlen])]
                simp [hlen]
              · rw [if_neg (by simp [hlen])]
                simp [hlen]
            rw [haccept]
            have hrec := findNav_edge_aux g hg w fuel ihnode rest2 nx
              (matched ++ [ch]) (i + 1) (f || decide (i + 1 = w.length))
              (Or.inr hg2) (by split <;> omega)
            rw [hrec, hdrop]
            have hcont2 : edgeContSem g rest2 nx (w.drop (i + 1)) =
                EdgeSem g rest2 nx (w.drop (i + 1)) := by
              cases rest2 with
              | nil => exact absurd rfl hne2
              | cons a b => rfl
            rw [hcont2, EdgeSem_bar_iff hne2]
            have hd1 : w.drop (i + 1) = [] ↔ i + 1 = w.length := by
              rw [List.drop_eq_nil_iff]
              omega
            simp only [Bool.or_eq_true, decide_eq_true_eq]
            constructor
            · rintro ((hf | hlen) | hrec2)
              · exact Or.inl hf
              · exact Or.inr (Or.inl (hd1.mpr hlen))
              · exact Or.inr (Or.inr hrec2)
            · rintro (hf | hnil | hrec2)
              · exact Or.inl (Or.inl hf)
              · exact Or.inl (Or.inr (hd1.mp hnil))
              · exact Or.inr hrec2
          · rw [if_neg (by simp [hb])]
            have hg2 := goodPfx_step hgd hb
            have haccept : (findNavigator w).accept ⟨i + 1, f⟩
                (matched ++ [ch]) false = (⟨i + 1, f⟩ : FindState) := by
              simp [findNavigator]
            rw [haccept]
            have hrec := findNav_edge_aux g hg w fuel ihnode (r2 :: rest2) nx
              (matched ++ [ch]) (i + 1) f (Or.inr hg2) (by simp; omega)
            rw [hrec, hdrop]
            rw [show edgeContSem g (r2 :: rest2) nx (w.drop (i + 1)) =
              EdgeSem g (r2 :: rest2) nx (w.drop (i + 1)) from rfl]
            rw [EdgeSem_step_iff hb]
      · have hacc : (findNavigator w).accepts ⟨i, f⟩ ch = none := by
          simp only [findNavigator]
          rw [if_pos (by simpa using hc)]
        rw [hacc]
        show f = true ↔ f = true ∨ EdgeSem g (ch :: rest) nx (w.drop i)
        
        constructor
        · exact Or.inl
        · rintro (hf | he)
          · exact hf
          · obtain ⟨c2, p2, w2, hp, hw⟩ := EdgeSem_shape he
            cases hp
            rw [drop_cons_of_lt hi] at hw
            cases hw
            exact absurd rfl hc
    · rw [if_neg (by simpa [findNavigator] using hi)]
      have hdrop : w.drop i = [] := List.drop_eq_nil_of_le (by omega)
      rw [hdrop]
      show f = true ↔ f = true ∨ EdgeSem g (ch :: rest) nx []
      constructor
      · exact Or.inl
      · rintro (hf | he)
        · exact hf
        · exact absurd he EdgeSem_not_nil
termination_by pfx.length

/-- Navigating from a node with `FindNavigator`: the `found` flag holds
afterwards exactly when it held before or the remaining word is recognized
from this node. -/
theorem findNav_node (g : Graph) (hg : WFGraph g) (w : Str) :
    ∀ fuel : Nat, ∀ nd : DNode, WFNode nd →
      ∀ (matched : Str) (i : Nat) (f : Bool), w.length ≤ i + fuel →
      ((navNode g (findNavigator w) fuel nd matched ⟨i, f⟩).found = true ↔
        (f = true ∨ NodeSem g nd (w.drop i))) := by
  intro fuel
  induction fuel with
  | zero =>
    intro nd hnd matched i f hfuel
    rw [navNode_zero]
    have hdrop : w.drop i = [] := List.drop_eq_nil_of_le (by omega)
    rw [hdrop]
    constructor
    · exact Or.inl
    · rintro (hf | hns)
      · exact hf
      · exact absurd hns NodeSem_not_nil
  | succ fuel ih =>
    intro nd hnd matched i f hfuel
    rw [navNode_succ]
    obtain ⟨hgood, hnodup⟩ := hnd
    have hloop : ∀ (edges : List (Str × Option Nat)),
        (∀ e ∈ edges, goodPfx e.1 = true) →
        ((edges.map fun e => e.1.headD ' ').Nodup) →
        ∀ f0 : Bool,
        ((navEdgesF g (findNavigator w) (navNode g (findNavigator w) fuel)
            edges matched ⟨i, f0⟩).found = true ↔
          (f0 = true ∨ ∃ e ∈ edges, EdgeSem g e.1 e.2 (w.drop i))) := by
      intro edges
      induction edges with
      | nil =>
        intro _ _ f0
        rw [navEdgesF_nil]
        simp
      | cons e rest ihe =>
        intro hge hnd2 f0
        obtain ⟨pfx, nx⟩ := e
        rw [navEdgesF_cons]
        have hgp : goodPfx pfx = true := hge _ (List.mem_cons_self _ _)
        by_cases hpush : w.getD i ' ' = pfx.headD ' '
        · have hbeq : (findNavigator w).pushEdge ⟨i, f0⟩ (pfx.headD ' ') =
              (true, ⟨i, f0⟩) := by
            simp only [findNavigator]
            rw [beq_iff_eq.mpr hpush]
          rw [hbeq]
          dsimp only
          have hpop : (findNavigator w).popEdge
              (navEdgeF g (findNavigator w) (navNode g (findNavigator w)
                fuel) pfx nx matched ⟨i, f0⟩) =
              (false, navEdgeF g (findNavigator w) (navNode g
                (findNavigator w) fuel) pfx nx matched ⟨i, f0⟩) := rfl
          rw [hpop]
          dsimp only
          have hedge := findNav_edge_aux g hg w fuel ih pfx nx matched i f0
            (Or.inr hgp)
            (by rw [if_neg (goodPfx_ne_nil hgp)]; omega)
          have hcont : edgeContSem g pfx nx (w.drop i) =
              EdgeSem g pfx nx (w.drop i) := by
            cases pfx with
            | nil => exact absurd rfl (goodPfx_ne_nil hgp)
            | cons a b => rfl
          rw [hcont] at hedge
          rw [hedge]
          constructor
          · rintro (hf | he)
            · exact Or.inl hf
            · exact Or.inr ⟨(pfx, nx), List.mem_cons_self _ _, he⟩
          · rintro (hf | ⟨e2, hmem, he2⟩)
            · exact Or.inl hf
            · rcases List.mem_cons.mp hmem with rfl | htail
              · exact Or.inr he2
              · -- an edge further down the list cannot recognize the word:
                -- its first character differs from the pushed edge's
                obtain ⟨c2, p2, w2, hp2, hw2⟩ := EdgeSem_shape he2
                by_cases hi : i < w.length
                · rw [drop_cons_of_lt hi] at hw2
                  have hc2 : c2 = w.getD i ' ' := by
                    injection hw2 with h1 h2
                    exact h1.symm
                  exfalso
                  have hhd : e2.1.headD ' ' = pfx.headD ' ' := by
                    rw [hp2]
                    simp only [List.headD_cons]
                    rw [hc2, hpush]
                  have hnodup2 := List.nodup_cons.mp hnd2
                  have hm : e2.1.headD ' ' ∈
                      List.map (fun e => e.1.headD ' ') rest :=
                    List.mem_map_of_mem _ htail
                  rw [hhd] at hm
                  exact hnodup2.1 (by simpa using hm)
                · have hdrop : w.drop i = [] :=
                    List.drop_eq_nil_of_le (by omega)
                  rw [hdrop] at he2
                  exact absurd he2 EdgeSem_not_nil
        · have hbeq : (findNavigator w).pushEdge ⟨i, f0⟩ (pfx.headD ' ') =
              (false, ⟨i, f0⟩) := by
            simp only [findNavigator]
            rw [beq_eq_false_iff_ne.mpr hpush]
          rw [hbeq]
          dsimp only
          rw [ihe (fun e he => hge e (List.mem_cons_of_mem _ he))
            (List.nodup_cons.mp hnd2).2 f0]
          constructor
          · rintro (hf | hex)
            · exact Or.inl hf
            · exact Or.inr (by
                obtain ⟨e2, hmem, he2⟩ := hex
                exact ⟨e2, List.mem_cons_of_mem _ hmem, he2⟩)
          · rintro (hf | ⟨e2, hmem, he2⟩)
            · exact Or.inl hf
            · rcases List.mem_cons.mp hmem with rfl | htail
              · -- the skipped head edge cannot recognize the word
                obtain ⟨c2, p2, w2, hp2, hw2⟩ := EdgeSem_shape he2
                by_cases hi : i < w.length
                · exfalso
                  rw [drop_cons_of_lt hi] at hw2
                  have h1 : List.getD w i ' ' = c2 :=
                    (List.cons_eq_cons.mp hw2).1
                  have hp2' : pfx = c2 :: p2 := hp2
                  exact hpush (by rw [hp2']; simpa using h1)
                · have hdrop : w.drop i = [] :=
                    List.drop_eq_nil_of_le (by omega)
                  rw [hdrop] at he2
                  exact absurd he2 EdgeSem_not_nil
              · exact Or.inr ⟨e2, htail, he2⟩
    rw [hloop nd.edges hgood hnodup f]
    rw [NodeSem_iff]

/-- `DawgDictionary.find` answers membership in the loaded graph's word
set: on a well-formed loaded dictionary with a root node, `find(word)`
returns true exactly when the word is recognized from the root. -/
theorem dawg_find_iff (d : DawgDict) (w : Str)
    (hwf : WFGraph d.graph) (root : DNode)
    (hroot : lookupNode d.nodes 0 = some root) :
    (d.find w = some true ↔ NodeSem d.graph root w) := by
  unfold DawgDict.find
  rw [hroot]
  dsimp only
  unfold navGo
  by_cases hw : w = []
  · subst hw
    rw [if_neg (by simp [findNavigator])]
    simp only [Option.some.injEq]
    constructor
    · intro h
      simp at h
    · intro h
      exact absurd h NodeSem_not_nil
  · rw [if_pos (by
      simp only [findNavigator, decide_eq_true_eq]
      exact List.length_pos.mpr hw)]
    have hg0 : d.graph 0 = root := by
      unfold DawgDict.graph
      rw [hroot]
      rfl
    have hroot_wf : WFNode root := hg0 ▸ hwf 0
    have hnode := findNav_node d.graph hwf w (w.length + 1) root hroot_wf
      [] 0 false (by omega)
    rw [List.drop_zero] at hnode
    simp only [Option.some.injEq]
    rw [hnode]
    simp


/-! ## Well-formedness of concrete loaded dictionaries -/

theorem lookupNode_mem {nodes : List (Nat × DNode)} {i : Nat} {nd : DNode}
    (h : lookupNode nodes i = some nd) : (i, nd) ∈ nodes := by
  induction nodes with
  | nil => cases h
  | cons e rest ih =>
    obtain ⟨j, nd2⟩ := e
    rw [lookupNode] at h
    by_cases hj : j = i
    · rw [if_pos hj] at h
      cases h
      cases hj
      exact List.mem_cons_self _ _
    · rw [if_neg hj] at h
      exact List.mem_cons_of_mem _ (ih h)

theorem WFNode_default : WFNode ⟨false, []⟩ := by
  constructor
  · intro e he
    cases he
  · simp

theorem WFGraph_of_nodes (d : DawgDict) (h : ∀ e ∈ d.nodes, WFNode e.2) :
    WFGraph d.graph := by
  intro i
  unfold DawgDict.graph
  cases hl : lookupNode d.nodes i with
  | none => exact WFNode_default
  | some nd => exact h (i, nd) (lookupNode_mem hl)

/-! ## The pattern-match predicate -/

theorem getD_zero_eq_headD (p : Str) : p.getD 0 ' ' = p.headD ' ' := by
  cases p <;> rfl

theorem matchSfx_nil {p : Str} {i : Nat} : matchSfx p i [] ↔ i = p.length := by
  unfold matchSfx
  simp

theorem matchSfx_cons {p : Str} {i : Nat} {c : Char} {sfx : Str} :
    matchSfx p i (c :: sfx) ↔
      (p.getD i ' ' = '?' ∨ c = p.getD i ' ') ∧ matchSfx p (i + 1) sfx := by
  unfold matchSfx
  constructor
  · rintro ⟨hlen, hall⟩
    refine ⟨?_, ?_, ?_⟩
    · have h0 := hall 0 (by simp)
      simpa using h0
    · simp only [List.length_cons] at hlen
      omega
    · intro j hj
      have hj1 := hall (j + 1) (by simp; omega)
      have harith : i + (j + 1) = i + 1 + j := by omega
      rw [harith] at hj1
      simpa using hj1
  · rintro ⟨h0, hlen, hall⟩
    refine ⟨by simp only [List.length_cons]; omega, ?_⟩
    intro j hj
    cases j with
    | zero => simpa using h0
    | succ j2 =>
      have hj2 := hall j2 (by simp at hj; omega)
      have harith : i + (j2 + 1) = i + 1 + j2 := by omega
      rw [harith]
      simpa using hj2

/-! ## Small-step lemmas for the MatchNavigator operations -/

theorem matchPush (p : Str) (i : Nat) (cm : Char) (wc : Bool)
    (stk : List (Nat × Char × Bool)) (res : List Str) (c : Char) :
    (matchNavigator p).pushEdge ⟨i, cm, wc, stk, res⟩ c =
      if !wc && (c != cm) then (false, ⟨i, cm, wc, stk, res⟩)
      else (true, ⟨i, cm, wc, (i, cm, wc) :: stk, res⟩) := rfl

theorem matchAccepting (p : Str) (i : Nat) (cm : Char) (wc : Bool)
    (stk : List (Nat × Char × Bool)) (res : List Str) :
    (matchNavigator p).accepting ⟨i, cm, wc, stk, res⟩ =
      decide (i < p.length) := rfl

theorem matchAccepts (p : Str) (i : Nat) (cm : Char) (wc : Bool)
    (stk : List (Nat × Char × Bool)) (res : List Str) (ch : Char) :
    (matchNavigator p).accepts ⟨i, cm, wc, stk, res⟩ ch =
      if !wc && (ch != cm) then none
      else if i + 1 < p.length then
        some ⟨i + 1, p.getD (i + 1) ' ', p.getD (i + 1) ' ' == '?', stk, res⟩
      else some ⟨i + 1, cm, wc, stk, res⟩ := rfl

theorem matchAccept (p : Str) (i : Nat) (cm : Char) (wc : Bool)
    (stk : List (Nat × Char × Bool)) (res : List Str) (m : Str) (fin : Bool) :
    (matchNavigator p).accept ⟨i, cm, wc, stk, res⟩ m fin =
      ⟨i, cm, wc, stk,
        if fin && (i == p.length) then res ++ [m] else res⟩ := by
  show (if fin && (i == p.length) then _ else _) = _
  split
  · rename_i h
    simp only [if_pos h]
  · rename_i h
    simp only [if_neg h]

theorem matchPop (p : Str) (i : Nat) (cm : Char) (wc : Bool)
    (ix : Nat) (ch : Char) (wcc : Bool)
    (stk : List (Nat × Char × Bool)) (res : List Str) :
    (matchNavigator p).popEdge ⟨i, cm, wc, (ix, ch, wcc) :: stk, res⟩ =
      (wcc, ⟨ix, ch, wcc, stk, res⟩) := rfl

theorem mem_ite_append {res : List Str} {m v : Str} {b : Bool} :
    v ∈ (if b then res ++ [m] else res) ↔ v ∈ res ∨ (b = true ∧ v = m) := by
  cases b <;> simp

/-- Walking an edge with `MatchNavigator`: the stack is preserved, and the
result list afterwards contains exactly the prior results plus the words
`matched ++ sfx` for suffixes `sfx` recognized from this point of the edge
that fill the rest of the pattern. -/
theorem matchNav_edge_aux (g : Graph) (hg : WFGraph g) (p : Str) (fuel : Nat)
    (ihnode : ∀ nd : DNode, WFNode nd → ∀ (matched : Str) (i : Nat)
      (cm : Char) (wc : Bool) (stk : List (Nat × Char × Bool))
      (res : List Str),
      p.length ≤ i + fuel →
      (i < p.length → cm = p.getD i ' ' ∧ wc = (p.getD i ' ' == '?')) →
      ∃ res2, navNode g (matchNavigator p) fuel nd matched
          ⟨i, cm, wc, stk, res⟩ = ⟨i, cm, wc, stk, res2⟩ ∧
        ∀ v, v ∈ res2 ↔ v ∈ res ∨ ∃ sfx, NodeSem g nd sfx ∧
          matchSfx p i sfx ∧ v = matched ++ sfx)
    (pfx : Str) (nx : Option Nat) (matched : Str) (i : Nat) (cm : Char)
    (wc : Bool) (stk : List (Nat × Char × Bool)) (res : List Str)
    (hgood : pfx = [] ∨ goodPfx pfx = true)
    (hfuel : p.length ≤ i + fuel + (if pfx = [] then 0 else 1))
    (hinv : i < p.length → cm = p.getD i ' ' ∧ wc = (p.getD i ' ' == '?')) :
    ∃ i2 cm2 wc2 res2,
      navEdgeF g (matchNavigator p) (navNode g (matchNavigator p) fuel)
          pfx nx matched ⟨i, cm, wc, stk, res⟩ = ⟨i2, cm2, wc2, stk, res2⟩ ∧
      ∀ v, v ∈ res2 ↔ v ∈ res ∨ ∃ sfx, edgeContSem g pfx nx sfx ∧
        matchSfx p i sfx ∧ v = matched ++ sfx := by
  cases pfx with
  | nil =>
    have hfuel0 : p.length ≤ i + fuel := by simpa using hfuel
    rw [navEdgeF_nil]
    by_cases hi : i < p.length
    · rw [if_pos (by simpa [matchNavigator] using hi)]
      cases nx with
      | none =>
        refine ⟨i, cm, wc, res, rfl, fun v => ?_⟩
        constructor
        · exact Or.inl
        · rintro (hv | ⟨sfx, hsem, _, _⟩)
          · exact hv
          · exact (hsem : False).elim
      | some nid =>
        obtain ⟨res2, heq, hmem⟩ :=
          ihnode (g nid) (hg nid) matched i cm wc stk res hfuel0 hinv
        exact ⟨i, cm, wc, res2, heq, fun v => hmem v⟩
    · rw [if_neg (by simpa [matchNavigator] using hi)]
      refine ⟨i, cm, wc, res, rfl, fun v => ?_⟩
      constructor
      · exact Or.inl
      · rintro (hv | ⟨sfx, hsem, hms, _⟩)
        · exact hv
        · exfalso
          have hsfx : sfx = [] := by
            have hlen := hms.1
            have : sfx.length = 0 := by omega
            exact List.eq_nil_of_length_eq_zero this
          subst hsfx
          cases nx with
          | none => exact (hsem : False).elim
          | some nid => exact NodeSem_not_nil hsem
  | cons ch rest =>
    have hgd : goodPfx (ch :: rest) = true := hgood.resolve_left (by simp)
    have hfuel1 : p.length ≤ i + fuel + 1 := by simpa using hfuel
    rw [navEdgeF_cons]
    by_cases hi : i < p.length
    · rw [if_pos (by simpa [matchNavigator] using hi)]
      obtain ⟨hcm, hwc⟩ := hinv hi
      by_cases hok : p.getD i ' ' = '?' ∨ ch = p.getD i ' '
      · have hcond : ¬((!wc && (ch != cm)) = true) := by
          intro hx
          simp only [Bool.and_eq_true, Bool.not_eq_eq_eq_not, Bool.not_true,
            bne_iff_ne] at hx
          rcases hok with hq | he
          · rw [hwc, hq] at hx
            simp at hx
          · exact hx.2 (by rw [he, hcm])
        have hstep : ∃ cm1 wc1,
            (matchNavigator p).accepts ⟨i, cm, wc, stk, res⟩ ch =
              some ⟨i + 1, cm1, wc1, stk, res⟩ ∧
            (i + 1 < p.length →
              cm1 = p.getD (i + 1) ' ' ∧ wc1 = (p.getD (i + 1) ' ' == '?')) := by
          rw [matchAccepts, if_neg hcond]
          by_cases h1 : i + 1 < p.length
          · rw [if_pos h1]
            exact ⟨_, _, rfl, fun _ => ⟨rfl, rfl⟩⟩
          · rw [if_neg h1]
            exact ⟨cm, wc, rfl, fun hh => absurd hh h1⟩
        obtain ⟨cm1, wc1, hacc1, hinv1⟩ := hstep
        rw [hacc1]
        dsimp only
        cases rest with
        | nil =>
          dsimp only
          rw [matchAccept]
          obtain ⟨i2, cm2, wc2, res2, heq, hmem⟩ :=
            matchNav_edge_aux g hg p fuel ihnode [] nx (matched ++ [ch])
              (i + 1) cm1 wc1 stk
              (if nullOrFinal g nx && (i + 1 == p.length) then
                res ++ [matched ++ [ch]] else res)
              (Or.inl rfl) (by simp only [if_pos rfl]; omega) hinv1
          refine ⟨i2, cm2, wc2, res2, heq, fun v => ?_⟩
          rw [hmem v, mem_ite_append]
          constructor
          · rintro ((hv | ⟨hb, hveq⟩) | ⟨sfx, hsem, hms, hveq⟩)
            · exact Or.inl hv
            · refine Or.inr ⟨[ch], ?_, ?_, by simpa using hveq⟩
              · have hb1 : nullOrFinal g nx = true := by
                  simp only [Bool.and_eq_true] at hb
                  exact hb.1
                exact EdgeSem.stop hb1
              · rw [matchSfx_cons, matchSfx_nil]
                have hb2 : i + 1 = p.length := by
                  simp only [Bool.and_eq_true, beq_iff_eq] at hb
                  exact hb.2
                exact ⟨hok, hb2⟩
            · cases nx with
              | none => exact (hsem : False).elim
              | some nid =>
                refine Or.inr ⟨ch :: sfx, ?_, ?_, by simpa using hveq⟩
                · exact EdgeSem.child (by simp [dropBar]) hsem
                · rw [matchSfx_cons]
                  exact ⟨hok, hms⟩
          · rintro (hv | ⟨sfx, hsem, hms, hveq⟩)
            · exact Or.inl (Or.inl hv)
            · obtain ⟨c2, p2, w2, hpfx, hsfx⟩ :=
                EdgeSem_shape (hsem : EdgeSem g (ch :: []) nx sfx)
              injection hpfx with h1 h2
              subst hsfx
              cases h1
              have hsem2 : EdgeSem g (ch :: []) nx (ch :: w2) := hsem
              rw [EdgeSem_single_iff] at hsem2
              rw [matchSfx_cons] at hms
              obtain ⟨hok2, hms2⟩ := hms
              rcases hsem2 with ⟨hfin, hw2⟩ | ⟨nid, hnx, hns⟩
              · subst hw2
                refine Or.inl (Or.inr ⟨?_, by simpa using hveq⟩)
                rw [matchSfx_nil] at hms2
                simp only [Bool.and_eq_true, beq_iff_eq]
                exact ⟨hfin, hms2⟩
              · subst hnx
                exact Or.inr ⟨w2, hns, hms2, by simpa using hveq⟩
        | cons r2 rest2 =>
          dsimp only
          by_cases hb : r2 = '|'
          · rw [if_pos (by simp [hb])]
            subst hb
            obtain ⟨hg2, hne2⟩ := goodPfx_bar hgd
            rw [matchAccept]
            obtain ⟨i2, cm2, wc2, res2, heq, hmem⟩ :=
              matchNav_edge_aux g hg p fuel ihnode rest2 nx (matched ++ [ch])
                (i + 1) cm1 wc1 stk
                (if true && (i + 1 == p.length) then
                  res ++ [matched ++ [ch]] else res)
                (Or.inr hg2) (by split <;> omega) hinv1
            refine ⟨i2, cm2, wc2, res2, heq, fun v => ?_⟩
            rw [hmem v, mem_ite_append]
            have hcont2 : ∀ sfx, edgeContSem g rest2 nx sfx =
                EdgeSem g rest2 nx sfx := by
              intro sfx
              cases rest2 with
              | nil => exact absurd rfl hne2
              | cons a b => rfl
            constructor
            · rintro ((hv | ⟨hrec, hveq⟩) | ⟨sfx, hsem, hms, hveq⟩)
              · exact Or.inl hv
              · refine Or.inr ⟨[ch], ?_, ?_, by simpa using hveq⟩
                · exact (EdgeSem_bar_iff hne2).mpr (Or.inl rfl)
                · rw [matchSfx_cons, matchSfx_nil]
                  have hb2 : i + 1 = p.length := by
                    simp only [Bool.true_and, beq_iff_eq] at hrec
                    exact hrec
                  exact ⟨hok, hb2⟩
              · rw [hcont2] at hsem
                refine Or.inr ⟨ch :: sfx, ?_, ?_, by simpa using hveq⟩
                · exact (EdgeSem_bar_iff hne2).mpr (Or.inr hsem)
                · rw [matchSfx_cons]
                  exact ⟨hok, hms⟩
            · rintro (hv | ⟨sfx, hsem, hms, hveq⟩)
              · exact Or.inl (Or.inl hv)
              · obtain ⟨c2, p2, w2, hpfx, hsfx⟩ :=
                  EdgeSem_shape
                    (hsem : EdgeSem g (ch :: '|' :: rest2) nx sfx)
                injection hpfx with h1 h2
                subst hsfx
                cases h1
                have hsem2 : EdgeSem g (ch :: '|' :: rest2) nx (ch :: w2) :=
                  hsem
                rw [EdgeSem_bar_iff hne2] at hsem2
                rw [matchSfx_cons] at hms
                obtain ⟨hok2, hms2⟩ := hms
                rcases hsem2 with hw2 | hrec
                · subst hw2
                  refine Or.inl (Or.inr ⟨?_, by simpa using hveq⟩)
                  rw [matchSfx_nil] at hms2
                  simp only [Bool.true_and, beq_iff_eq]
                  exact hms2
                · refine Or.inr ⟨w2, ?_, hms2, by simpa using hveq⟩
                  rw [hcont2]
                  exact hrec
          · rw [if_neg (by simp [hb])]
            have hg2 := goodPfx_step hgd hb
            rw [matchAccept]
            rw [if_neg (by simp)]
            obtain ⟨i2, cm2, wc2, res2, heq, hmem⟩ :=
              matchNav_edge_aux g hg p fuel ihnode (r2 :: rest2) nx
                (matched ++ [ch]) (i + 1) cm1 wc1 stk res
                (Or.inr hg2) (by rw [if_neg (by simp)]; omega) hinv1
            refine ⟨i2, cm2, wc2, res2, heq, fun v => ?_⟩
            rw [hmem v]
            constructor
            · rintro (hv | ⟨sfx, hsem, hms, hveq⟩)
              · exact Or.inl hv
              · refine Or.inr ⟨ch :: sfx, ?_, ?_, by simpa using hveq⟩
                · exact (EdgeSem_step_iff hb).mpr hsem
                · rw [matchSfx_cons]
                  exact ⟨hok, hms⟩
            · rintro (hv | ⟨sfx, hsem, hms, hveq⟩)
              · exact Or.inl hv
              · obtain ⟨c2, p2, w2, hpfx, hsfx⟩ :=
                  EdgeSem_shape
                    (hsem : EdgeSem g (ch :: r2 :: rest2) nx sfx)
                injection hpfx with h1 h2
                subst hsfx
                cases h1
                have hsem2 : EdgeSem g (ch :: r2 :: rest2) nx (ch :: w2) :=
                  hsem
                rw [EdgeSem_step_iff hb] at hsem2
                rw [matchSfx_cons] at hms
                obtain ⟨hok2, hms2⟩ := hms
                exact Or.inr ⟨w2, hsem2, hms2, by simpa using hveq⟩
      · push_neg at hok
        have haccn : (matchNavigator p).accepts ⟨i, cm, wc, stk, res⟩ ch =
            none := by
          rw [matchAccepts]
          rw [if_pos (by
            simp only [Bool.and_eq_true, Bool.not_eq_eq_eq_not, Bool.not_true,
              bne_iff_ne]
            refine ⟨?_, ?_⟩
            · rw [hwc]
              simp only [beq_eq_false_iff_ne, ne_eq]
              exact hok.1
            · rw [hcm]
              exact hok.2)]
        rw [haccn]
        refine ⟨i, cm, wc, res, rfl, fun v => ?_⟩
        constructor
        · exact Or.inl
        · rintro (hv | ⟨sfx, hsem, hms, _⟩)
          · exact hv
          · exfalso
            obtain ⟨c2, p2, w2, hpfx, hsfx⟩ :=
              EdgeSem_shape (hsem : EdgeSem g (ch :: rest) nx sfx)
            injection hpfx with h1 h2
            subst hsfx
            cases h1
            rw [matchSfx_cons] at hms
            rcases hms.1 with hq | he
            · exact hok.1 hq
            · exact hok.2 he
    · rw [if_neg (by simpa [matchNavigator] using hi)]
      refine ⟨i, cm, wc, res, rfl, fun v => ?_⟩
      constructor
      · exact Or.inl
      · rintro (hv | ⟨sfx, hsem, hms, _⟩)
        · exact hv
        · exfalso
          have hsfx : sfx = [] := by
            have hlen := hms.1
            have : sfx.length = 0 := by omega
            exact List.eq_nil_of_length_eq_zero this
          subst hsfx
          exact EdgeSem_not_nil (hsem : EdgeSem g (ch :: rest) nx [])
termination_by pfx.length
/-- Navigating from a node with `MatchNavigator`: the index, current
match character, wildcard flag and stack are restored, and the result list
afterwards contains exactly the prior results plus the words
`matched ++ sfx` for suffixes recognized from this node that fill the rest
of the pattern. -/
theorem matchNav_node (g : Graph) (hg : WFGraph g) (p : Str) :
    ∀ fuel : Nat, ∀ nd : DNode, WFNode nd →
      ∀ (matched : Str) (i : Nat) (cm : Char) (wc : Bool)
        (stk : List (Nat × Char × Bool)) (res : List Str),
      p.length ≤ i + fuel →
      (i < p.length → cm = p.getD i ' ' ∧ wc = (p.getD i ' ' == '?')) →
      ∃ res2, navNode g (matchNavigator p) fuel nd matched
          ⟨i, cm, wc, stk, res⟩ = ⟨i, cm, wc, stk, res2⟩ ∧
        ∀ v, v ∈ res2 ↔ v ∈ res ∨ ∃ sfx, NodeSem g nd sfx ∧
          matchSfx p i sfx ∧ v = matched ++ sfx := by
  intro fuel
  induction fuel with
  | zero =>
    intro nd hnd matched i cm wc stk res hfuel hinv
    rw [navNode_zero]
    refine ⟨res, rfl, fun v => ?_⟩
    constructor
    · exact Or.inl
    · rintro (hv | ⟨sfx, hsem, hms, _⟩)
      · exact hv
      · exfalso
        have hsfx : sfx = [] := by
          have hlen := hms.1
          have : sfx.length = 0 := by omega
          exact List.eq_nil_of_length_eq_zero this
        subst hsfx
        exact NodeSem_not_nil hsem
  | succ fuel ih =>
    intro nd hnd matched i cm wc stk res hfuel hinv
    rw [navNode_succ]
    have hloop : ∀ es : List (Str × Option Nat),
        (∀ e ∈ es, goodPfx e.1 = true) →
        (es.map fun e => e.1.headD ' ').Nodup →
        ∀ res0 : List Str,
        ∃ res2, navEdgesF g (matchNavigator p)
            (navNode g (matchNavigator p) fuel) es matched
            ⟨i, cm, wc, stk, res0⟩ = ⟨i, cm, wc, stk, res2⟩ ∧
          ∀ v, v ∈ res2 ↔ v ∈ res0 ∨ ∃ e ∈ es, ∃ sfx, EdgeSem g e.1 e.2 sfx ∧
            matchSfx p i sfx ∧ v = matched ++ sfx := by
      intro es
      induction es with
      | nil =>
        intro _ _ res0
        rw [navEdgesF_nil]
        exact ⟨res0, rfl, fun v => by simp⟩
      | cons e rest ihe =>
        obtain ⟨pfx, nx⟩ := e
        intro hge hnd2 res0
        have hgp : goodPfx pfx = true := hge _ (List.mem_cons_self _ _)
        rw [navEdgesF_cons, matchPush]
        by_cases hpush : (!wc && (pfx.headD ' ' != cm)) = true
        · rw [if_pos hpush]
          dsimp only
          obtain ⟨res2, heq, hmem⟩ := ihe
            (fun e2 he2 => hge e2 (List.mem_cons_of_mem _ he2))
            (List.nodup_cons.mp hnd2).2 res0
          refine ⟨res2, heq, fun v => ?_⟩
          rw [hmem v]
          constructor
          · rintro (hv | ⟨e2, he2, hsfx⟩)
            · exact Or.inl hv
            · exact Or.inr ⟨e2, List.mem_cons_of_mem _ he2, hsfx⟩
          · rintro (hv | ⟨e2, he2, sfx, hsem, hms, hveq⟩)
            · exact Or.inl hv
            · rcases List.mem_cons.mp he2 with heq2 | htail
              · exfalso
                subst heq2
                obtain ⟨c2, p2, w2, hpfx, hsfx⟩ := EdgeSem_shape hsem
                have hpfx2 : pfx = c2 :: p2 := hpfx
                subst hsfx
                rw [matchSfx_cons] at hms
                obtain ⟨hok2, hms2⟩ := hms
                have hi : i < p.length := by
                  have hl2 := hms2.1
                  omega
                obtain ⟨hcm, hwc⟩ := hinv hi
                simp only [Bool.and_eq_true, Bool.not_eq_eq_eq_not,
                  Bool.not_true, bne_iff_ne] at hpush
                rcases hok2 with hq | he
                · have hp1 := hpush.1
                  rw [hwc, hq] at hp1
                  simp at hp1
                · apply hpush.2
                  rw [hpfx2]
                  simp only [List.headD_cons]
                  rw [he, hcm]
              · exact Or.inr ⟨e2, htail, sfx, hsem, hms, hveq⟩
        · rw [if_neg hpush]
          dsimp only
          obtain ⟨i2, cm2, wc2, res1, heqE, hmemE⟩ :=
            matchNav_edge_aux g hg p fuel ih pfx nx matched i cm wc
              ((i, cm, wc) :: stk) res0 (Or.inr hgp)
              (by rw [if_neg (goodPfx_ne_nil hgp)]; omega) hinv
          rw [heqE, matchPop]
          have hcontE : ∀ sfx, edgeContSem g pfx nx sfx =
              EdgeSem g pfx nx sfx := by
            intro sfx
            cases hp3 : pfx with
            | nil => exact absurd hp3 (goodPfx_ne_nil hgp)
            | cons a b => rfl
          have hhd : wc = false → pfx.headD ' ' = cm := by
            intro hwcf
            by_contra hne
            apply hpush
            rw [hwcf]
            simp only [Bool.not_false, Bool.true_and, bne_iff_ne, ne_eq]
            exact hne
          cases wc with
          | true =>
            dsimp only
            obtain ⟨res2, heq2, hmem2⟩ := ihe
              (fun e2 he2 => hge e2 (List.mem_cons_of_mem _ he2))
              (List.nodup_cons.mp hnd2).2 res1
            refine ⟨res2, heq2, fun v => ?_⟩
            rw [hmem2 v, hmemE v]
            constructor
            · rintro ((hv | ⟨sfx, hsem, hms, hveq⟩) | ⟨e2, he2, hsfx⟩)
              · exact Or.inl hv
              · rw [hcontE sfx] at hsem
                exact Or.inr ⟨(pfx, nx), List.mem_cons_self _ _, sfx, hsem,
                  hms, hveq⟩
              · exact Or.inr ⟨e2, List.mem_cons_of_mem _ he2, hsfx⟩
            · rintro (hv | ⟨e2, he2, sfx, hsem, hms, hveq⟩)
              · exact Or.inl (Or.inl hv)
              · rcases List.mem_cons.mp he2 with heq3 | htail
                · subst heq3
                  refine Or.inl (Or.inr ⟨sfx, ?_, hms, hveq⟩)
                  rw [hcontE sfx]
                  exact hsem
                · exact Or.inr ⟨e2, htail, sfx, hsem, hms, hveq⟩
          | false =>
            dsimp only
            refine ⟨res1, rfl, fun v => ?_⟩
            rw [hmemE v]
            constructor
            · rintro (hv | ⟨sfx, hsem, hms, hveq⟩)
              · exact Or.inl hv
              · rw [hcontE sfx] at hsem
                exact Or.inr ⟨(pfx, nx), List.mem_cons_self _ _, sfx, hsem,
                  hms, hveq⟩
            · rintro (hv | ⟨e2, he2, sfx, hsem, hms, hveq⟩)
              · exact Or.inl hv
              · rcases List.mem_cons.mp he2 with heq3 | htail
                · subst heq3
                  refine Or.inr ⟨sfx, ?_, hms, hveq⟩
                  rw [hcontE sfx]
                  exact hsem
                · exfalso
                  obtain ⟨c2, p2, w2, hpfx, hsfx⟩ := EdgeSem_shape hsem
                  subst hsfx
                  rw [matchSfx_cons] at hms
                  obtain ⟨hok2, hms2⟩ := hms
                  have hi : i < p.length := by
                    have hl2 := hms2.1
                    omega
                  obtain ⟨hcm, hwc⟩ := hinv hi
                  have hpq : p.getD i ' ' ≠ '?' := by
                    intro hq
                    rw [hq] at hwc
                    simp at hwc
                  rcases hok2 with hq | he
                  · exact hpq hq
                  · have hhd2 : pfx.headD ' ' = cm := hhd rfl
                    have hne : e2.1.headD ' ' ≠ pfx.headD ' ' := by
                      have hnodup2 := List.nodup_cons.mp hnd2
                      intro heq4
                      apply hnodup2.1
                      have hm : e2.1.headD ' ' ∈
                          List.map (fun e3 => e3.1.headD ' ') rest :=
                        List.mem_map_of_mem _ htail
                      rw [heq4] at hm
                      simpa using hm
                    apply hne
                    have hpfx2 : e2.1 = c2 :: p2 := hpfx
                    rw [hpfx2]
                    simp only [List.headD_cons]
                    rw [he, hhd2]
                    exact hcm.symm
    obtain ⟨res2, heq, hmem⟩ := hloop nd.edges hnd.1 hnd.2 res
    refine ⟨res2, heq, fun v => ?_⟩
    rw [hmem v]
    constructor
    · rintro (hv | ⟨e2, he2, sfx, hsem, hms, hveq⟩)
      · exact Or.inl hv
      · exact Or.inr ⟨sfx, NodeSem_iff.mpr ⟨e2, he2, hsem⟩, hms, hveq⟩
    · rintro (hv | ⟨sfx, hns, hms, hveq⟩)
      · exact Or.inl hv
      · obtain ⟨e2, he2, hsem⟩ := NodeSem_iff.mp hns
        exact Or.inr ⟨e2, he2, sfx, hsem, hms, hveq⟩

/-- C5: `DawgDictionary.find_matches(pattern)` returns exactly the
dictionary words whose length equals the pattern length and which agree
with the pattern at every non-wildcard position, on a well-formed loaded
dictionary with a root node. -/
theorem dawg_find_matches_spec (d : DawgDict) (p : Str) (srt : Bool)
    (w : Str) (hwf : WFGraph d.graph) (root : DNode)
    (hroot : lookupNode d.nodes 0 = some root) :
    (w ∈ (d.find_matches p srt).getD [] ↔
      d.find w = some true ∧ w.length = p.length ∧
        ∀ j < p.length, p.getD j ' ' ≠ '?' → w.getD j ' ' = p.getD j ' ') := by
  have hfind := dawg_find_iff d w hwf root hroot
  unfold DawgDict.find_matches
  rw [hroot]
  dsimp only
  rw [Option.getD_some]
  have hmemSort : ∀ l : List Str,
      (w ∈ (if srt then
          stableSort (fun a b => keyLt (sortkey a) (sortkey b)) l
        else l) ↔ w ∈ l) := by
    intro l
    cases srt
    · exact Iff.rfl
    · exact (stableSort_perm _ l).mem_iff
  rw [hmemSort]
  unfold navGo
  by_cases hp : 0 < p.length
  · rw [if_pos (by simp [matchNavigator, matchInit, hp])]
    have hg0 : d.graph 0 = root := by
      unfold DawgDict.graph
      rw [hroot]
      rfl
    have hroot_wf : WFNode root := hg0 ▸ hwf 0
    obtain ⟨res2, heq, hmem⟩ := matchNav_node d.graph hwf p (p.length + 1)
      root hroot_wf [] 0 (p.headD ' ') (p.headD ' ' == '?') [] []
      (by omega)
      (fun h0 => ⟨(getD_zero_eq_headD p).symm, by rw [getD_zero_eq_headD]⟩)
    rw [show (matchInit p) =
      (⟨0, p.headD ' ', p.headD ' ' == '?', [], []⟩ : MatchState) from rfl]
    rw [heq]
    rw [hmem w]
    simp only [List.not_mem_nil, false_or, List.nil_append]
    constructor
    · rintro ⟨sfx, hns, hms, rfl⟩
      refine ⟨hfind.mpr hns, ?_, ?_⟩
      · have hl := hms.1
        omega
      · intro j hj hq
        obtain ⟨hl, hall⟩ := hms
        have hj2 : j < w.length := by omega
        have hj3 := hall j hj2
        simp only [Nat.zero_add] at hj3
        rcases hj3 with hq2 | he
        · exact absurd hq2 hq
        · exact he
    · rintro ⟨hf, hlen, hmatch⟩
      refine ⟨w, hfind.mp hf, ⟨by omega, ?_⟩, rfl⟩
      intro j hj
      by_cases hq : p.getD (0 + j) ' ' = '?'
      · exact Or.inl hq
      · right
        have hm2 := hmatch j (by omega) (by simpa using hq)
        simpa using hm2
  · rw [if_neg (by simp [matchNavigator, matchInit, hp])]
    show w ∈ ([] : List Str) ↔ _
    constructor
    · intro hv
      exact absurd hv (List.not_mem_nil w)
    · rintro ⟨hf, hlen, _⟩
      exfalso
      have hw : w = [] := by
        have hw0 : w.length = 0 := by omega
        exact List.eq_nil_of_length_eq_zero hw0
      subst hw
      exact NodeSem_not_nil (hfind.mp hf)

/-- The pattern-match theorem instantiated on the one-word dictionary for
the word "ab" and the pattern "a?". -/
theorem dawg_find_matches_spec_witness :
    (['a', 'b'] ∈ (dawgD1.find_matches ['a', '?'] true).getD [] ↔
      dawgD1.find ['a', 'b'] = some true ∧
        (['a', 'b'] : Str).length = (['a', '?'] : Str).length ∧
        ∀ j < (['a', '?'] : Str).length,
          (['a', '?'] : Str).getD j ' ' ≠ '?' →
          (['a', 'b'] : Str).getD j ' ' = (['a', '?'] : Str).getD j ' ') :=
  dawg_find_matches_spec dawgD1 ['a', '?'] true ['a', 'b']
    (WFGraph_of_nodes dawgD1 (by decide)) ⟨false, [(['a', 'b'], none)]⟩
    (by decide)

/-! ## Rack tile removal and the consume-all relation -/

theorem contains_true_iff (l : Str) (c : Char) :
    l.contains c = true ↔ c ∈ l := by
  induction l with
  | nil => simp
  | cons a t ih =>
    simp [List.contains_cons, ih]

theorem replace1_eq_erase (r : Str) (c : Char) :
    replace1 r c = r.erase c := by
  induction r with
  | nil => rfl
  | cons a t ih =>
    rw [replace1, List.erase_cons]
    by_cases h : a = c
    · rw [if_pos h, if_pos (by simpa using h)]
    · rw [if_neg h, if_neg (by simpa using h), ih]

theorem replace1_length {r : Str} {c : Char} (h : c ∈ r) :
    (replace1 r c).length = r.length - 1 := by
  rw [replace1_eq_erase]
  exact List.length_erase_of_mem h

theorem replace1_perm {r : Str} {c : Char} (h : c ∈ r) :
    r.Perm (c :: replace1 r c) := by
  rw [replace1_eq_erase]
  exact List.perm_cons_erase h

theorem replace1_no_q {r : Str} {c : Char} (h : r.contains '?' = false) :
    (replace1 r c).contains '?' = false := by
  by_contra h2
  rw [Bool.not_eq_false] at h2
  have hm := (contains_true_iff _ _).mp h2
  rw [replace1_eq_erase] at hm
  have hm2 := List.mem_of_mem_erase hm
  have hT := (contains_true_iff r '?').mpr hm2
  rw [h] at hT
  simp at hT

theorem eatAll_nil (r : Str) : eatAll r [] = some r := rfl

theorem eatAll_cons (r : Str) (c : Char) (cs : Str) :
    eatAll r (c :: cs) =
      if r.contains c then eatAll (replace1 r c) cs else none := rfl

theorem eatAll_ne_none_iff (w r : Str) :
    eatAll r w ≠ none ↔ w.Subperm r := by
  induction w generalizing r with
  | nil =>
    simp only [eatAll_nil, ne_eq, Option.some_ne_none, not_false_eq_true,
      true_iff]
    exact List.nil_subperm
  | cons c cs ih =>
    by_cases hc : r.contains c = true
    · rw [eatAll_cons, if_pos hc, ih]
      have hcm : c ∈ r := (contains_true_iff r c).mp hc
      constructor
      · intro hsub
        have h1 : (c :: cs).Subperm (c :: replace1 r c) :=
          (List.subperm_cons c).mpr hsub
        exact h1.trans (replace1_perm hcm).symm.subperm
      · intro hsub
        have h1 : (c :: cs).Subperm (c :: replace1 r c) :=
          hsub.trans (replace1_perm hcm).subperm
        exact (List.subperm_cons c).mp h1
    · rw [eatAll_cons, if_neg hc]
      constructor
      · intro h
        exact absurd rfl h
      · intro hsub
        exfalso
        have hcm : c ∈ r := hsub.subset (List.mem_cons_self c cs)
        have hT := (contains_true_iff r c).mpr hcm
        exact hc hT

/-! ## Small-step lemmas for the PermutationNavigator operations -/

theorem permPush (k : Nat) (r : Str) (stk : List Str) (res : List Str)
    (c : Char) :
    (permNavigator k).pushEdge ⟨r, stk, res⟩ c =
      if !(r.contains c || r.contains '?') then (false, ⟨r, stk, res⟩)
      else (true, ⟨r, r :: stk, res⟩) := rfl

theorem permAccepting (k : Nat) (r : Str) (stk : List Str)
    (res : List Str) :
    (permNavigator k).accepting ⟨r, stk, res⟩ = !r.isEmpty := rfl

theorem permAccepts (k : Nat) (r : Str) (stk : List Str) (res : List Str)
    (ch : Char) :
    (permNavigator k).accepts ⟨r, stk, res⟩ ch =
      if !(r.contains ch) && !(r.contains '?') then none
      else if r.contains ch then some ⟨replace1 r ch, stk, res⟩
      else some ⟨replace1 r '?', stk, res⟩ := rfl

theorem permAccept (k : Nat) (r : Str) (stk : List Str) (res : List Str)
    (m : Str) (fin : Bool) :
    (permNavigator k).accept ⟨r, stk, res⟩ m fin =
      ⟨r, stk,
        if fin && decide (k ≤ m.length) then res ++ [m] else res⟩ := by
  show (if fin && decide (k ≤ m.length) then _ else _) = _
  split
  · rename_i h
    simp only [if_pos h]
  · rename_i h
    simp only [if_neg h]

theorem permPop (k : Nat) (r : Str) (top : Str) (stk : List Str)
    (res : List Str) :
    (permNavigator k).popEdge ⟨r, top :: stk, res⟩ =
      (true, ⟨top, stk, res⟩) := rfl

/-- Walking an edge with `PermutationNavigator` on a wildcard-free rack:
the stack is preserved, and the result list afterwards contains exactly
the prior results plus the words `matched ++ sfx` for suffixes recognized
from this point of the edge whose tiles can all be drawn from the rack and
which reach the minimum length. -/
theorem permNav_edge_aux (g : Graph) (hg : WFGraph g) (k : Nat) (fuel : Nat)
    (ihnode : ∀ nd : DNode, WFNode nd → ∀ (matched : Str) (r : Str)
      (stk : List Str) (res : List Str),
      r.contains '?' = false → r.length ≤ fuel →
      ∃ res2, navNode g (permNavigator k) fuel nd matched ⟨r, stk, res⟩ =
          ⟨r, stk, res2⟩ ∧
        ∀ v, v ∈ res2 ↔ v ∈ res ∨ ∃ sfx, NodeSem g nd sfx ∧
          eatAll r sfx ≠ none ∧ k ≤ matched.length + sfx.length ∧
          v = matched ++ sfx)
    (pfx : Str) (nx : Option Nat) (matched : Str) (r : Str)
    (stk : List Str) (res : List Str)
    (hgood : pfx = [] ∨ goodPfx pfx = true)
    (hq : r.contains '?' = false)
    (hfuel : r.length ≤ fuel + (if pfx = [] then 0 else 1)) :
    ∃ r2 res2,
      navEdgeF g (permNavigator k) (navNode g (permNavigator k) fuel)
          pfx nx matched ⟨r, stk, res⟩ = ⟨r2, stk, res2⟩ ∧
      ∀ v, v ∈ res2 ↔ v ∈ res ∨ ∃ sfx, edgeContSem g pfx nx sfx ∧
        eatAll r sfx ≠ none ∧ k ≤ matched.length + sfx.length ∧
        v = matched ++ sfx := by
  cases pfx with
  | nil =>
    rw [navEdgeF_nil]
    by_cases hr : r = []
    · rw [if_neg (by subst hr; simp [permNavigator])]
      refine ⟨r, res, rfl, fun v => ?_⟩
      constructor
      · exact Or.inl
      · rintro (hv | ⟨sfx, hsem, hne, _, _⟩)
        · exact hv
        · exfalso
          subst hr
          cases nx with
          | none => exact (hsem : False).elim
          | some nid =>
            cases sfx with
            | nil => exact NodeSem_not_nil hsem
            | cons a b =>
              apply hne
              rw [eatAll_cons, if_neg (by simp)]
    · rw [if_pos (by rw [permAccepting]; simp [List.isEmpty_iff, hr])]
      have hfl : r.length ≤ fuel := by simpa using hfuel
      cases nx with
      | none =>
        refine ⟨r, res, rfl, fun v => ?_⟩
        constructor
        · exact Or.inl
        · rintro (hv | ⟨sfx, hsem, _, _, _⟩)
          · exact hv
          · exact (hsem : False).elim
      | some nid =>
        obtain ⟨res2, heq, hmem⟩ :=
          ihnode (g nid) (hg nid) matched r stk res hq hfl
        exact ⟨r, res2, heq, fun v => hmem v⟩
  | cons ch rest =>
    have hgd : goodPfx (ch :: rest) = true := hgood.resolve_left (by simp)
    have hfuel1 : r.length ≤ fuel + 1 := by simpa using hfuel
    rw [navEdgeF_cons]
    by_cases hr : r = []
    · rw [if_neg (by subst hr; simp [permNavigator])]
      refine ⟨r, res, rfl, fun v => ?_⟩
      constructor
      · exact Or.inl
      · rintro (hv | ⟨sfx, hsem, hne, _, _⟩)
        · exact hv
        · exfalso
          subst hr
          obtain ⟨c2, p2, w2, hpfx, hsfx⟩ :=
            EdgeSem_shape (hsem : EdgeSem g (ch :: rest) nx sfx)
          subst hsfx
          apply hne
          rw [eatAll_cons, if_neg (by simp)]
    · rw [if_pos (by rw [permAccepting]; simp [List.isEmpty_iff, hr])]
      by_cases hc : r.contains ch = true
      · have hacc1 : (permNavigator k).accepts ⟨r, stk, res⟩ ch =
            some ⟨replace1 r ch, stk, res⟩ := by
          rw [permAccepts, if_neg (by
            simp only [hc, Bool.not_true, Bool.false_and]
            exact Bool.false_ne_true), if_pos hc]
        rw [hacc1]
        dsimp only
        have hcm : ch ∈ r := (contains_true_iff r ch).mp hc
        have hq1 : (replace1 r ch).contains '?' = false := replace1_no_q hq
        have hlen1 : (replace1 r ch).length = r.length - 1 :=
          replace1_length hcm
        have hrlen : 1 ≤ r.length := by
          cases r with
          | nil => exact absurd rfl hr
          | cons a b => simp
        have heat : ∀ w2, eatAll r (ch :: w2) =
            eatAll (replace1 r ch) w2 := by
          intro w2
          rw [eatAll_cons, if_pos hc]
        cases rest with
        | nil =>
          dsimp only
          rw [permAccept]
          obtain ⟨r2, res2, heq, hmem⟩ := permNav_edge_aux g hg k fuel
            ihnode [] nx (matched ++ [ch]) (replace1 r ch) stk
            (if nullOrFinal g nx && decide (k ≤ (matched ++ [ch]).length)
              then res ++ [matched ++ [ch]] else res)
            (Or.inl rfl) hq1 (by simp only [if_pos rfl]; omega)
          refine ⟨r2, res2, heq, fun v => ?_⟩
          rw [hmem v, mem_ite_append]
          constructor
          · rintro ((hv | ⟨hb, hveq⟩) | ⟨sfx, hsem, hne, hk, hveq⟩)
            · exact Or.inl hv
            · simp only [Bool.and_eq_true, decide_eq_true_eq] at hb
              refine Or.inr ⟨[ch], EdgeSem.stop hb.1, ?_, ?_,
                by simpa using hveq⟩
              · rw [show (([ch] : Str) = ch :: []) from rfl, heat,
                  eatAll_nil]
                simp
              · have hb2 := hb.2
                simp only [List.length_append, List.length_cons,
                  List.length_nil] at hb2 ⊢
                omega
            · cases nx with
              | none => exact (hsem : False).elim
              | some nid =>
                refine Or.inr ⟨ch :: sfx,
                  EdgeSem.child (by simp [dropBar]) hsem, ?_, ?_,
                  by simpa using hveq⟩
                · rw [heat]
                  exact hne
                · simp only [List.length_append, List.length_cons,
                    List.length_nil] at hk ⊢
                  omega
          · rintro (hv | ⟨sfx, hsem, hne, hk, hveq⟩)
            · exact Or.inl (Or.inl hv)
            · obtain ⟨c2, p2, w2, hpfx, hsfx⟩ :=
                EdgeSem_shape (hsem : EdgeSem g (ch :: []) nx sfx)
              injection hpfx with h1 h2
              subst hsfx
              cases h1
              have hsem2 : EdgeSem g (ch :: []) nx (ch :: w2) := hsem
              rw [EdgeSem_single_iff] at hsem2
              rcases hsem2 with ⟨hfin, hw2⟩ | ⟨nid, hnx, hns⟩
              · subst hw2
                refine Or.inl (Or.inr ⟨?_, by simpa using hveq⟩)
                simp only [Bool.and_eq_true, decide_eq_true_eq]
                refine ⟨hfin, ?_⟩
                simp only [List.length_append, List.length_cons,
                  List.length_nil] at hk ⊢
                omega
              · subst hnx
                refine Or.inr ⟨w2, hns, ?_, ?_, by simpa using hveq⟩
                · rw [heat] at hne
                  exact hne
                · simp only [List.length_append, List.length_cons,
                    List.length_nil] at hk ⊢
                  omega
        | cons r2 rest2 =>
          dsimp only
          by_cases hb : r2 = '|'
          · rw [if_pos (by simp [hb])]
            subst hb
            obtain ⟨hg2, hne2⟩ := goodPfx_bar hgd
            rw [permAccept]
            obtain ⟨r3, res2, heq, hmem⟩ := permNav_edge_aux g hg k fuel
              ihnode rest2 nx (matched ++ [ch]) (replace1 r ch) stk
              (if true && decide (k ≤ (matched ++ [ch]).length)
                then res ++ [matched ++ [ch]] else res)
              (Or.inr hg2) hq1 (by split <;> omega)
            refine ⟨r3, res2, heq, fun v => ?_⟩
            rw [hmem v, mem_ite_append]
            have hcont2 : ∀ sfx, edgeContSem g rest2 nx sfx =
                EdgeSem g rest2 nx sfx := by
              intro sfx
              cases rest2 with
              | nil => exact absurd rfl hne2
              | cons a b => rfl
            constructor
            · rintro ((hv | ⟨hrec, hveq⟩) | ⟨sfx, hsem, hne, hk, hveq⟩)
              · exact Or.inl hv
              · simp only [Bool.true_and, decide_eq_true_eq] at hrec
                refine Or.inr ⟨[ch], (EdgeSem_bar_iff hne2).mpr (Or.inl rfl),
                  ?_, ?_, by simpa using hveq⟩
                · rw [show (([ch] : Str) = ch :: []) from rfl, heat,
                    eatAll_nil]
                  simp
                · simp only [List.length_append, List.length_cons,
                    List.length_nil] at hrec ⊢
                  omega
              · rw [hcont2] at hsem
                refine Or.inr ⟨ch :: sfx,
                  (EdgeSem_bar_iff hne2).mpr (Or.inr hsem), ?_, ?_,
                  by simpa using hveq⟩
                · rw [heat]
                  exact hne
                · simp only [List.length_append, List.length_cons,
                    List.length_nil] at hk ⊢
                  omega
            · rintro (hv | ⟨sfx, hsem, hne, hk, hveq⟩)
              · exact Or.inl (Or.inl hv)
              · obtain ⟨c2, p2, w2, hpfx, hsfx⟩ :=
                  EdgeSem_shape
                    (hsem : EdgeSem g (ch :: '|' :: rest2) nx sfx)
                injection hpfx with h1 h2
                subst hsfx
                cases h1
                have hsem2 : EdgeSem g (ch :: '|' :: rest2) nx (ch :: w2) :=
                  hsem
                rw [EdgeSem_bar_iff hne2] at hsem2
                rcases hsem2 with hw2 | hrec
                · subst hw2
                  refine Or.inl (Or.inr ⟨?_, by simpa using hveq⟩)
                  simp only [Bool.true_and, decide_eq_true_eq]
                  simp only [List.length_append, List.length_cons,
                    List.length_nil] at hk ⊢
                  omega
                · refine Or.inr ⟨w2, ?_, ?_, ?_, by simpa using hveq⟩
                  · rw [hcont2]
                    exact hrec
                  · rw [heat] at hne
                    exact hne
                  · simp only [List.length_append, List.length_cons,
                      List.length_nil] at hk ⊢
                    omega
          · rw [if_neg (by simp [hb])]
            have hg2 := goodPfx_step hgd hb
            rw [permAccept, if_neg (by simp)]
            obtain ⟨r3, res2, heq, hmem⟩ := permNav_edge_aux g hg k fuel
              ihnode (r2 :: rest2) nx (matched ++ [ch]) (replace1 r ch)
              stk res (Or.inr hg2) hq1 (by rw [if_neg (by simp)]; omega)
            refine ⟨r3, res2, heq, fun v => ?_⟩
            rw [hmem v]
            constructor
            · rintro (hv | ⟨sfx, hsem, hne, hk, hveq⟩)
              · exact Or.inl hv
              · refine Or.inr ⟨ch :: sfx, (EdgeSem_step_iff hb).mpr hsem,
                  ?_, ?_, by simpa using hveq⟩
                · rw [heat]
                  exact hne
                · simp only [List.length_append, List.length_cons,
                    List.length_nil] at hk ⊢
                  omega
            · rintro (hv | ⟨sfx, hsem, hne, hk, hveq⟩)
              · exact Or.inl hv
              · obtain ⟨c2, p2, w2, hpfx, hsfx⟩ :=
                  EdgeSem_shape
                    (hsem : EdgeSem g (ch :: r2 :: rest2) nx sfx)
                injection hpfx with h1 h2
                subst hsfx
                cases h1
                have hsem2 : EdgeSem g (ch :: r2 :: rest2) nx (ch :: w2) :=
                  hsem
                rw [EdgeSem_step_iff hb] at hsem2
                refine Or.inr ⟨w2, hsem2, ?_, ?_, by simpa using hveq⟩
                · rw [heat] at hne
                  exact hne
                · simp only [List.length_append, List.length_cons,
                    List.length_nil] at hk ⊢
                  omega
      · have hcf : r.contains ch = false := by
          rw [← Bool.not_eq_true]
          exact hc
        have haccn : (permNavigator k).accepts ⟨r, stk, res⟩ ch = none := by
          rw [permAccepts, if_pos (by rw [hcf, hq]; rfl)]
        rw [haccn]
        refine ⟨r, res, rfl, fun v => ?_⟩
        constructor
        · exact Or.inl
        · rintro (hv | ⟨sfx, hsem, hne, _, _⟩)
          · exact hv
          · exfalso
            obtain ⟨c2, p2, w2, hpfx, hsfx⟩ :=
              EdgeSem_shape (hsem : EdgeSem g (ch :: rest) nx sfx)
            injection hpfx with h1 h2
            subst hsfx
            cases h1
            apply hne
            rw [eatAll_cons, if_neg hc]
termination_by pfx.length

/-- Navigating from a node with `PermutationNavigator` on a wildcard-free
rack: the rack and stack are restored, and the result list afterwards
contains exactly the prior results plus the words `matched ++ sfx` for
suffixes recognized from this node whose tiles can all be drawn from the
rack and which reach the minimum length. -/
theorem permNav_node (g : Graph) (hg : WFGraph g) (k : Nat) :
    ∀ fuel : Nat, ∀ nd : DNode, WFNode nd →
      ∀ (matched : Str) (r : Str) (stk : List Str) (res : List Str),
      r.contains '?' = false → r.length ≤ fuel →
      ∃ res2, navNode g (permNavigator k) fuel nd matched ⟨r, stk, res⟩ =
          ⟨r, stk, res2⟩ ∧
        ∀ v, v ∈ res2 ↔ v ∈ res ∨ ∃ sfx, NodeSem g nd sfx ∧
          eatAll r sfx ≠ none ∧ k ≤ matched.length + sfx.length ∧
          v = matched ++ sfx := by
  intro fuel
  induction fuel with
  | zero =>
    intro nd hnd matched r stk res hq hfl
    rw [navNode_zero]
    have hr : r = [] := List.eq_nil_of_length_eq_zero (by omega)
    refine ⟨res, rfl, fun v => ?_⟩
    constructor
    · exact Or.inl
    · rintro (hv | ⟨sfx, hsem, hne, _, _⟩)
      · exact hv
      · exfalso
        subst hr
        cases sfx with
        | nil => exact NodeSem_not_nil hsem
        | cons a b =>
          apply hne
          rw [eatAll_cons, if_neg (by simp)]
  | succ fuel ih =>
    intro nd hnd matched r stk res hq hfl
    rw [navNode_succ]
    have hloop : ∀ es : List (Str × Option Nat),
        (∀ e ∈ es, goodPfx e.1 = true) →
        ∀ res0 : List Str,
        ∃ res2, navEdgesF g (permNavigator k)
            (navNode g (permNavigator k) fuel) es matched
            ⟨r, stk, res0⟩ = ⟨r, stk, res2⟩ ∧
          ∀ v, v ∈ res2 ↔ v ∈ res0 ∨ ∃ e ∈ es, ∃ sfx, EdgeSem g e.1 e.2 sfx ∧
            eatAll r sfx ≠ none ∧ k ≤ matched.length + sfx.length ∧
            v = matched ++ sfx := by
      intro es
      induction es with
      | nil =>
        intro _ res0
        rw [navEdgesF_nil]
        exact ⟨res0, rfl, fun v => by simp⟩
      | cons e rest ihe =>
        obtain ⟨pfx, nx⟩ := e
        intro hge res0
        have hgp : goodPfx pfx = true := hge _ (List.mem_cons_self _ _)
        rw [navEdgesF_cons, permPush]
        by_cases hpush : (!(r.contains (pfx.headD ' ') ||
            r.contains '?')) = true
        · rw [if_pos hpush]
          dsimp only
          obtain ⟨res2, heq, hmem⟩ := ihe
            (fun e2 he2 => hge e2 (List.mem_cons_of_mem _ he2)) res0
          refine ⟨res2, heq, fun v => ?_⟩
          rw [hmem v]
          constructor
          · rintro (hv | ⟨e2, he2, hsfx⟩)
            · exact Or.inl hv
            · exact Or.inr ⟨e2, List.mem_cons_of_mem _ he2, hsfx⟩
          · rintro (hv | ⟨e2, he2, sfx, hsem, hne, hk, hveq⟩)
            · exact Or.inl hv
            · rcases List.mem_cons.mp he2 with heq2 | htail
              · exfalso
                subst heq2
                obtain ⟨c2, p2, w2, hpfx, hsfx⟩ := EdgeSem_shape hsem
                have hpfx2 : pfx = c2 :: p2 := hpfx
                subst hsfx
                simp only [Bool.not_eq_eq_eq_not, Bool.not_true,
                  Bool.or_eq_false_iff] at hpush
                apply hne
                rw [eatAll_cons, if_neg ?_]
                have hhd : pfx.headD ' ' = c2 := by
                  rw [hpfx2]
                  simp
                rw [← hhd]
                rw [hpush.1]
                simp
              · exact Or.inr ⟨e2, htail, sfx, hsem, hne, hk, hveq⟩
        · rw [if_neg hpush]
          dsimp only
          obtain ⟨r2, res1, heqE, hmemE⟩ :=
            permNav_edge_aux g hg k fuel ih pfx nx matched r (r :: stk)
              res0 (Or.inr hgp) hq
              (by rw [if_neg (goodPfx_ne_nil hgp)]; omega)
          rw [heqE, permPop]
          dsimp only
          have hcontE : ∀ sfx, edgeContSem g pfx nx sfx =
              EdgeSem g pfx nx sfx := by
            intro sfx
            cases hp3 : pfx with
            | nil => exact absurd hp3 (goodPfx_ne_nil hgp)
            | cons a b => rfl
          obtain ⟨res2, heq2, hmem2⟩ := ihe
            (fun e2 he2 => hge e2 (List.mem_cons_of_mem _ he2)) res1
          refine ⟨res2, heq2, fun v => ?_⟩
          rw [hmem2 v, hmemE v]
          constructor
          · rintro ((hv | ⟨sfx, hsem, hne, hk, hveq⟩) | ⟨e2, he2, hsfx⟩)
            · exact Or.inl hv
            · rw [hcontE sfx] at hsem
              exact Or.inr ⟨(pfx, nx), List.mem_cons_self _ _, sfx, hsem,
                hne, hk, hveq⟩
            · exact Or.inr ⟨e2, List.mem_cons_of_mem _ he2, hsfx⟩
          · rintro (hv | ⟨e2, he2, sfx, hsem, hne, hk, hveq⟩)
            · exact Or.inl (Or.inl hv)
            · rcases List.mem_cons.mp he2 with heq3 | htail
              · subst heq3
                refine Or.inl (Or.inr ⟨sfx, ?_, hne, hk, hveq⟩)
                rw [hcontE sfx]
                exact hsem
              · exact Or.inr ⟨e2, htail, sfx, hsem, hne, hk, hveq⟩
    obtain ⟨res2, heq, hmem⟩ := hloop nd.edges hnd.1 res
    refine ⟨res2, heq, fun v => ?_⟩
    rw [hmem v]
    constructor
    · rintro (hv | ⟨e2, he2, sfx, hsem, hne, hk, hveq⟩)
      · exact Or.inl hv
      · exact Or.inr ⟨sfx, NodeSem_iff.mpr ⟨e2, he2, hsem⟩, hne, hk, hveq⟩
    · rintro (hv | ⟨sfx, hns, hne, hk, hveq⟩)
      · exact Or.inl hv
      · obtain ⟨e2, he2, hsem⟩ := NodeSem_iff.mp hns
        exact Or.inr ⟨e2, he2, sfx, hsem, hne, hk, hveq⟩

/-- C4: `DawgDictionary.find_permutations(rack, minlen)` on a
wildcard-free rack returns exactly the dictionary words of length at
least `minlen` whose letter multiset is contained in the letter multiset
of the rack, on a well-formed loaded dictionary with a root node. -/
theorem dawg_find_permutations_spec (d : DawgDict) (r : Str) (k : Nat)
    (w : Str) (hwf : WFGraph d.graph) (root : DNode)
    (hroot : lookupNode d.nodes 0 = some root)
    (hq : r.contains '?' = false) :
    (w ∈ (d.find_permutations r k).getD [] ↔
      d.find w = some true ∧ k ≤ w.length ∧ w.Subperm r) := by
  have hfind := dawg_find_iff d w hwf root hroot
  unfold DawgDict.find_permutations
  rw [hroot]
  dsimp only
  rw [Option.getD_some]
  rw [(stableSort_perm permLt _).mem_iff]
  unfold navGo
  by_cases hr : r = []
  · rw [if_neg (by subst hr; simp [permNavigator])]
    show w ∈ ([] : List Str) ↔ _
    constructor
    · intro hv
      exact absurd hv (List.not_mem_nil w)
    · rintro ⟨hf, hk, hsub⟩
      exfalso
      subst hr
      have hw : w = [] := List.subperm_nil.mp hsub
      subst hw
      exact NodeSem_not_nil (hfind.mp hf)
  · rw [if_pos (by rw [permAccepting]; simp [List.isEmpty_iff, hr])]
    have hg0 : d.graph 0 = root := by
      unfold DawgDict.graph
      rw [hroot]
      rfl
    have hroot_wf : WFNode root := hg0 ▸ hwf 0
    obtain ⟨res2, heq, hmem⟩ := permNav_node d.graph hwf k (r.length + 1)
      root hroot_wf [] r [] [] hq (by omega)
    rw [heq]
    rw [hmem w]
    simp only [List.not_mem_nil, false_or, List.nil_append,
      List.length_nil, Nat.zero_add]
    constructor
    · rintro ⟨sfx, hns, hne, hk, rfl⟩
      exact ⟨hfind.mpr hns, hk, (eatAll_ne_none_iff w r).mp hne⟩
    · rintro ⟨hf, hk, hsub⟩
      exact ⟨w, hfind.mp hf, (eatAll_ne_none_iff w r).mpr hsub, hk, rfl⟩

/-- The permutation theorem instantiated on the one-word dictionary for
the word "ab" and the rack "ba" with minimum length 1. -/
theorem dawg_find_permutations_spec_witness :
    (['a', 'b'] ∈ (dawgD1.find_permutations ['b', 'a'] 1).getD [] ↔
      dawgD1.find ['a', 'b'] = some true ∧
        1 ≤ (['a', 'b'] : Str).length ∧
        (['a', 'b'] : Str).Subperm ['b', 'a']) :=
  dawg_find_permutations_spec dawgD1 ['b', 'a'] 1 ['a', 'b']
    (WFGraph_of_nodes dawgD1 (by decide)) ⟨false, [(['a', 'b'], none)]⟩
    (by decide) (by decide)

/-! ## Word length limits of the builder (C6) -/

/-- A word of exactly `MAXLEN` (48) letters makes `add_word` raise: the
check is `lenword >= MAXLEN`, so length 48 is rejected, contrary to the
claim that it is accepted. -/
theorem addWord_maxlen_counterexample :
    addWord initB (List.replicate 48 'a') = .error () ∧
    (List.replicate 48 'a' : Str).length = MAXLEN := by
  constructor
  · rw [addWord, if_pos (by simp [MAXLEN])]
  · simp [MAXLEN]

/-- C6 (amended): `add_word` raises exactly when the word has `MAXLEN`
(48) letters or more — so a word of exactly 48 letters is rejected — and
the input-file reader keeps a stripped line exactly when it is non-empty
and shorter than 48 letters, silently dropping the others. -/
theorem addWord_length_check (st : BState) (w : Str) (line : Str) :
    ((∃ st2, addWord st w = .ok st2) ↔ w.length < MAXLEN) ∧
    (readWordKeeps line = true ↔ line ≠ [] ∧ line.length < MAXLEN) := by
  constructor
  · rw [addWord]
    by_cases h : MAXLEN ≤ w.length
    · rw [if_pos h]
      constructor
      · rintro ⟨st2, hst⟩
        cases hst
      · intro hlen
        omega
    · rw [if_neg h]
      constructor
      · intro _
        omega
      · intro _
        exact ⟨_, rfl⟩
  · rw [readWordKeeps]
    simp only [Bool.and_eq_true, Bool.not_eq_eq_eq_not, Bool.not_true,
      decide_eq_true_eq, ne_eq]
    have hemp : line.isEmpty = false ↔ ¬line = [] := by
      cases line <;> simp
    rw [hemp]

/-! ## Builder invariants: basic lemmas -/

theorem getD_some_lt {u : Unique} {k : Nat} {nd : DNode}
    (h : u.getD k none = some nd) : k < u.length := by
  by_contra hge
  rw [List.getD_eq_default _ _ (by omega)] at h
  cases h

theorem ChildOk_mono {u : Unique} (ext : Unique) {ch : Option Nat}
    (h : ChildOk u ch) : ChildOk (u ++ ext) ch := by
  intro k hk
  obtain ⟨nd, hnd⟩ := h k hk
  have hlt : k < u.length := getD_some_lt hnd
  exact ⟨nd, by rw [List.getD_append _ _ _ _ hlt]; exact hnd⟩

theorem DictOk_mono {u : Unique} (ext : Unique) {d : BDict}
    (h : DictOk u d) : DictOk (u ++ ext) d := by
  intro e he
  exact ⟨(h e he).1, ChildOk_mono ext (h e he).2⟩

theorem SettledOk_mono {u : Unique} (ext : Unique)
    {settled : List (Char × Bool × BDict)} (h : SettledOk u settled) :
    SettledOk (u ++ ext) settled := by
  intro e he
  exact ⟨(h e he).1, DictOk_mono ext (h e he).2⟩

theorem SpineOk_mono {u : Unique} (ext : Unique) {sp : Spine}
    (h : SpineOk u sp) : SpineOk (u ++ ext) sp := by
  induction sp with
  | tip settled => exact SettledOk_mono ext h
  | grow settled c f sub ih =>
    exact ⟨SettledOk_mono ext h.1, h.2.1, ih h.2.2⟩

theorem getD_take {α : Type _} (l : List α) (n k : Nat) (d : α)
    (h : k < n) : (l.take n).getD k d = l.getD k d := by
  by_cases hk : k < l.length
  · rw [List.getD_eq_getElem?_getD, List.getD_eq_getElem?_getD,
      List.getElem?_take, if_pos h]
  · rw [List.getD_eq_default _ _ (by simp; omega),
      List.getD_eq_default _ _ (by omega)]

theorem ChildOk_of_take {u : Unique} {k : Nat} {ch : Option Nat}
    (h : ChildOk (u.take k) ch) : ChildOk u ch := by
  intro j hj
  obtain ⟨nd, hnd⟩ := h j hj
  have hlt : j < (u.take k).length := getD_some_lt hnd
  have hjk : j < k := by
    simp only [List.length_take] at hlt
    omega
  exact ⟨nd, by rw [← getD_take u k j none hjk]; exact hnd⟩

theorem DictOk_of_take {u : Unique} {k : Nat} {d : BDict}
    (h : DictOk (u.take k) d) : DictOk u d := by
  intro e he
  exact ⟨(h e he).1, ChildOk_of_take (h e he).2⟩

theorem findSig_some {u : Unique} {sig : DNode} :
    ∀ {k : Nat}, findSig u sig = some k → u.getD k none = some sig := by
  induction u with
  | nil => intro k h; cases h
  | cons x rest ih =>
    intro k h
    rw [findSig] at h
    by_cases hx : x = some sig
    · rw [if_pos hx] at h
      cases h
      simpa using hx
    · rw [if_neg hx] at h
      cases hfs : findSig rest sig with
      | none =>
        rw [hfs] at h
        cases h
      | some k2 =>
        rw [hfs] at h
        cases h
        simpa using ih hfs

theorem barOk_of_good {t : Str} (h : goodPfx t = true) : barOk t = true := by
  cases t with
  | nil => simp [goodPfx] at h
  | cons r rest =>
    simp only [goodPfx, Bool.and_eq_true, bne_iff_ne] at h
    simp only [barOk]
    rw [if_neg (by simpa using h.1)]
    exact h.2

theorem goodPfx_single (c : Char) (hc : c ≠ '|') : goodPfx [c] = true := by
  simp [goodPfx, barOk, hc]

theorem goodPfx_merge (c : Char) (fin : Bool) (t : Str) (hc : c ≠ '|')
    (ht : goodPfx t = true) :
    goodPfx (([c] : Str) ++ (if fin then '|' :: t else t)) = true := by
  cases fin with
  | true =>
    show goodPfx (c :: '|' :: t) = true
    simp only [goodPfx, Bool.and_eq_true, bne_iff_ne]
    refine ⟨hc, ?_⟩
    simp only [barOk]
    rw [if_pos (by simp)]
    cases t with
    | nil => simp [goodPfx] at ht
    | cons d rest =>
      simp only [goodPfx, Bool.and_eq_true, bne_iff_ne] at ht
      simp only [Bool.and_eq_true, bne_iff_ne]
      refine ⟨ht.1, ?_⟩
      simp only [barOk]
      rw [if_neg (by simpa using ht.1)]
      exact ht.2
  | false =>
    show goodPfx (c :: t) = true
    simp only [goodPfx, Bool.and_eq_true, bne_iff_ne]
    exact ⟨hc, barOk_of_good ht⟩

theorem noDoubleBar_of_barOk : ∀ {t : Str}, barOk t = true →
    noDoubleBar t = true := by
  intro t
  induction t with
  | nil => intro _; rfl
  | cons a rest ih =>
    intro h
    cases rest with
    | nil => rfl
    | cons b rest2 =>
      rw [noDoubleBar]
      by_cases ha : a = '|'
      · subst ha
        simp only [barOk] at h
        rw [if_pos (by simp)] at h
        simp only [Bool.and_eq_true, bne_iff_ne] at h
        simp only [Bool.and_eq_true]
        constructor
        · simp [h.1]
        · exact ih h.2
      · simp only [barOk] at h
        rw [if_neg (by simpa using ha)] at h
        simp only [Bool.and_eq_true]
        constructor
        · simp [ha]
        · exact ih h

theorem getD_append_self {α : Type _} (l : List α) (x d : α) :
    (l ++ [x]).getD l.length d = x := by
  rw [List.getD_eq_getElem?_getD, List.getElem?_append_right (le_refl _)]
  simp

theorem UniqueOk_push {u : Unique} (hu : UniqueOk u) (x : Option DNode)
    (hx : ∀ nd, x = some nd → nd.edges ≠ [] ∧ DictOk u nd.edges) :
    UniqueOk (u ++ [x]) := by
  intro k nd hk
  by_cases hlt : k < u.length
  · rw [List.getD_append _ _ _ _ hlt] at hk
    obtain ⟨h1, h2⟩ := hu k nd hk
    refine ⟨h1, ?_⟩
    rw [List.take_append_of_le_length (by omega)]
    exact h2
  · by_cases hk2 : k = u.length
    · subst hk2
      rw [getD_append_self] at hk
      obtain ⟨h1, h2⟩ := hx nd hk
      refine ⟨h1, ?_⟩
      rw [List.take_append_of_le_length (le_refl _), List.take_length]
      exact h2
    · rw [List.getD_eq_default _ _ (by simp; omega)] at hk
      cases hk

theorem DictOk_sortEdges {u : Unique} {d : BDict} (h : DictOk u d) :
    DictOk u (sortEdges d) := by
  intro e he
  exact h e ((stableSort_perm pfxLt d).mem_iff.mp he)

theorem sortEdges_ne_nil {d : BDict} (h : d ≠ []) : sortEdges d ≠ [] := by
  intro h2
  apply h
  have hlen := (stableSort_perm pfxLt d).length_eq
  rw [show stableSort pfxLt d = sortEdges d from rfl, h2] at hlen
  exact List.eq_nil_of_length_eq_zero (by simpa using hlen.symm)

/-- `_collapse_branch` preserves the builder invariants and produces a
well-formed entry. -/
theorem collapseBranch_inv (u : Unique) (c : Char) (fin : Bool) (di : BDict)
    (hc : c ≠ '|') (hdi : DictOk u di) (hu : UniqueOk u) :
    (∃ ext, (collapseBranch u c fin di).2.2 = u ++ ext) ∧
    UniqueOk (collapseBranch u c fin di).2.2 ∧
    goodPfx (collapseBranch u c fin di).1.1 = true ∧
    ChildOk (collapseBranch u c fin di).2.2 (collapseBranch u c fin di).1.2 := by
  cases di with
  | nil =>
    have hcb : collapseBranch u c fin [] = ((([c] : Str), none), false, u) :=
      rfl
    rw [hcb]
    exact ⟨⟨[], by simp⟩, hu, goodPfx_single c hc, fun k hk => by cases hk⟩
  | cons e di2 =>
    obtain ⟨tail0, lastd⟩ := e
    have hgood0 : goodPfx tail0 = true :=
      (hdi (tail0, lastd) (List.mem_cons_self _ _)).1
    have hch0 : ChildOk u lastd :=
      (hdi (tail0, lastd) (List.mem_cons_self _ _)).2
    cases di2 with
    | nil =>
      cases lastd with
      | none =>
        have hcb : collapseBranch u c fin [(tail0, none)] =
            ((([c] : Str) ++ (if fin then '|' :: tail0 else tail0), none),
              true, if u.contains none then u else u ++ [none]) := rfl
        rw [hcb]
        by_cases hcont : u.contains none = true
        · rw [if_pos hcont]
          exact ⟨⟨[], by simp⟩, hu, goodPfx_merge c fin tail0 hc hgood0,
            fun k hk => by cases hk⟩
        · rw [if_neg hcont]
          refine ⟨⟨[none], rfl⟩, ?_, goodPfx_merge c fin tail0 hc hgood0,
            fun k hk => by cases hk⟩
          exact UniqueOk_push hu none (fun nd hnd => by cases hnd)
      | some k0 =>
        have hcb : collapseBranch u c fin [(tail0, some k0)] =
            ((([c] : Str) ++ (if fin then '|' :: tail0 else tail0), some k0),
              true, u) := rfl
        rw [hcb]
        exact ⟨⟨[], by simp⟩, hu, goodPfx_merge c fin tail0 hc hgood0, hch0⟩
    | cons e2 rest2 =>
      have hcb : collapseBranch u c fin ((tail0, lastd) :: e2 :: rest2) =
          (match findSig u ⟨fin, sortEdges ((tail0, lastd) :: e2 :: rest2)⟩
            with
          | some k => ((([c] : Str), some k), false, u)
          | none => ((([c] : Str), some u.length), false,
              u ++ [some ⟨fin, sortEdges ((tail0, lastd) :: e2 :: rest2)⟩])) :=
        rfl
      cases hfs : findSig u ⟨fin, sortEdges ((tail0, lastd) :: e2 :: rest2)⟩
        with
      | some k1 =>
        rw [hcb, hfs]
        refine ⟨⟨[], by simp⟩, hu, goodPfx_single c hc, ?_⟩
        intro k hk
        cases hk
        exact ⟨_, findSig_some hfs⟩
      | none =>
        rw [hcb, hfs]
        refine ⟨⟨_, rfl⟩, ?_, goodPfx_single c hc, ?_⟩
        · refine UniqueOk_push hu _ (fun nd hnd => ?_)
          cases hnd
          exact ⟨sortEdges_ne_nil (by simp), DictOk_sortEdges hdi⟩
        · intro k hk
          cases hk
          exact ⟨_, getD_append_self u _ none⟩

/-- `_collapse` (entry fold) preserves the builder invariants. -/
theorem collapseEntries_inv :
    ∀ (entries : List (Char × Bool × BDict)) (u : Unique),
    (∀ e ∈ entries, e.1 ≠ '|' ∧ DictOk u e.2.2) → UniqueOk u →
    (∃ ext, (collapseEntries u entries).2.2 = u ++ ext) ∧
    UniqueOk (collapseEntries u entries).2.2 ∧
    DictOk (collapseEntries u entries).2.2
      ((collapseEntries u entries).1 ++ (collapseEntries u entries).2.1) := by
  intro entries
  induction entries with
  | nil =>
    intro u hset hu
    refine ⟨⟨[], by simp [collapseEntries]⟩, hu, ?_⟩
    intro e he
    simp [collapseEntries] at he
  | cons ent rest ih =>
    obtain ⟨c, fin, di⟩ := ent
    intro u hset hu
    have hc : c ≠ '|' := (hset (c, fin, di) (List.mem_cons_self _ _)).1
    have hdi : DictOk u di := (hset (c, fin, di) (List.mem_cons_self _ _)).2
    have hinv1 := collapseBranch_inv u c fin di hc hdi hu
    rcases hcb : collapseBranch u c fin di with ⟨entry1, mv1, u1⟩
    rw [hcb] at hinv1
    dsimp only at hinv1
    obtain ⟨⟨ext1, hext1⟩, hu1, hgood1, hch1⟩ := hinv1
    have hrest : ∀ e ∈ rest, e.1 ≠ '|' ∧ DictOk u1 e.2.2 := by
      intro e he
      refine ⟨(hset e (List.mem_cons_of_mem _ he)).1, ?_⟩
      rw [hext1]
      exact DictOk_mono ext1 (hset e (List.mem_cons_of_mem _ he)).2
    have hih := ih u1 hrest hu1
    rcases hce : collapseEntries u1 rest with ⟨front2, back2, u2⟩
    rw [hce] at hih
    dsimp only at hih
    obtain ⟨⟨ext2, hext2⟩, hu2, hdict2⟩ := hih
    have hstep : collapseEntries u ((c, fin, di) :: rest) =
        (if mv1 then (front2, entry1 :: back2, u2)
         else (entry1 :: front2, back2, u2)) := by
      simp only [collapseEntries, hcb, hce]
    rw [hstep]
    have hentry1 : goodPfx entry1.1 = true ∧ ChildOk u2 entry1.2 := by
      refine ⟨hgood1, ?_⟩
      rw [hext2]
      exact ChildOk_mono ext2 hch1
    cases mv1 with
    | true =>
      rw [if_pos rfl]
      dsimp only
      refine ⟨⟨ext1 ++ ext2, by rw [hext2, hext1, List.append_assoc]⟩,
        hu2, ?_⟩
      intro e he
      rcases List.mem_append.mp he with hf | hb
      · exact hdict2 e (List.mem_append.mpr (Or.inl hf))
      · rcases List.mem_cons.mp hb with he1 | hb2
        · subst he1
          exact hentry1
        · exact hdict2 e (List.mem_append.mpr (Or.inr hb2))
    | false =>
      rw [if_neg (by simp)]
      dsimp only
      refine ⟨⟨ext1 ++ ext2, by rw [hext2, hext1, List.append_assoc]⟩,
        hu2, ?_⟩
      intro e he
      rcases List.mem_append.mp he with hf | hb
      · rcases List.mem_cons.mp hf with he1 | hf2
        · subst he1
          exact hentry1
        · exact hdict2 e (List.mem_append.mpr (Or.inl hf2))
      · exact hdict2 e (List.mem_append.mpr (Or.inr hb))

theorem collapseDict_inv (u : Unique) (entries : List (Char × Bool × BDict))
    (hset : ∀ e ∈ entries, e.1 ≠ '|' ∧ DictOk u e.2.2) (hu : UniqueOk u) :
    (∃ ext, (collapseDict u entries).2 = u ++ ext) ∧
    UniqueOk (collapseDict u entries).2 ∧
    DictOk (collapseDict u entries).2 (collapseDict u entries).1 := by
  have h := collapseEntries_inv entries u hset hu
  rcases hce : collapseEntries u entries with ⟨front, back, u2⟩
  rw [hce] at h
  dsimp only at h
  have hcd : collapseDict u entries = (front ++ back, u2) := by
    simp only [collapseDict, hce]
  rw [hcd]
  exact h

theorem collapseSpine_inv :
    ∀ (sp : Spine) (u : Unique), SpineOk u sp → UniqueOk u →
    (∃ ext, (collapseSpine u sp).2 = u ++ ext) ∧
    UniqueOk (collapseSpine u sp).2 ∧
    DictOk (collapseSpine u sp).2 (collapseSpine u sp).1 := by
  intro sp
  induction sp with
  | tip settled =>
    intro u hsp hu
    exact collapseDict_inv u settled hsp hu
  | grow settled c f sub ih =>
    intro u hsp hu
    obtain ⟨hsettled, hc, hsub⟩ := hsp
    have h1 := ih u hsub hu
    rcases hcs : collapseSpine u sub with ⟨dsub, u1⟩
    rw [hcs] at h1
    dsimp only at h1
    obtain ⟨⟨ext1, hext1⟩, hu1, hdict1⟩ := h1
    have hstep : collapseSpine u (.grow settled c f sub) =
        collapseDict u1 (settled ++ [(c, f, dsub)]) := by
      simp only [collapseSpine, hcs]
    rw [hstep]
    have hset2 : ∀ e ∈ settled ++ [(c, f, dsub)],
        e.1 ≠ '|' ∧ DictOk u1 e.2.2 := by
      intro e he
      rcases List.mem_append.mp he with hs | hnew
      · refine ⟨(hsettled e hs).1, ?_⟩
        rw [hext1]
        exact DictOk_mono ext1 (hsettled e hs).2
      · have he2 := List.mem_singleton.mp hnew
        subst he2
        exact ⟨hc, hdict1⟩
    have h2 := collapseDict_inv u1 (settled ++ [(c, f, dsub)]) hset2 hu1
    obtain ⟨⟨ext2, hext2⟩, hu2, hdict2⟩ := h2
    exact ⟨⟨ext1 ++ ext2, by rw [hext2, hext1, List.append_assoc]⟩,
      hu2, hdict2⟩

theorem collapseTo_inv :
    ∀ (sp : Spine) (i : Nat) (u : Unique), SpineOk u sp → UniqueOk u →
    (∃ ext, (collapseTo u sp i).2 = u ++ ext) ∧
    UniqueOk (collapseTo u sp i).2 ∧
    SpineOk (collapseTo u sp i).2 (collapseTo u sp i).1 := by
  intro sp
  induction sp with
  | tip settled =>
    intro i u hsp hu
    exact ⟨⟨[], by simp [collapseTo]⟩, hu, hsp⟩
  | grow settled c f sub ih =>
    intro i u hsp hu
    obtain ⟨hsettled, hc, hsub⟩ := hsp
    cases i with
    | zero =>
      have h1 := collapseSpine_inv sub u hsub hu
      rcases hcs : collapseSpine u sub with ⟨dsub, u1⟩
      rw [hcs] at h1
      dsimp only at h1
      obtain ⟨⟨ext1, hext1⟩, hu1, hdict1⟩ := h1
      have hstep : collapseTo u (.grow settled c f sub) 0 =
          (.tip (settled ++ [(c, f, dsub)]), u1) := by
        simp only [collapseTo, hcs]
      rw [hstep]
      refine ⟨⟨ext1, hext1⟩, hu1, ?_⟩
      intro e he
      rcases List.mem_append.mp he with hs | hnew
      · refine ⟨(hsettled e hs).1, ?_⟩
        rw [hext1]
        exact DictOk_mono ext1 (hsettled e hs).2
      · have he2 := List.mem_singleton.mp hnew
        subst he2
        exact ⟨hc, hdict1⟩
    | succ i2 =>
      have h1 := ih i2 u hsub hu
      rcases hct : collapseTo u sub i2 with ⟨sub2, u1⟩
      rw [hct] at h1
      dsimp only at h1
      obtain ⟨⟨ext1, hext1⟩, hu1, hsp1⟩ := h1
      have hstep : collapseTo u (.grow settled c f sub) (i2 + 1) =
          (.grow settled c f sub2, u1) := by
        simp only [collapseTo, hct]
      rw [hstep]
      refine ⟨⟨ext1, hext1⟩, hu1, ?_, hc, hsp1⟩
      rw [hext1]
      exact SettledOk_mono ext1 hsettled

theorem chainOf_ok (u : Unique) : ∀ (w : Str), '|' ∉ w →
    SpineOk u (chainOf w) := by
  intro w
  induction w with
  | nil =>
    intro _
    exact fun e he => absurd he (List.not_mem_nil e)
  | cons c rest ih =>
    intro hbar
    refine ⟨fun e he => absurd he (List.not_mem_nil e), ?_, ?_⟩
    · intro hcc
      apply hbar
      rw [hcc]
      exact List.mem_cons_self _ _
    · exact ih (fun h => hbar (List.mem_cons_of_mem _ h))

theorem attachChain_ok :
    ∀ (sp : Spine) (u : Unique) (rest : Str), SpineOk u sp → '|' ∉ rest →
    SpineOk u (attachChain sp rest) := by
  intro sp
  induction sp with
  | tip settled =>
    intro u rest hsp hbar
    cases rest with
    | nil => exact hsp
    | cons c rest2 =>
      refine ⟨?_, ?_, ?_⟩
      · intro e he
        exact hsp e (List.mem_of_mem_filter he)
      · intro hcc
        apply hbar
        rw [hcc]
        exact List.mem_cons_self _ _
      · exact chainOf_ok u rest2 (fun h => hbar (List.mem_cons_of_mem _ h))
  | grow settled c0 f sub ih =>
    intro u rest hsp hbar
    exact ⟨hsp.1, hsp.2.1, ih u rest hsp.2.2 hbar⟩

theorem addWord_inv (st : BState) (w : Str) (st2 : BState)
    (hbar : '|' ∉ w) (hsp : SpineOk st.unique st.spine)
    (hu : UniqueOk st.unique) (hok : addWord st w = .ok st2) :
    SpineOk st2.unique st2.spine ∧ UniqueOk st2.unique := by
  rw [addWord] at hok
  by_cases hlen : MAXLEN ≤ w.length
  · rw [if_pos hlen] at hok
    cases hok
  · rw [if_neg hlen] at hok
    dsimp only at hok
    have h1 := collapseTo_inv st.spine
      (commonPrefixLen w (spineWord st.spine)) st.unique hsp hu
    rcases hct : collapseTo st.unique st.spine
        (commonPrefixLen w (spineWord st.spine)) with ⟨sp1, u1⟩
    rw [hct] at h1 hok
    dsimp only at h1 hok
    obtain ⟨_, hu1, hsp1⟩ := h1
    cases hok
    exact ⟨attachChain_ok sp1 u1 _ hsp1
      (fun h => hbar (List.mem_of_mem_drop h)), hu1⟩

theorem buildAll_inv : ∀ (ws : List Str) (st st2 : BState),
    (∀ w ∈ ws, '|' ∉ w) → SpineOk st.unique st.spine →
    UniqueOk st.unique → buildAll ws st = .ok st2 →
    SpineOk st2.unique st2.spine ∧ UniqueOk st2.unique := by
  intro ws
  induction ws with
  | nil =>
    intro st st2 _ hsp hu hok
    cases hok
    exact ⟨hsp, hu⟩
  | cons w ws2 ih =>
    intro st st2 hbar hsp hu hok
    rw [buildAll] at hok
    cases haw : addWord st w with
    | error e =>
      rw [haw] at hok
      cases hok
    | ok stm =>
      rw [haw] at hok
      dsimp only at hok
      have hm := addWord_inv st w stm (hbar w (List.mem_cons_self _ _))
        hsp hu haw
      exact ih stm st2 (fun w2 hw2 => hbar w2 (List.mem_cons_of_mem _ hw2))
        hm.1 hm.2 hok

theorem length_filterMap_id (u : Unique) :
    (u.filterMap id).length = u.countP (fun x => x.isSome) := by
  induction u with
  | nil => rfl
  | cons x rest ih =>
    cases x with
    | none => simp [List.filterMap_cons, List.countP_cons, ih]
    | some nd => simp [List.filterMap_cons, List.countP_cons, ih]

theorem idAt_le (u : Unique) (k : Nat) (nd : DNode)
    (h : u.getD k none = some nd) :
    idAt u k ≤ 1 + u.countP (fun x => x.isSome) := by
  have hlt : k < u.length := getD_some_lt h
  have hgetk : u[k]? = some (some nd) := by
    rw [List.getD_eq_getElem?_getD] at h
    cases hg : u[k]? with
    | none => rw [hg] at h; cases h
    | some x => rw [hg] at h; simp at h; rw [h]
  have htake : u.take (k + 1) = u.take k ++ [some nd] := by
    rw [List.take_succ, hgetk]
    rfl
  have hcount : (u.take (k + 1)).countP (fun x => x.isSome) =
      (u.take k).countP (fun x => x.isSome) + 1 := by
    rw [htake, List.countP_append]
    simp
  have hmono : (u.take (k + 1)).countP (fun x => x.isSome) ≤
      u.countP (fun x => x.isSome) := by
    conv_rhs => rw [← List.take_append_drop (k + 1) u]
    rw [List.countP_append]
    omega
  rw [idAt]
  omega

theorem mem_getD_of_mem {u : Unique} {nd : DNode} (h : some nd ∈ u) :
    ∃ k, u.getD k none = some nd := by
  obtain ⟨i, hi, hget⟩ := List.mem_iff_getElem.mp h
  refine ⟨i, ?_⟩
  rw [List.getD_eq_getElem?_getD, List.getElem?_eq_getElem hi, hget]
  rfl

/-- C9: in the text DAWG emitted by the builder from words free of the
bar character, no edge prefix starts with a vertical bar or contains two
consecutive vertical bars, and every edge's child line number is 0 (the
null sentinel) or between 2 and the number of lines of the file. -/
theorem build_edge_hygiene (ws : List Str) (hbar : ∀ w ∈ ws, '|' ∉ w)
    (st : BState) (root : BDict) (u : Unique)
    (hok : buildAll ws initB = .ok st) (hfin : finishB st = (root, u)) :
    ∀ nd : DNode, (some nd ∈ u ∨ nd = ⟨false, root⟩) → ∀ e ∈ nd.edges,
      e.1.headD ' ' ≠ '|' ∧ noDoubleBar e.1 = true ∧
      (childId u e.2 = 0 ∨
        (2 ≤ childId u e.2 ∧
          childId u e.2 ≤ (writeText root u).length)) := by
  have hinit_sp : SpineOk ([] : Unique) (Spine.tip []) :=
    fun e he => absurd he (List.not_mem_nil e)
  have hinit_u : UniqueOk ([] : Unique) := by
    intro k nd hk
    have hnil : (([] : Unique)).getD k none = none := by
      cases k <;> rfl
    rw [hnil] at hk
    cases hk
  obtain ⟨hsp, hu⟩ := buildAll_inv ws initB st hbar hinit_sp hinit_u hok
  have h1 := collapseSpine_inv st.spine st.unique hsp hu
  rw [show finishB st = collapseSpine st.unique st.spine from rfl] at hfin
  rw [hfin] at h1
  dsimp only at h1
  obtain ⟨_, hu2, hdict⟩ := h1
  intro nd hnd e he
  have hedict : goodPfx e.1 = true ∧ ChildOk u e.2 := by
    rcases hnd with hmem | hroot
    · obtain ⟨k, hk⟩ := mem_getD_of_mem hmem
      exact DictOk_of_take (hu2 k nd hk).2 e he
    · subst hroot
      exact hdict e he
  refine ⟨?_, noDoubleBar_of_barOk (barOk_of_good hedict.1), ?_⟩
  · have hg := hedict.1
    cases hp : e.1 with
    | nil =>
      rw [hp] at hg
      simp [goodPfx] at hg
    | cons a rest =>
      rw [hp] at hg
      simp only [goodPfx, Bool.and_eq_true, bne_iff_ne] at hg
      simpa using hg.1
  · cases hch : e.2 with
    | none => exact Or.inl rfl
    | some k =>
      right
      obtain ⟨nd2, hnd2⟩ := hedict.2 k hch
      constructor
      · exact Nat.le_add_right 2 _
      · have hlen : (writeText root u).length =
            1 + u.countP (fun x => x.isSome) := by
          rw [writeText]
          simp only [List.length_cons, List.length_map, length_filterMap_id]
          omega
        rw [hlen]
        exact idAt_le u k nd2 hnd2

set_option maxRecDepth 16384 in
/-- The hygiene theorem instantiated on the build of the words "ab", "ac":
the single root edge has prefix "a" and child line 2 of the 2-line file. -/
theorem build_edge_hygiene_witness :
    (['a'] : Str).headD ' ' ≠ '|' ∧ noDoubleBar ['a'] = true ∧
    (childId [some ⟨false, [(['b'], none), (['c'], none)]⟩] (some 0) = 0 ∨
      (2 ≤ childId [some ⟨false, [(['b'], none), (['c'], none)]⟩] (some 0) ∧
        childId [some ⟨false, [(['b'], none), (['c'], none)]⟩] (some 0) ≤
          (writeText [(['a'], some 0)]
            [some ⟨false, [(['b'], none), (['c'], none)]⟩]).length)) :=
  build_edge_hygiene [['a', 'b'], ['a', 'c']] (by decide)
    ⟨.grow [] 'a' false (.grow [('b', true, [])] 'c' true (.tip [])), []⟩
    [(['a'], some 0)] [some ⟨false, [(['b'], none), (['c'], none)]⟩]
    (by rfl) (by rfl)
    ⟨false, [(['a'], some 0)]⟩ (Or.inr rfl) (['a'], some 0)
    (by decide)

/-! ## Collation facts -/

set_option maxRecDepth 8192 in
theorem lcmap_eq : lcmap = ([0, 1, 2, 3, 4, 5, 6, 7, 8, 9, 10, 11, 12, 13, 14, 15, 16, 17, 18, 19, 20, 21, 22, 23, 24, 25, 26, 27, 28, 29, 30, 31, 32, 33, 34, 35, 36, 37, 38, 39, 40, 41, 42, 43, 44, 45, 46, 47, 48, 49, 50, 51, 52, 53, 54, 55, 56, 57, 58, 59, 60, 61, 62, 63, 64, 65, 67, 68, 69, 71, 73, 74, 75, 76, 78, 79, 80, 81, 82, 83, 85, 86, 87, 88, 89, 90, 92, 93, 94, 95, 97, 100, 101, 102, 103, 104, 105, 106, 108, 109, 110, 112, 114, 115, 116, 117, 119, 120, 121, 122, 123, 124, 126, 127, 128, 129, 130, 131, 133, 134, 135, 136, 138, 141, 142, 143, 144, 145, 146, 147, 148, 149, 150, 151, 152, 153, 154, 155, 156, 157, 158, 159, 160, 161, 162, 163, 164, 165, 166, 167, 168, 169, 170, 171, 172, 173, 174, 175, 176, 177, 178, 179, 180, 181, 182, 183, 184, 185, 186, 187, 188, 189, 190, 191, 192, 193, 194, 195, 196, 197, 198, 199, 200, 201, 202, 203, 204, 205, 206, 207, 208, 209, 210, 66, 211, 212, 213, 214, 99, 215, 216, 72, 217, 218, 219, 77, 220, 221, 70, 222, 223, 84, 224, 225, 226, 227, 228, 229, 91, 230, 231, 96, 98, 232, 233, 107, 234, 235, 236, 237, 140, 238, 239, 113, 240, 241, 242, 118, 243, 244, 111, 245, 246, 125, 247, 248, 249, 250, 251, 252, 132, 253, 254, 137, 139, 255] : List Nat) := by decide

theorem charRank_eq (c : Char) :
    charRank c =
      (if c.toNat ≤ 255 then ([0, 1, 2, 3, 4, 5, 6, 7, 8, 9, 10, 11, 12, 13, 14, 15, 16, 17, 18, 19, 20, 21, 22, 23, 24, 25, 26, 27, 28, 29, 30, 31, 32, 33, 34, 35, 36, 37, 38, 39, 40, 41, 42, 43, 44, 45, 46, 47, 48, 49, 50, 51, 52, 53, 54, 55, 56, 57, 58, 59, 60, 61, 62, 63, 64, 65, 67, 68, 69, 71, 73, 74, 75, 76, 78, 79, 80, 81, 82, 83, 85, 86, 87, 88, 89, 90, 92, 93, 94, 95, 97, 100, 101, 102, 103, 104, 105, 106, 108, 109, 110, 112, 114, 115, 116, 117, 119, 120, 121, 122, 123, 124, 126, 127, 128, 129, 130, 131, 133, 134, 135, 136, 138, 141, 142, 143, 144, 145, 146, 147, 148, 149, 150, 151, 152, 153, 154, 155, 156, 157, 158, 159, 160, 161, 162, 163, 164, 165, 166, 167, 168, 169, 170, 171, 172, 173, 174, 175, 176, 177, 178, 179, 180, 181, 182, 183, 184, 185, 186, 187, 188, 189, 190, 191, 192, 193, 194, 195, 196, 197, 198, 199, 200, 201, 202, 203, 204, 205, 206, 207, 208, 209, 210, 66, 211, 212, 213, 214, 99, 215, 216, 72, 217, 218, 219, 77, 220, 221, 70, 222, 223, 84, 224, 225, 226, 227, 228, 229, 91, 230, 231, 96, 98, 232, 233, 107, 234, 235, 236, 237, 140, 238, 239, 113, 240, 241, 242, 118, 243, 244, 111, 245, 246, 125, 247, 248, 249, 250, 251, 252, 132, 253, 254, 137, 139, 255] : List Nat).getD c.toNat 0
       else 256) := by
  unfold charRank
  rw [lcmap_eq]

theorem charRank_inj {a b : Char} (ha : a ∈ fullOrder) (hb : b ∈ fullOrder)
    (h : charRank a = charRank b) : a = b := by
  have hmap : fullOrder.map charRank = fullOrder.map
      (fun c => if c.toNat ≤ 255 then ([0, 1, 2, 3, 4, 5, 6, 7, 8, 9, 10, 11, 12, 13, 14, 15, 16, 17, 18, 19, 20, 21, 22, 23, 24, 25, 26, 27, 28, 29, 30, 31, 32, 33, 34, 35, 36, 37, 38, 39, 40, 41, 42, 43, 44, 45, 46, 47, 48, 49, 50, 51, 52, 53, 54, 55, 56, 57, 58, 59, 60, 61, 62, 63, 64, 65, 67, 68, 69, 71, 73, 74, 75, 76, 78, 79, 80, 81, 82, 83, 85, 86, 87, 88, 89, 90, 92, 93, 94, 95, 97, 100, 101, 102, 103, 104, 105, 106, 108, 109, 110, 112, 114, 115, 116, 117, 119, 120, 121, 122, 123, 124, 126, 127, 128, 129, 130, 131, 133, 134, 135, 136, 138, 141, 142, 143, 144, 145, 146, 147, 148, 149, 150, 151, 152, 153, 154, 155, 156, 157, 158, 159, 160, 161, 162, 163, 164, 165, 166, 167, 168, 169, 170, 171, 172, 173, 174, 175, 176, 177, 178, 179, 180, 181, 182, 183, 184, 185, 186, 187, 188, 189, 190, 191, 192, 193, 194, 195, 196, 197, 198, 199, 200, 201, 202, 203, 204, 205, 206, 207, 208, 209, 210, 66, 211, 212, 213, 214, 99, 215, 216, 72, 217, 218, 219, 77, 220, 221, 70, 222, 223, 84, 224, 225, 226, 227, 228, 229, 91, 230, 231, 96, 98, 232, 233, 107, 234, 235, 236, 237, 140, 238, 239, 113, 240, 241, 242, 118, 243, 244, 111, 245, 246, 125, 247, 248, 249, 250, 251, 252, 132, 253, 254, 137, 139, 255] : List Nat).getD c.toNat 0
        else 256) :=
    List.map_congr_left (fun c _ => charRank_eq c)
  have hnodup : (fullOrder.map charRank).Nodup := by
    rw [hmap]
    decide
  exact List.inj_on_of_nodup_map hnodup ha hb h

theorem sortkey_nil : sortkey [] = [] := rfl

theorem sortkey_cons (c : Char) (w : Str) :
    sortkey (c :: w) = charRank c :: sortkey w := rfl

theorem commonPrefixLen_self (w : Str) : commonPrefixLen w w = w.length := by
  induction w with
  | nil => rfl
  | cons c rest ih =>
    rw [commonPrefixLen, if_pos rfl, ih]
    rfl

theorem keyLt_common (a : Str) : ∀ (b : Str),
    (∀ c ∈ a, c ∈ fullOrder) → (∀ c ∈ b, c ∈ fullOrder) →
    keyLt (sortkey a) (sortkey b) = true →
    (commonPrefixLen b a = a.length ∧ a.length < b.length) ∨
    (commonPrefixLen b a < a.length ∧ commonPrefixLen b a < b.length ∧
      charRank (a.getD (commonPrefixLen b a) ' ') <
        charRank (b.getD (commonPrefixLen b a) ' ')) := by
  induction a with
  | nil =>
    intro b _ _ hlt
    cases b with
    | nil => cases hlt
    | cons y ys =>
      left
      exact ⟨rfl, by simp⟩
  | cons x xs ih =>
    intro b ha hb hlt
    cases b with
    | nil => cases hlt
    | cons y ys =>
      rw [sortkey_cons, sortkey_cons, keyLt] at hlt
      by_cases hxy : y = x
      · subst hxy
        rw [if_neg (lt_irrefl _), if_neg (lt_irrefl _)] at hlt
        have hrec := ih ys (fun c hc => ha c (List.mem_cons_of_mem _ hc))
          (fun c hc => hb c (List.mem_cons_of_mem _ hc)) hlt
        have hcpl : commonPrefixLen (y :: ys) (y :: xs) =
            commonPrefixLen ys xs + 1 := by
          rw [commonPrefixLen, if_pos rfl]
        rcases hrec with ⟨h1, h2⟩ | ⟨h1, h2, h3⟩
        · left
          constructor
          · rw [hcpl, h1]
            rfl
          · simp only [List.length_cons]
            omega
        · right
          refine ⟨by rw [hcpl]; simp only [List.length_cons]; omega,
            by rw [hcpl]; simp only [List.length_cons]; omega, ?_⟩
          rw [hcpl]
          simpa using h3
      · by_cases hr : charRank x < charRank y
        · right
          have hcpl : commonPrefixLen (y :: ys) (x :: xs) = 0 := by
            rw [commonPrefixLen, if_neg hxy]
          rw [hcpl]
          exact ⟨by simp, by simp, by simpa using hr⟩
        · exfalso
          by_cases hr2 : charRank y < charRank x
          · rw [if_neg hr, if_pos hr2] at hlt
            cases hlt
          · have heq : charRank x = charRank y := by omega
            exact hxy (charRank_inj (hb y (List.mem_cons_self _ _))
              (ha x (List.mem_cons_self _ _)) (heq ▸ rfl))

/-! ## Semantics of the builder graph -/

theorem NodeSem_flag {g : Graph} {d : BDict} {x y : Bool} {w : Str} :
    NodeSem g ⟨x, d⟩ w ↔ NodeSem g ⟨y, d⟩ w := by
  rw [NodeSem_iff, NodeSem_iff]

theorem NodeSem_perm {g : Graph} {d1 d2 : BDict} {x : Bool} {w : Str}
    (h : d1.Perm d2) : NodeSem g ⟨x, d1⟩ w ↔ NodeSem g ⟨x, d2⟩ w := by
  rw [NodeSem_iff, NodeSem_iff]
  constructor
  · rintro ⟨e, he, hsem⟩
    exact ⟨e, h.mem_iff.mp he, hsem⟩
  · rintro ⟨e, he, hsem⟩
    exact ⟨e, h.mem_iff.mpr he, hsem⟩

theorem NodeSem_single {g : Graph} {p : Str} {nx : Option Nat} {x : Bool}
    {w : Str} : NodeSem g ⟨x, [(p, nx)]⟩ w ↔ EdgeSem g p nx w := by
  rw [NodeSem_iff]
  constructor
  · rintro ⟨e, he, hsem⟩
    have he2 := List.mem_singleton.mp he
    subst he2
    exact hsem
  · intro h
    exact ⟨(p, nx), List.mem_singleton.mpr rfl, h⟩

theorem NodeSem_empty {g : Graph} {x : Bool} {w : Str} :
    ¬NodeSem g ⟨x, ([] : BDict)⟩ w := by
  rw [NodeSem_iff]
  rintro ⟨e, he, _⟩
  cases he

theorem bGraph_append {u ext : Unique} {k : Nat} {nd : DNode}
    (h : u.getD k none = some nd) : bGraph (u ++ ext) k = bGraph u k := by
  unfold bGraph
  rw [List.getD_append _ _ _ _ (getD_some_lt h)]

theorem DictOk_of_unique {u : Unique} (hu : UniqueOk u) {k : Nat}
    {nd : DNode} (h : u.getD k none = some nd) : DictOk u nd.edges :=
  DictOk_of_take (hu k nd h).2

theorem finalAt_ext {u ext : Unique} {rest : Str} {nx : Option Nat}
    (hch : ChildOk u nx) :
    finalAt (bGraph (u ++ ext)) rest nx = finalAt (bGraph u) rest nx := by
  cases rest with
  | cons r t => rfl
  | nil =>
    show nullOrFinal _ nx = nullOrFinal _ nx
    cases nx with
    | none => rfl
    | some k =>
      obtain ⟨nd, hnd⟩ := hch k rfl
      show (bGraph (u ++ ext) k).final = (bGraph u k).final
      rw [bGraph_append hnd]

/-- Extending the unique dict does not change the recognized words of any
well-formed dict or edge. -/
theorem bGraph_ext_sem (u ext : Unique) (hu : UniqueOk u) :
    ∀ n : Nat, ∀ w : Str, w.length ≤ n →
      (∀ (pfx : Str) (nx : Option Nat), ChildOk u nx →
        (EdgeSem (bGraph u) pfx nx w ↔
          EdgeSem (bGraph (u ++ ext)) pfx nx w)) ∧
      (∀ d : BDict, DictOk u d → ∀ x : Bool,
        (NodeSem (bGraph u) ⟨x, d⟩ w ↔
          NodeSem (bGraph (u ++ ext)) ⟨x, d⟩ w)) := by
  intro n
  induction n with
  | zero =>
    intro w hw
    have hwnil : w = [] := List.eq_nil_of_length_eq_zero (by omega)
    subst hwnil
    constructor
    · intro pfx nx _
      constructor <;> intro h <;> exact absurd h EdgeSem_not_nil
    · intro d _ x
      constructor <;> intro h <;> exact absurd h NodeSem_not_nil
  | succ n ih =>
    intro w hw
    have hedge : ∀ (pfx : Str) (nx : Option Nat), ChildOk u nx →
        (EdgeSem (bGraph u) pfx nx w ↔
          EdgeSem (bGraph (u ++ ext)) pfx nx w) := by
      intro pfx nx hch
      constructor
      · intro h
        cases h with
        | stop hfin =>
          exact .stop (by rw [finalAt_ext hch]; exact hfin)
        | more hne hrec =>
          rename_i c rest w2
          exact .more hne (((ih w2 (by
            simp only [List.length_cons] at hw
            omega)).1 (dropBar rest) nx hch).mp hrec)
        | child hnil hnode =>
          rename_i c rest nid w2
          obtain ⟨nd, hnd⟩ := hch nid rfl
          have hgu : bGraph u nid = nd := by
            unfold bGraph
            rw [hnd]
            rfl
          have hg2 : bGraph (u ++ ext) nid = nd := by
            rw [bGraph_append hnd, hgu]
          rw [hgu] at hnode
          refine .child hnil ?_
          rw [hg2]
          have hignore : NodeSem (bGraph u) nd w2 ↔
              NodeSem (bGraph u) ⟨nd.final, nd.edges⟩ w2 := Iff.rfl
          have := ((ih w2 (by
            simp only [List.length_cons] at hw
            omega)).2 nd.edges (DictOk_of_unique hu hnd) nd.final).mp
            (hignore.mp hnode)
          exact this
      · intro h
        cases h with
        | stop hfin =>
          exact .stop (by rw [← finalAt_ext hch]; exact hfin)
        | more hne hrec =>
          rename_i c rest w2
          exact .more hne (((ih w2 (by
            simp only [List.length_cons] at hw
            omega)).1 (dropBar rest) nx hch).mpr hrec)
        | child hnil hnode =>
          rename_i c rest nid w2
          obtain ⟨nd, hnd⟩ := hch nid rfl
          have hgu : bGraph u nid = nd := by
            unfold bGraph
            rw [hnd]
            rfl
          have hg2 : bGraph (u ++ ext) nid = nd := by
            rw [bGraph_append hnd, hgu]
          rw [hg2] at hnode
          refine .child hnil ?_
          rw [hgu]
          exact ((ih w2 (by
            simp only [List.length_cons] at hw
            omega)).2 nd.edges (DictOk_of_unique hu hnd) nd.final).mpr hnode
    refine ⟨hedge, ?_⟩
    intro d hd x
    rw [NodeSem_iff, NodeSem_iff]
    constructor
    · rintro ⟨e, he, hsem⟩
      exact ⟨e, he, (hedge e.1 e.2 (hd e he).2).mp hsem⟩
    · rintro ⟨e, he, hsem⟩
      exact ⟨e, he, (hedge e.1 e.2 (hd e he).2).mpr hsem⟩

theorem NodeSem_ext {u ext : Unique} {d : BDict} {x : Bool} {w : Str}
    (hu : UniqueOk u) (hd : DictOk u d) :
    NodeSem (bGraph u) ⟨x, d⟩ w ↔ NodeSem (bGraph (u ++ ext)) ⟨x, d⟩ w :=
  (bGraph_ext_sem u ext hu w.length w (le_refl _)).2 d hd x

theorem EdgeSem_ext {u ext : Unique} {pfx : Str} {nx : Option Nat}
    {w : Str} (hu : UniqueOk u) (hch : ChildOk u nx) :
    EdgeSem (bGraph u) pfx nx w ↔ EdgeSem (bGraph (u ++ ext)) pfx nx w :=
  (bGraph_ext_sem u ext hu w.length w (le_refl _)).1 pfx nx hch

/-! ## Language preservation through `_collapse_branch` -/

theorem EdgeSem_single_none {g : Graph} {c : Char} {w : Str} :
    EdgeSem g [c] none w ↔ w = [c] := by
  constructor
  · intro h
    obtain ⟨c2, p2, w2, hp, hw⟩ := EdgeSem_shape h
    injection hp with h1 h2
    subst hw
    cases h1
    rw [EdgeSem_single_iff] at h
    rcases h with ⟨_, hw2⟩ | ⟨nid, hnx, _⟩
    · rw [hw2]
    · cases hnx
  · intro h
    subst h
    exact .stop rfl

theorem EdgeSem_single_some {g : Graph} {c : Char} {k : Nat} {w : Str} :
    EdgeSem g [c] (some k) w ↔
      ∃ w2, w = c :: w2 ∧
        (((g k).final = true ∧ w2 = []) ∨ NodeSem g (g k) w2) := by
  constructor
  · intro h
    obtain ⟨c2, p2, w2, hp, hw⟩ := EdgeSem_shape h
    injection hp with h1 h2
    subst hw
    cases h1
    rw [EdgeSem_single_iff] at h
    rcases h with ⟨hfin, hw2⟩ | ⟨nid, hnx, hns⟩
    · exact ⟨w2, rfl, Or.inl ⟨hfin, hw2⟩⟩
    · cases hnx
      exact ⟨w2, rfl, Or.inr hns⟩
  · rintro ⟨w2, rfl, (⟨hfin, rfl⟩ | hns)⟩
    · exact .stop hfin
    · exact .child (by simp [dropBar]) hns

theorem EdgeSem_merge (g : Graph) (c : Char) (fin : Bool) (tail0 : Str)
    (nx : Option Nat) (hg : goodPfx tail0 = true) (w : Str) :
    (EdgeSem g (([c] : Str) ++ (if fin then '|' :: tail0 else tail0)) nx w ↔
      ∃ w2, w = c :: w2 ∧
        ((w2 = [] ∧ fin = true) ∨ EdgeSem g tail0 nx w2)) := by
  have hne : tail0 ≠ [] := goodPfx_ne_nil hg
  cases fin with
  | true =>
    show EdgeSem g (c :: '|' :: tail0) nx w ↔ _
    constructor
    · intro h
      obtain ⟨c2, p2, w2, hp, hw⟩ := EdgeSem_shape h
      injection hp with h1 h2
      subst hw
      cases h1
      rw [EdgeSem_bar_iff hne] at h
      rcases h with hw2 | hrec
      · exact ⟨w2, rfl, Or.inl ⟨hw2, rfl⟩⟩
      · exact ⟨w2, rfl, Or.inr hrec⟩
    · rintro ⟨w2, rfl, (⟨rfl, _⟩ | hrec)⟩
      · exact (EdgeSem_bar_iff hne).mpr (Or.inl rfl)
      · exact (EdgeSem_bar_iff hne).mpr (Or.inr hrec)
  | false =>
    show EdgeSem g (c :: tail0) nx w ↔ _
    cases tail0 with
    | nil => exact absurd rfl hne
    | cons th tt2 =>
      have hth : th ≠ '|' := by
        simp only [goodPfx, Bool.and_eq_true, bne_iff_ne] at hg
        exact hg.1
      constructor
      · intro h
        obtain ⟨c2, p2, w2, hp, hw⟩ := EdgeSem_shape h
        injection hp with h1 h2
        subst hw
        cases h1
        rw [EdgeSem_step_iff hth] at h
        exact ⟨w2, rfl, Or.inr h⟩
      · rintro ⟨w2, rfl, (⟨rfl, hff⟩ | hrec)⟩
        · cases hff
        · exact (EdgeSem_step_iff hth).mpr hrec

/-- The entry produced by `_collapse_branch` recognizes exactly the words
of the entry it replaces: the letter `c` followed by nothing (when the
node was final) or by a word of the node's edge dict. -/
theorem collapseBranch_lang (u : Unique) (c : Char) (fin : Bool)
    (di : BDict) (hdi : DictOk u di) (hu : UniqueOk u)
    (hfin0 : di = [] → fin = true) (w : Str) :
    (EdgeSem (bGraph (collapseBranch u c fin di).2.2)
        (collapseBranch u c fin di).1.1 (collapseBranch u c fin di).1.2 w ↔
      ∃ w2, w = c :: w2 ∧
        ((w2 = [] ∧ fin = true) ∨ NodeSem (bGraph u) ⟨false, di⟩ w2)) := by
  cases di with
  | nil =>
    have hcb : collapseBranch u c fin [] = ((([c] : Str), none), false, u) :=
      rfl
    rw [hcb]
    dsimp only
    rw [EdgeSem_single_none]
    constructor
    · intro h
      exact ⟨[], h, Or.inl ⟨rfl, hfin0 rfl⟩⟩
    · rintro ⟨w2, rfl, (⟨rfl, _⟩ | hns)⟩
      · rfl
      · exact absurd hns NodeSem_empty
  | cons e di2 =>
    obtain ⟨tail0, lastd⟩ := e
    have hgood0 : goodPfx tail0 = true :=
      (hdi (tail0, lastd) (List.mem_cons_self _ _)).1
    have hch0 : ChildOk u lastd :=
      (hdi (tail0, lastd) (List.mem_cons_self _ _)).2
    cases di2 with
    | nil =>
      cases lastd with
      | none =>
        have hcb : collapseBranch u c fin [(tail0, none)] =
            ((([c] : Str) ++ (if fin then '|' :: tail0 else tail0), none),
              true, if u.contains none then u else u ++ [none]) := rfl
        rw [hcb]
        dsimp only
        have hext : ∃ ext, (if u.contains none then u else u ++ [none]) =
            u ++ ext := by
          by_cases hcont : u.contains none = true
          · exact ⟨[], by rw [if_pos hcont, List.append_nil]⟩
          · exact ⟨[none], by rw [if_neg hcont]⟩
        obtain ⟨ext, hext⟩ := hext
        rw [hext]
        rw [← EdgeSem_ext hu (fun k hk => by cases hk)]
        rw [EdgeSem_merge (bGraph u) c fin tail0 none hgood0 w]
        constructor
        · rintro ⟨w2, rfl, h2⟩
          refine ⟨w2, rfl, ?_⟩
          rcases h2 with h2 | h2
          · exact Or.inl h2
          · exact Or.inr (NodeSem_single.mpr h2)
        · rintro ⟨w2, rfl, h2⟩
          refine ⟨w2, rfl, ?_⟩
          rcases h2 with h2 | h2
          · exact Or.inl h2
          · exact Or.inr (NodeSem_single.mp h2)
      | some k0 =>
        have hcb : collapseBranch u c fin [(tail0, some k0)] =
            ((([c] : Str) ++ (if fin then '|' :: tail0 else tail0),
              some k0), true, u) := rfl
        rw [hcb]
        dsimp only
        rw [EdgeSem_merge (bGraph u) c fin tail0 (some k0) hgood0 w]
        constructor
        · rintro ⟨w2, rfl, h2⟩
          refine ⟨w2, rfl, ?_⟩
          rcases h2 with h2 | h2
          · exact Or.inl h2
          · exact Or.inr (NodeSem_single.mpr h2)
        · rintro ⟨w2, rfl, h2⟩
          refine ⟨w2, rfl, ?_⟩
          rcases h2 with h2 | h2
          · exact Or.inl h2
          · exact Or.inr (NodeSem_single.mp h2)
    | cons e2 rest2 =>
      have hcb : collapseBranch u c fin ((tail0, lastd) :: e2 :: rest2) =
          (match findSig u ⟨fin, sortEdges ((tail0, lastd) :: e2 :: rest2)⟩
            with
          | some k => ((([c] : Str), some k), false, u)
          | none => ((([c] : Str), some u.length), false,
              u ++ [some ⟨fin, sortEdges ((tail0, lastd) :: e2 :: rest2)⟩])) :=
        rfl
      cases hfs : findSig u ⟨fin, sortEdges ((tail0, lastd) :: e2 :: rest2)⟩
        with
      | some k1 =>
        rw [hcb, hfs]
        dsimp only
        have hsig := findSig_some hfs
        have hg1 : bGraph u k1 =
            ⟨fin, sortEdges ((tail0, lastd) :: e2 :: rest2)⟩ := by
          unfold bGraph
          rw [hsig]
          rfl
        rw [EdgeSem_single_some]
        constructor
        · rintro ⟨w2, rfl, h2⟩
          refine ⟨w2, rfl, ?_⟩
          rcases h2 with ⟨hfin, rfl⟩ | hns
          · rw [hg1] at hfin
            exact Or.inl ⟨rfl, hfin⟩
          · rw [hg1] at hns
            refine Or.inr ?_
            exact (NodeSem_perm (stableSort_perm pfxLt _)).mp
              (NodeSem_flag.mp hns)
        · rintro ⟨w2, rfl, h2⟩
          refine ⟨w2, rfl, ?_⟩
          rcases h2 with ⟨rfl, hfin⟩ | hns
          · refine Or.inl ⟨?_, rfl⟩
            rw [hg1]
            exact hfin
          · refine Or.inr ?_
            rw [hg1]
            exact NodeSem_flag.mp
              ((NodeSem_perm (stableSort_perm pfxLt _)).mpr hns)
      | none =>
        rw [hcb, hfs]
        dsimp only
        have hg1 : bGraph
            (u ++ [some ⟨fin, sortEdges ((tail0, lastd) :: e2 :: rest2)⟩])
            u.length = ⟨fin, sortEdges ((tail0, lastd) :: e2 :: rest2)⟩ := by
          unfold bGraph
          rw [getD_append_self]
          rfl
        rw [EdgeSem_single_some]
        have hditr : DictOk u ((tail0, lastd) :: e2 :: rest2) := hdi
        constructor
        · rintro ⟨w2, rfl, h2⟩
          refine ⟨w2, rfl, ?_⟩
          rcases h2 with ⟨hfin, rfl⟩ | hns
          · rw [hg1] at hfin
            exact Or.inl ⟨rfl, hfin⟩
          · rw [hg1] at hns
            refine Or.inr ?_
            have hns2 : NodeSem _ ⟨false, (tail0, lastd) :: e2 :: rest2⟩
                w2 := (NodeSem_perm (stableSort_perm pfxLt _)).mp
              (NodeSem_flag.mp hns)
            exact (NodeSem_ext hu hditr).mpr hns2
        · rintro ⟨w2, rfl, h2⟩
          refine ⟨w2, rfl, ?_⟩
          rcases h2 with ⟨rfl, hfin⟩ | hns
          · refine Or.inl ⟨?_, rfl⟩
            rw [hg1]
            exact hfin
          · refine Or.inr ?_
            rw [hg1]
            have hns2 : NodeSem
                (bGraph (u ++
                  [some ⟨fin, sortEdges ((tail0, lastd) :: e2 :: rest2)⟩]))
                ⟨false, (tail0, lastd) :: e2 :: rest2⟩ w2 :=
              (NodeSem_ext hu hditr).mp hns
            exact (NodeSem_perm (stableSort_perm pfxLt _)).mpr
              (NodeSem_flag.mp hns2)

/-! ## Settled-level semantics helpers -/

theorem settledSem_cons {u : Unique} {ent : Char × Bool × BDict}
    {rest : List (Char × Bool × BDict)} {w : Str} :
    settledSem u (ent :: rest) w ↔
      ((∃ w2, w = ent.1 :: w2 ∧ (w2 = [] ∧ ent.2.1 = true ∨
        NodeSem (bGraph u) ⟨false, ent.2.2⟩ w2)) ∨ settledSem u rest w) := by
  unfold settledSem
  constructor
  · rintro ⟨e, he, w2, hw, hcase⟩
    rcases List.mem_cons.mp he with rfl | htail
    · exact Or.inl ⟨w2, hw, hcase⟩
    · exact Or.inr ⟨e, htail, w2, hw, hcase⟩
  · rintro (⟨w2, hw, hcase⟩ | ⟨e, htail, w2, hw, hcase⟩)
    · exact ⟨ent, List.mem_cons_self _ _, w2, hw, hcase⟩
    · exact ⟨e, List.mem_cons_of_mem _ htail, w2, hw, hcase⟩

theorem settledSem_nil {u : Unique} {w : Str} :
    ¬settledSem u [] w := by
  rintro ⟨e, he, _⟩
  cases he

theorem settledSem_append {u : Unique} {s1 s2 : List (Char × Bool × BDict)}
    {w : Str} :
    settledSem u (s1 ++ s2) w ↔ settledSem u s1 w ∨ settledSem u s2 w := by
  unfold settledSem
  constructor
  · rintro ⟨e, he, hrest⟩
    rcases List.mem_append.mp he with h1 | h2
    · exact Or.inl ⟨e, h1, hrest⟩
    · exact Or.inr ⟨e, h2, hrest⟩
  · rintro (⟨e, he, hrest⟩ | ⟨e, he, hrest⟩)
    · exact ⟨e, List.mem_append.mpr (Or.inl he), hrest⟩
    · exact ⟨e, List.mem_append.mpr (Or.inr he), hrest⟩

theorem settledSem_ext {u : Unique} (ext : Unique)
    {settled : List (Char × Bool × BDict)} {w : Str} (hu : UniqueOk u)
    (hset : ∀ e ∈ settled, DictOk u e.2.2) :
    settledSem u settled w ↔ settledSem (u ++ ext) settled w := by
  unfold settledSem
  constructor
  · rintro ⟨e, he, w2, hw, hcase⟩
    refine ⟨e, he, w2, hw, ?_⟩
    rcases hcase with h | h
    · exact Or.inl h
    · exact Or.inr ((NodeSem_ext hu (hset e he)).mp h)
  · rintro ⟨e, he, w2, hw, hcase⟩
    refine ⟨e, he, w2, hw, ?_⟩
    rcases hcase with h | h
    · exact Or.inl h
    · exact Or.inr ((NodeSem_ext hu (hset e he)).mpr h)

theorem spineSem_ext {u : Unique} (ext : Unique) (hu : UniqueOk u) :
    ∀ (sp : Spine), SpineOk u sp → ∀ w,
    (spineSem u sp w ↔ spineSem (u ++ ext) sp w) := by
  intro sp
  induction sp with
  | tip settled =>
    intro hsp w
    exact settledSem_ext ext hu (fun e he => (hsp e he).2)
  | grow settled c f sub ih =>
    intro hsp w
    show settledSem _ _ _ ∨ _ ↔ settledSem _ _ _ ∨ _
    rw [settledSem_ext ext hu (fun e he => (hsp.1 e he).2)]
    constructor
    · rintro (h | ⟨w2, hw, hcase⟩)
      · exact Or.inl h
      · refine Or.inr ⟨w2, hw, ?_⟩
        rcases hcase with h2 | h2
        · exact Or.inl h2
        · exact Or.inr ((ih hsp.2.2 w2).mp h2)
    · rintro (h | ⟨w2, hw, hcase⟩)
      · exact Or.inl h
      · refine Or.inr ⟨w2, hw, ?_⟩
        rcases hcase with h2 | h2
        · exact Or.inl h2
        · exact Or.inr ((ih hsp.2.2 w2).mpr h2)

theorem collapseEntries_length :
    ∀ (entries : List (Char × Bool × BDict)) (u : Unique),
    (collapseEntries u entries).1.length +
      (collapseEntries u entries).2.1.length = entries.length := by
  intro entries
  induction entries with
  | nil => intro u; rfl
  | cons ent rest ih =>
    obtain ⟨c, fin, di⟩ := ent
    intro u
    rcases hcb : collapseBranch u c fin di with ⟨entry1, mv1, u1⟩
    rcases hce : collapseEntries u1 rest with ⟨front2, back2, u2⟩
    have hstep : collapseEntries u ((c, fin, di) :: rest) =
        (if mv1 then (front2, entry1 :: back2, u2)
         else (entry1 :: front2, back2, u2)) := by
      simp only [collapseEntries, hcb, hce]
    rw [hstep]
    have hih := ih u1
    rw [hce] at hih
    dsimp only at hih
    cases mv1 with
    | true =>
      rw [if_pos rfl]
      dsimp only
      simp only [List.length_cons]
      omega
    | false =>
      rw [if_neg (by simp)]
      dsimp only
      simp only [List.length_cons]
      omega

theorem bar_not_in_fullOrder : '|' ∉ fullOrder := by decide

theorem SettledPlus_toOk {u : Unique}
    {settled : List (Char × Bool × BDict)} (h : SettledPlus u settled) :
    SettledOk u settled := by
  intro e he
  refine ⟨?_, (h.1 e he).2.2.1⟩
  intro hcc
  exact bar_not_in_fullOrder (hcc ▸ (h.1 e he).1)

theorem SpinePlus_toOk {u : Unique} : ∀ {sp : Spine}, SpinePlus u sp →
    SpineOk u sp := by
  intro sp
  induction sp with
  | tip settled =>
    intro h
    exact SettledPlus_toOk h.1
  | grow settled c f sub ih =>
    intro h
    refine ⟨SettledPlus_toOk h.1, ?_, ih h.2.2.2.2⟩
    intro hcc
    exact bar_not_in_fullOrder (hcc ▸ h.2.1)

theorem DictPlus_mono {u : Unique} (ext : Unique) {d : BDict}
    (h : DictPlus u d) : DictPlus (u ++ ext) d :=
  ⟨DictOk_mono ext h.1, h.2.1, h.2.2⟩

theorem SettledPlus_mono {u : Unique} (ext : Unique)
    {settled : List (Char × Bool × BDict)} (h : SettledPlus u settled) :
    SettledPlus (u ++ ext) settled :=
  ⟨fun e he => ⟨(h.1 e he).1, (h.1 e he).2.1,
    DictPlus_mono ext (h.1 e he).2.2⟩, h.2⟩

theorem NodeSem_cons {g : Graph} {e : Str × Option Nat} {d : BDict}
    {x : Bool} {w : Str} :
    NodeSem g ⟨x, e :: d⟩ w ↔
      (EdgeSem g e.1 e.2 w ∨ NodeSem g ⟨x, d⟩ w) := by
  rw [NodeSem_iff, NodeSem_iff]
  constructor
  · rintro ⟨e2, he2, hsem⟩
    rcases List.mem_cons.mp he2 with rfl | htail
    · exact Or.inl hsem
    · exact Or.inr ⟨e2, htail, hsem⟩
  · rintro (hsem | ⟨e2, he2, hsem⟩)
    · exact ⟨e, List.mem_cons_self _ _, hsem⟩
    · exact ⟨e2, List.mem_cons_of_mem _ he2, hsem⟩

/-- `_collapse` (entry fold) preserves the language of the settled
entries it processes. -/
theorem collapseEntries_lang :
    ∀ (entries : List (Char × Bool × BDict)) (u : Unique),
    (∀ e ∈ entries, e.1 ≠ '|' ∧ (e.2.2 = [] → e.2.1 = true) ∧
      DictOk u e.2.2) →
    UniqueOk u → ∀ w,
    (NodeSem (bGraph (collapseEntries u entries).2.2)
        ⟨false, (collapseEntries u entries).1 ++
          (collapseEntries u entries).2.1⟩ w ↔
      settledSem u entries w) := by
  intro entries
  induction entries with
  | nil =>
    intro u hset hu w
    constructor
    · intro h
      exact absurd h NodeSem_empty
    · intro h
      exact absurd h settledSem_nil
  | cons ent rest ih =>
    obtain ⟨c, fin, di⟩ := ent
    intro u hset hu w
    have hc : c ≠ '|' := (hset (c, fin, di) (List.mem_cons_self _ _)).1
    have hfin0 : di = [] → fin = true :=
      (hset (c, fin, di) (List.mem_cons_self _ _)).2.1
    have hdi : DictOk u di := (hset (c, fin, di) (List.mem_cons_self _ _)).2.2
    have hinv1 := collapseBranch_inv u c fin di hc hdi hu
    have hlang1 := collapseBranch_lang u c fin di hdi hu hfin0
    rcases hcb : collapseBranch u c fin di with ⟨entry1, mv1, u1⟩
    rw [hcb] at hinv1 hlang1
    dsimp only at hinv1 hlang1
    obtain ⟨⟨ext1, hext1⟩, hu1, hgood1, hch1⟩ := hinv1
    have hrest : ∀ e ∈ rest, e.1 ≠ '|' ∧ (e.2.2 = [] → e.2.1 = true) ∧
        DictOk u1 e.2.2 := by
      intro e he
      refine ⟨(hset e (List.mem_cons_of_mem _ he)).1,
        (hset e (List.mem_cons_of_mem _ he)).2.1, ?_⟩
      rw [hext1]
      exact DictOk_mono ext1 (hset e (List.mem_cons_of_mem _ he)).2.2
    have hrestOk : ∀ e ∈ rest, e.1 ≠ '|' ∧ DictOk u1 e.2.2 :=
      fun e he => ⟨(hrest e he).1, (hrest e he).2.2⟩
    have hinv2 := collapseEntries_inv rest u1 hrestOk hu1
    have hih := ih u1 hrest hu1
    rcases hce : collapseEntries u1 rest with ⟨front2, back2, u2⟩
    rw [hce] at hinv2 hih
    dsimp only at hinv2 hih
    obtain ⟨⟨ext2, hext2⟩, hu2, hdict2⟩ := hinv2
    have hstep : collapseEntries u ((c, fin, di) :: rest) =
        (if mv1 then (front2, entry1 :: back2, u2)
         else (entry1 :: front2, back2, u2)) := by
      simp only [collapseEntries, hcb, hce]
    rw [hstep]
    have hmain : NodeSem (bGraph u2) ⟨false, entry1 :: (front2 ++ back2)⟩ w ↔
        settledSem u ((c, fin, di) :: rest) w := by
      rw [NodeSem_cons, settledSem_cons]
      have hedge : EdgeSem (bGraph u2) entry1.1 entry1.2 w ↔
          EdgeSem (bGraph u1) entry1.1 entry1.2 w := by
        rw [hext2]
        exact (EdgeSem_ext hu1 hch1).symm
      have hrestSem : settledSem u1 rest w ↔ settledSem u rest w := by
        rw [hext1]
        exact (settledSem_ext ext1 hu
          (fun e he => (hset e (List.mem_cons_of_mem _ he)).2.2)).symm
      rw [hedge, hlang1 w, hih w, hrestSem]
    cases mv1 with
    | true =>
      rw [if_pos rfl]
      dsimp only
      rw [NodeSem_perm List.perm_middle]
      exact hmain
    | false =>
      rw [if_neg (by simp)]
      dsimp only
      exact hmain

/-- `_collapse` preserves the language of a settled dict level. -/
theorem collapseDict_lang (u : Unique)
    (entries : List (Char × Bool × BDict))
    (hset : ∀ e ∈ entries, e.1 ≠ '|' ∧ (e.2.2 = [] → e.2.1 = true) ∧
      DictOk u e.2.2)
    (hu : UniqueOk u) (w : Str) :
    (NodeSem (bGraph (collapseDict u entries).2)
        ⟨false, (collapseDict u entries).1⟩ w ↔
      settledSem u entries w) := by
  have h := collapseEntries_lang entries u hset hu w
  rcases hce : collapseEntries u entries with ⟨front, back, u2⟩
  rw [hce] at h
  dsimp only at h
  have hcd : collapseDict u entries = (front ++ back, u2) := by
    simp only [collapseDict, hce]
  rw [hcd]
  exact h

theorem collapseDict_length (u : Unique)
    (entries : List (Char × Bool × BDict)) :
    (collapseDict u entries).1.length = entries.length := by
  have h := collapseEntries_length entries u
  rcases hce : collapseEntries u entries with ⟨front, back, u2⟩
  rw [hce] at h
  dsimp only at h
  have hcd : collapseDict u entries = (front ++ back, u2) := by
    simp only [collapseDict, hce]
  rw [hcd]
  dsimp only
  rw [List.length_append]
  exact h

theorem collapseSpine_nil {sp : Spine} {u : Unique} (hsp : SpinePlus u sp)
    (h : (collapseSpine u sp).1 = []) : sp = .tip [] := by
  cases sp with
  | tip settled => rw [hsp.2]
  | grow settled c f sub =>
    exfalso
    rcases hcs : collapseSpine u sub with ⟨dsub, u1⟩
    have hstep : collapseSpine u (.grow settled c f sub) =
        collapseDict u1 (settled ++ [(c, f, dsub)]) := by
      simp only [collapseSpine, hcs]
    rw [hstep] at h
    have hlen := collapseDict_length u1 (settled ++ [(c, f, dsub)])
    rw [h] at hlen
    simp at hlen

theorem SettledPlus_entries {u : Unique}
    {settled : List (Char × Bool × BDict)} (h : SettledPlus u settled) :
    ∀ e ∈ settled, e.1 ≠ '|' ∧ (e.2.2 = [] → e.2.1 = true) ∧
      DictOk u e.2.2 := by
  intro e he
  refine ⟨?_, (h.1 e he).2.1, (h.1 e he).2.2.1⟩
  intro hcc
  exact bar_not_in_fullOrder (hcc ▸ (h.1 e he).1)

/-- Collapsing a whole pending spine preserves its language: the words of
the resulting dict are exactly the words of the spine. -/
theorem collapseSpine_lang :
    ∀ (sp : Spine) (u : Unique), SpinePlus u sp → UniqueOk u → ∀ w,
    (NodeSem (bGraph (collapseSpine u sp).2)
        ⟨false, (collapseSpine u sp).1⟩ w ↔
      spineSem u sp w) := by
  intro sp
  induction sp with
  | tip settled =>
    intro u hsp hu w
    show (NodeSem (bGraph (collapseDict u settled).2)
        ⟨false, (collapseDict u settled).1⟩ w ↔ settledSem u settled w)
    exact collapseDict_lang u settled (SettledPlus_entries hsp.1) hu w
  | grow settled c f sub ih =>
    intro u hsp hu w
    obtain ⟨hsettled, hcf, hord, hfin, hsub⟩ := hsp
    have hinv1 := collapseSpine_inv sub u (SpinePlus_toOk hsub) hu
    have hih := ih u hsub hu
    rcases hcs : collapseSpine u sub with ⟨dsub, u1⟩
    rw [hcs] at hinv1 hih
    dsimp only at hinv1 hih
    obtain ⟨⟨ext1, hext1⟩, hu1, hdict1⟩ := hinv1
    have hstep : collapseSpine u (.grow settled c f sub) =
        collapseDict u1 (settled ++ [(c, f, dsub)]) := by
      simp only [collapseSpine, hcs]
    rw [hstep]
    have hset2 : ∀ e ∈ settled ++ [(c, f, dsub)],
        e.1 ≠ '|' ∧ (e.2.2 = [] → e.2.1 = true) ∧ DictOk u1 e.2.2 := by
      intro e he
      rcases List.mem_append.mp he with hs | hnew
      · refine ⟨(SettledPlus_entries hsettled e hs).1,
          (SettledPlus_entries hsettled e hs).2.1, ?_⟩
        rw [hext1]
        exact DictOk_mono ext1 (SettledPlus_entries hsettled e hs).2.2
      · have he2 := List.mem_singleton.mp hnew
        subst he2
        refine ⟨fun hcc => bar_not_in_fullOrder (hcc ▸ hcf), ?_, hdict1⟩
        intro hd0
        exact hfin (collapseSpine_nil hsub (by rw [hcs]; exact hd0))
    rw [collapseDict_lang u1 (settled ++ [(c, f, dsub)]) hset2 hu1 w]
    rw [settledSem_append]
    have hsing : settledSem u1 [(c, f, dsub)] w ↔
        ∃ w2, w = c :: w2 ∧ (w2 = [] ∧ f = true ∨ spineSem u sub w2) := by
      rw [settledSem_cons]
      constructor
      · rintro (⟨w2, hw, hcase⟩ | habs)
        · refine ⟨w2, hw, ?_⟩
          rcases hcase with h2 | h2
          · exact Or.inl h2
          · exact Or.inr ((hih w2).mp h2)
        · exact absurd habs settledSem_nil
      · rintro ⟨w2, hw, hcase⟩
        refine Or.inl ⟨w2, hw, ?_⟩
        rcases hcase with h2 | h2
        · exact Or.inl h2
        · exact Or.inr ((hih w2).mpr h2)
    rw [hsing]
    have hsetl : settledSem u1 settled w ↔ settledSem u settled w := by
      rw [hext1]
      exact (settledSem_ext ext1 hu
        (fun e he => (SettledPlus_entries hsettled e he).2.2)).symm
    rw [hsetl]
    exact Iff.rfl

/-- `_collapse_to` preserves the language of the pending spine. -/
theorem collapseTo_lang :
    ∀ (sp : Spine) (i : Nat) (u : Unique), SpinePlus u sp → UniqueOk u →
    ∀ w,
    (spineSem (collapseTo u sp i).2 (collapseTo u sp i).1 w ↔
      spineSem u sp w) := by
  intro sp
  induction sp with
  | tip settled =>
    intro i u hsp hu w
    rfl
  | grow settled c f sub ih =>
    intro i u hsp hu w
    obtain ⟨hsettled, hcf, hord, hfin, hsub⟩ := hsp
    cases i with
    | zero =>
      have hinv1 := collapseSpine_inv sub u (SpinePlus_toOk hsub) hu
      have hsl := collapseSpine_lang sub u hsub hu
      rcases hcs : collapseSpine u sub with ⟨dsub, u1⟩
      rw [hcs] at hinv1 hsl
      dsimp only at hinv1 hsl
      obtain ⟨⟨ext1, hext1⟩, hu1, hdict1⟩ := hinv1
      have hstep : collapseTo u (.grow settled c f sub) 0 =
          (.tip (settled ++ [(c, f, dsub)]), u1) := by
        simp only [collapseTo, hcs]
      rw [hstep]
      show settledSem u1 (settled ++ [(c, f, dsub)]) w ↔ _
      rw [settledSem_append]
      have hsing : settledSem u1 [(c, f, dsub)] w ↔
          ∃ w2, w = c :: w2 ∧ (w2 = [] ∧ f = true ∨ spineSem u sub w2) := by
        rw [settledSem_cons]
        constructor
        · rintro (⟨w2, hw, hcase⟩ | habs)
          · refine ⟨w2, hw, ?_⟩
            rcases hcase with h2 | h2
            · exact Or.inl h2
            · exact Or.inr ((hsl w2).mp h2)
          · exact absurd habs settledSem_nil
        · rintro ⟨w2, hw, hcase⟩
          refine Or.inl ⟨w2, hw, ?_⟩
          rcases hcase with h2 | h2
          · exact Or.inl h2
          · exact Or.inr ((hsl w2).mpr h2)
      rw [hsing]
      have hsetl : settledSem u1 settled w ↔ settledSem u settled w := by
        rw [hext1]
        exact (settledSem_ext ext1 hu
          (fun e he => (SettledPlus_entries hsettled e he).2.2)).symm
      rw [hsetl]
      exact Iff.rfl
    | succ i2 =>
      have hinv1 := collapseTo_inv sub i2 u (SpinePlus_toOk hsub) hu
      have hih := ih i2 u hsub hu
      rcases hct : collapseTo u sub i2 with ⟨sub2, u1⟩
      rw [hct] at hinv1 hih
      dsimp only at hinv1 hih
      obtain ⟨⟨ext1, hext1⟩, hu1, hsp1⟩ := hinv1
      have hstep : collapseTo u (.grow settled c f sub) (i2 + 1) =
          (.grow settled c f sub2, u1) := by
        simp only [collapseTo, hct]
      rw [hstep]
      show settledSem u1 settled w ∨ _ ↔ settledSem u settled w ∨ _
      have hsetl : settledSem u1 settled w ↔ settledSem u settled w := by
        rw [hext1]
        exact (settledSem_ext ext1 hu
          (fun e he => (SettledPlus_entries hsettled e he).2.2)).symm
      rw [hsetl]
      constructor
      · rintro (h | ⟨w2, hw, hcase⟩)
        · exact Or.inl h
        · refine Or.inr ⟨w2, hw, ?_⟩
          rcases hcase with h2 | h2
          · exact Or.inl h2
          · exact Or.inr ((hih w2).mp h2)
      · rintro (h | ⟨w2, hw, hcase⟩)
        · exact Or.inl h
        · refine Or.inr ⟨w2, hw, ?_⟩
          rcases hcase with h2 | h2
          · exact Or.inl h2
          · exact Or.inr ((hih w2).mpr h2)

theorem UniquePlus_push {u : Unique} (hp : UniquePlus u) (x : Option DNode)
    (hx : ∀ nd, x = some nd → DictPlus u nd.edges) :
    UniquePlus (u ++ [x]) := by
  intro k nd hk
  by_cases hlt : k < u.length
  · rw [List.getD_append _ _ _ _ hlt] at hk
    exact DictPlus_mono [x] (hp k nd hk)
  · by_cases hk2 : k = u.length
    · subst hk2
      rw [getD_append_self] at hk
      exact DictPlus_mono [x] (hx nd hk)
    · rw [List.getD_eq_default _ _ (by simp; omega)] at hk
      cases hk

theorem DictPlus_sortEdges {u : Unique} {d : BDict} (h : DictPlus u d) :
    DictPlus u (sortEdges d) := by
  refine ⟨DictOk_sortEdges h.1, ?_, ?_⟩
  · exact (((stableSort_perm pfxLt d).map
      (fun e => e.1.headD ' ')).nodup_iff).mpr h.2.1
  · intro e he
    exact h.2.2 e ((stableSort_perm pfxLt d).mem_iff.mp he)

/-- `_collapse_branch` keeps the strengthened invariants: the registered
signatures stay well formed, the produced entry keeps its letter as the
prefix head, and all prefix characters are alphabet letters or bars. -/
theorem collapseBranch_plus (u : Unique) (c : Char) (fin : Bool)
    (di : BDict) (hcf : c ∈ fullOrder) (hdi : DictPlus u di)
    (hup : UniquePlus u) :
    UniquePlus (collapseBranch u c fin di).2.2 ∧
    (collapseBranch u c fin di).1.1.headD ' ' = c ∧
    (∀ ch ∈ (collapseBranch u c fin di).1.1, ch ∈ fullOrder ∨ ch = '|') :=
  by
  cases di with
  | nil =>
    have hcb : collapseBranch u c fin [] = ((([c] : Str), none), false, u) :=
      rfl
    rw [hcb]
    refine ⟨hup, rfl, ?_⟩
    intro ch hch
    have h2 := List.mem_singleton.mp hch
    subst h2
    exact Or.inl hcf
  | cons e di2 =>
    obtain ⟨tail0, lastd⟩ := e
    have htail0 : ∀ ch ∈ tail0, ch ∈ fullOrder ∨ ch = '|' :=
      hdi.2.2 (tail0, lastd) (List.mem_cons_self _ _)
    cases di2 with
    | nil =>
      have hchars : ∀ ch ∈ ([c] : Str) ++
          (if fin then '|' :: tail0 else tail0),
          ch ∈ fullOrder ∨ ch = '|' := by
        intro ch hch
        rcases List.mem_append.mp hch with h1 | h2
        · have h3 := List.mem_singleton.mp h1
          subst h3
          exact Or.inl hcf
        · cases fin with
          | true =>
            rcases List.mem_cons.mp h2 with rfl | h3
            · exact Or.inr rfl
            · exact htail0 ch h3
          | false => exact htail0 ch h2
      have hhead : ((([c] : Str) ++
          (if fin then '|' :: tail0 else tail0)).headD ' ') = c := by
        cases fin <;> rfl
      cases lastd with
      | none =>
        have hcb : collapseBranch u c fin [(tail0, none)] =
            ((([c] : Str) ++ (if fin then '|' :: tail0 else tail0), none),
              true, if u.contains none then u else u ++ [none]) := rfl
        rw [hcb]
        refine ⟨?_, hhead, hchars⟩
        by_cases hcont : u.contains none = true
        · rw [if_pos hcont]
          exact hup
        · rw [if_neg hcont]
          exact UniquePlus_push hup none (fun nd hnd => by cases hnd)
      | some k0 =>
        have hcb : collapseBranch u c fin [(tail0, some k0)] =
            ((([c] : Str) ++ (if fin then '|' :: tail0 else tail0),
              some k0), true, u) := rfl
        rw [hcb]
        exact ⟨hup, hhead, hchars⟩
    | cons e2 rest2 =>
      have hcb : collapseBranch u c fin ((tail0, lastd) :: e2 :: rest2) =
          (match findSig u ⟨fin, sortEdges ((tail0, lastd) :: e2 :: rest2)⟩
            with
          | some k => ((([c] : Str), some k), false, u)
          | none => ((([c] : Str), some u.length), false,
              u ++ [some ⟨fin, sortEdges ((tail0, lastd) :: e2 :: rest2)⟩])) :=
        rfl
      have hsingle : ∀ ch ∈ ([c] : Str), ch ∈ fullOrder ∨ ch = '|' := by
        intro ch hch
        have h2 := List.mem_singleton.mp hch
        subst h2
        exact Or.inl hcf
      cases hfs : findSig u ⟨fin, sortEdges ((tail0, lastd) :: e2 :: rest2)⟩
        with
      | some k1 =>
        rw [hcb, hfs]
        exact ⟨hup, rfl, hsingle⟩
      | none =>
        rw [hcb, hfs]
        refine ⟨?_, rfl, hsingle⟩
        refine UniquePlus_push hup _ (fun nd hnd => ?_)
        cases hnd
        exact DictPlus_sortEdges hdi

/-- `_collapse` keeps the strengthened invariants; the heads of the
resulting dict are a permutation of the entry letters. -/
theorem collapseEntries_plus :
    ∀ (entries : List (Char × Bool × BDict)) (u : Unique),
    (∀ e ∈ entries, e.1 ∈ fullOrder ∧ (e.2.2 = [] → e.2.1 = true) ∧
      DictPlus u e.2.2) →
    UniqueOk u → UniquePlus u →
    UniquePlus (collapseEntries u entries).2.2 ∧
    List.Perm
      (((collapseEntries u entries).1 ++
        (collapseEntries u entries).2.1).map (fun e => e.1.headD ' '))
      (entries.map (fun e => e.1)) ∧
    (∀ e ∈ (collapseEntries u entries).1 ++ (collapseEntries u entries).2.1,
      ∀ ch ∈ e.1, ch ∈ fullOrder ∨ ch = '|') := by
  intro entries
  induction entries with
  | nil =>
    intro u hset hu hup
    refine ⟨hup, List.Perm.refl _, ?_⟩
    intro e he
    simp [collapseEntries] at he
  | cons ent rest ih =>
    obtain ⟨c, fin, di⟩ := ent
    intro u hset hu hup
    have hcf : c ∈ fullOrder := (hset (c, fin, di) (List.mem_cons_self _ _)).1
    have hc : c ≠ '|' := fun hcc => bar_not_in_fullOrder (hcc ▸ hcf)
    have hdi : DictPlus u di :=
      (hset (c, fin, di) (List.mem_cons_self _ _)).2.2
    have hinv1 := collapseBranch_inv u c fin di hc hdi.1 hu
    have hplus1 := collapseBranch_plus u c fin di hcf hdi hup
    rcases hcb : collapseBranch u c fin di with ⟨entry1, mv1, u1⟩
    rw [hcb] at hinv1 hplus1
    dsimp only at hinv1 hplus1
    obtain ⟨⟨ext1, hext1⟩, hu1, hgood1, hch1⟩ := hinv1
    obtain ⟨hup1, hhead1, hchars1⟩ := hplus1
    have hrest : ∀ e ∈ rest, e.1 ∈ fullOrder ∧ (e.2.2 = [] → e.2.1 = true) ∧
        DictPlus u1 e.2.2 := by
      intro e he
      refine ⟨(hset e (List.mem_cons_of_mem _ he)).1,
        (hset e (List.mem_cons_of_mem _ he)).2.1, ?_⟩
      rw [hext1]
      exact DictPlus_mono ext1 (hset e (List.mem_cons_of_mem _ he)).2.2
    have hih := ih u1 hrest hu1 hup1
    rcases hce : collapseEntries u1 rest with ⟨front2, back2, u2⟩
    rw [hce] at hih
    dsimp only at hih
    obtain ⟨hup2, hperm2, hchars2⟩ := hih
    have hstep : collapseEntries u ((c, fin, di) :: rest) =
        (if mv1 then (front2, entry1 :: back2, u2)
         else (entry1 :: front2, back2, u2)) := by
      simp only [collapseEntries, hcb, hce]
    rw [hstep]
    have hmainperm : List.Perm
        ((entry1 :: (front2 ++ back2)).map (fun e => e.1.headD ' '))
        (((c, fin, di) :: rest).map (fun e => e.1)) := by
      simp only [List.map_cons]
      rw [hhead1]
      exact hperm2.cons c
    have hmainchars : ∀ e ∈ entry1 :: (front2 ++ back2),
        ∀ ch ∈ e.1, ch ∈ fullOrder ∨ ch = '|' := by
      intro e he
      rcases List.mem_cons.mp he with rfl | h2
      · exact hchars1
      · exact hchars2 e h2
    cases mv1 with
    | true =>
      rw [if_pos rfl]
      dsimp only
      refine ⟨hup2, ?_, ?_⟩
      · refine List.Perm.trans ?_ hmainperm
        exact (List.perm_middle.map (fun (e : Str × Option Nat) => e.1.headD ' '))
      · intro e he
        exact hmainchars e (List.perm_middle.mem_iff.mp he)
    | false =>
      rw [if_neg (by simp)]
      dsimp only
      exact ⟨hup2, hmainperm, hmainchars⟩

theorem rank_lt_ne {a b : Char} (h : charRank a < charRank b) : a ≠ b := by
  intro h2
  subst h2
  omega

/-- `_collapse` on a `SettledPlus` level yields a `DictPlus` dict. -/
theorem collapseDict_plus (u : Unique)
    (entries : List (Char × Bool × BDict)) (hset : SettledPlus u entries)
    (hu : UniqueOk u) (hup : UniquePlus u) :
    UniquePlus (collapseDict u entries).2 ∧
    DictPlus (collapseDict u entries).2 (collapseDict u entries).1 := by
  have hinv := collapseDict_inv u entries
    (fun e he => ⟨(SettledPlus_entries hset e he).1,
      (SettledPlus_entries hset e he).2.2⟩) hu
  have hplus := collapseEntries_plus entries u hset.1 hu hup
  rcases hce : collapseEntries u entries with ⟨front, back, u2⟩
  rw [hce] at hplus
  dsimp only at hplus
  obtain ⟨hup2, hperm, hchars⟩ := hplus
  have hcd : collapseDict u entries = (front ++ back, u2) := by
    simp only [collapseDict, hce]
  rw [hcd] at hinv ⊢
  dsimp only at hinv ⊢
  obtain ⟨_, _, hdictok⟩ := hinv
  refine ⟨hup2, hdictok, ?_, hchars⟩
  rw [hperm.nodup_iff]
  have hpw : (entries.map (fun e => e.1)).Pairwise (· ≠ ·) := by
    have h2 : ((entries.map (fun e => e.1)).map charRank).Pairwise
        (· < ·) := by
      rw [List.map_map]
      exact hset.2
    have h3 := (List.pairwise_map.mp h2).imp (fun {a b} h => rank_lt_ne h)
    exact h3
  exact hpw

/-- Collapsing a `SpinePlus` spine keeps the strengthened invariants and
produces a `DictPlus` dict. -/
theorem collapseSpine_plus :
    ∀ (sp : Spine) (u : Unique), SpinePlus u sp → UniqueOk u →
    UniquePlus u →
    UniquePlus (collapseSpine u sp).2 ∧
    DictPlus (collapseSpine u sp).2 (collapseSpine u sp).1 := by
  intro sp
  induction sp with
  | tip settled =>
    intro u hsp hu hup
    exact collapseDict_plus u settled hsp.1 hu hup
  | grow settled c f sub ih =>
    intro u hsp hu hup
    obtain ⟨hsettled, hcf, hord, hfin, hsub⟩ := hsp
    have hinv1 := collapseSpine_inv sub u (SpinePlus_toOk hsub) hu
    have hih := ih u hsub hu hup
    rcases hcs : collapseSpine u sub with ⟨dsub, u1⟩
    rw [hcs] at hinv1 hih
    dsimp only at hinv1 hih
    obtain ⟨⟨ext1, hext1⟩, hu1, hdict1⟩ := hinv1
    obtain ⟨hup1, hdp1⟩ := hih
    have hstep : collapseSpine u (.grow settled c f sub) =
        collapseDict u1 (settled ++ [(c, f, dsub)]) := by
      simp only [collapseSpine, hcs]
    rw [hstep]
    have hset2 : SettledPlus u1 (settled ++ [(c, f, dsub)]) := by
      constructor
      · intro e he
        rcases List.mem_append.mp he with hs | hnew
        · refine ⟨(hsettled.1 e hs).1, (hsettled.1 e hs).2.1, ?_⟩
          rw [hext1]
          exact DictPlus_mono ext1 (hsettled.1 e hs).2.2
        · have he2 := List.mem_singleton.mp hnew
          subst he2
          refine ⟨hcf, ?_, hdp1⟩
          intro hd0
          exact hfin (collapseSpine_nil hsub (by rw [hcs]; exact hd0))
      · rw [List.map_append]
        rw [List.pairwise_append]
        refine ⟨hsettled.2, List.pairwise_singleton _ _, ?_⟩
        intro a ha b hb
        simp only [List.map_cons, List.map_nil, List.mem_singleton] at hb
        subst hb
        simp only [List.mem_map] at ha
        obtain ⟨e, he, rfl⟩ := ha
        exact hord e he
    exact collapseDict_plus u1 (settled ++ [(c, f, dsub)]) hset2 hu1 hup1

theorem SettledPlus_nil {u : Unique} : SettledPlus u [] :=
  ⟨fun e he => absurd he (List.not_mem_nil e), List.Pairwise.nil⟩

theorem chainOf_tip : ∀ s : Str, chainOf s = .tip [] ↔ s = [] := by
  intro s
  cases s with
  | nil => simp [chainOf]
  | cons c s2 =>
    constructor
    · intro h
      cases h
    · intro h
      cases h

theorem chainOf_word : ∀ s : Str, spineWord (chainOf s) = s := by
  intro s
  induction s with
  | nil => rfl
  | cons c s2 ih =>
    show c :: spineWord (chainOf s2) = c :: s2
    rw [ih]

theorem chainOf_plus {u : Unique} :
    ∀ s : Str, (∀ ch ∈ s, ch ∈ fullOrder) → SpinePlus u (chainOf s) := by
  intro s
  induction s with
  | nil =>
    intro _
    exact ⟨SettledPlus_nil, rfl⟩
  | cons c s2 ih =>
    intro hch
    refine ⟨SettledPlus_nil, hch c (List.mem_cons_self _ _),
      fun e he => absurd he (List.not_mem_nil e), ?_, ?_⟩
    · intro htip
      rw [(chainOf_tip s2).mp htip]
      rfl
    · exact ih (fun ch h2 => hch ch (List.mem_cons_of_mem _ h2))

theorem chainOf_sem {u : Unique} :
    ∀ s : Str, s ≠ [] → ∀ w, (spineSem u (chainOf s) w ↔ w = s) := by
  intro s
  induction s with
  | nil => intro h; exact absurd rfl h
  | cons c s2 ih =>
    intro _ w
    show settledSem u [] w ∨
      (∃ w2, w = c :: w2 ∧ (w2 = [] ∧ decide (s2 = []) = true ∨
        spineSem u (chainOf s2) w2)) ↔ w = c :: s2
    cases s2 with
    | nil =>
      constructor
      · rintro (habs | ⟨w2, rfl, hcase⟩)
        · exact absurd habs settledSem_nil
        · rcases hcase with ⟨rfl, _⟩ | habs
          · rfl
          · exact absurd habs settledSem_nil
      · intro h
        subst h
        exact Or.inr ⟨[], rfl, Or.inl ⟨rfl, by decide⟩⟩
    | cons d s3 =>
      constructor
      · rintro (habs | ⟨w2, rfl, hcase⟩)
        · exact absurd habs settledSem_nil
        · rcases hcase with ⟨rfl, hd⟩ | hrec
          · exact absurd (of_decide_eq_true hd) (List.cons_ne_nil d s3)
          · rw [(ih (by simp) w2).mp hrec]
      · intro h
        subst h
        exact Or.inr ⟨d :: s3, rfl, Or.inr ((ih (by simp) _).mpr rfl)⟩

theorem filter_ne_of_ranks {c2 : Char} {l : List (Char × Bool × BDict)}
    (h : ∀ e ∈ l, charRank e.1 < charRank c2) :
    l.filter (fun e => e.1 != c2) = l := by
  induction l with
  | nil => rfl
  | cons e rest ih =>
    rw [List.filter_cons]
    rw [if_pos (by
      simp only [bne_iff_ne, ne_eq, decide_eq_true_eq]
      exact rank_lt_ne (h e (List.mem_cons_self _ _)))]
    rw [ih (fun e2 he2 => h e2 (List.mem_cons_of_mem _ he2))]

theorem chainOf_grow_sem {u : Unique} {c : Char} {s : Str} {w : Str} :
    (∃ w2, w = c :: w2 ∧ (w2 = [] ∧ decide (s = []) = true ∨
      spineSem u (chainOf s) w2)) ↔ w = c :: s := by
  cases s with
  | nil =>
    constructor
    · rintro ⟨w2, rfl, hcase⟩
      rcases hcase with ⟨rfl, _⟩ | habs
      · rfl
      · exact absurd habs settledSem_nil
    · intro h
      subst h
      exact ⟨[], rfl, Or.inl ⟨rfl, by decide⟩⟩
  | cons d s2 =>
    constructor
    · rintro ⟨w2, rfl, hcase⟩
      rcases hcase with ⟨rfl, hd⟩ | hrec
      · exact absurd (of_decide_eq_true hd) (List.cons_ne_nil d s2)
      · rw [(chainOf_sem (d :: s2) (List.cons_ne_nil _ _) w2).mp hrec]
    · intro h
      subst h
      exact ⟨d :: s2, rfl,
        Or.inr ((chainOf_sem (d :: s2) (List.cons_ne_nil _ _) _).mpr rfl)⟩

/-- `_collapse_to(i)` followed by attaching the diverging rest of the new
word: the invariants are maintained, the pending word becomes the first
`i` letters of the old pending word followed by the rest, and the language
gains exactly that word. -/
theorem collapseTo_attach :
    ∀ (sp : Spine) (i : Nat) (u : Unique) (rest : Str),
    SpinePlus u sp → UniqueOk u → UniquePlus u →
    (i < (spineWord sp).length → rest ≠ [] ∧
      charRank ((spineWord sp).getD i ' ') < charRank (rest.headD ' ')) →
    (∀ ch ∈ rest, ch ∈ fullOrder) →
    SpinePlus (collapseTo u sp i).2
      (attachChain (collapseTo u sp i).1 rest) ∧
    UniqueOk (collapseTo u sp i).2 ∧ UniquePlus (collapseTo u sp i).2 ∧
    (∃ ext, (collapseTo u sp i).2 = u ++ ext) ∧
    spineWord (attachChain (collapseTo u sp i).1 rest) =
      (spineWord sp).take i ++ rest ∧
    (attachChain (collapseTo u sp i).1 rest = .tip [] →
      sp = .tip [] ∧ rest = []) ∧
    (∀ w, spineSem (collapseTo u sp i).2
        (attachChain (collapseTo u sp i).1 rest) w ↔
      (spineSem u sp w ∨
        (rest ≠ [] ∧ w = (spineWord sp).take i ++ rest))) := by
  intro sp
  induction sp with
  | tip settled =>
    intro i u rest hsp hu hup hdiv hchars
    obtain ⟨hsettled, hnil⟩ := hsp
    subst hnil
    have hstep : collapseTo u (Spine.tip []) i = (.tip [], u) := rfl
    rw [hstep]
    dsimp only
    cases rest with
    | nil =>
      have hat : attachChain (.tip ([] : List (Char × Bool × BDict))) [] =
          .tip [] := rfl
      rw [hat]
      refine ⟨⟨SettledPlus_nil, rfl⟩, hu, hup, ⟨[], by simp⟩,
        by simp [spineWord], ?_, ?_⟩
      · intro _
        exact ⟨rfl, rfl⟩
      · intro w
        constructor
        · intro h
          exact Or.inl h
        · rintro (h | ⟨hne, _⟩)
          · exact h
          · exact absurd rfl hne
    | cons c2 rest2 =>
      have hat : attachChain (.tip ([] : List (Char × Bool × BDict)))
          (c2 :: rest2) =
          .grow [] c2 (decide (rest2 = [])) (chainOf rest2) := rfl
      rw [hat]
      refine ⟨?_, hu, hup, ⟨[], by simp⟩, ?_, ?_, ?_⟩
      · refine ⟨SettledPlus_nil, hchars c2 (List.mem_cons_self _ _),
          fun e he => absurd he (List.not_mem_nil e), ?_, ?_⟩
        · intro htip
          rw [(chainOf_tip rest2).mp htip]
          rfl
        · exact chainOf_plus rest2
            (fun ch h2 => hchars ch (List.mem_cons_of_mem _ h2))
      · show c2 :: spineWord (chainOf rest2) = _
        rw [chainOf_word]
        simp [spineWord]
      · intro h
        exact Spine.noConfusion h
      · intro w
        show settledSem u [] w ∨ _ ↔ settledSem u [] w ∨ _
        constructor
        · rintro (habs | h)
          · exact absurd habs settledSem_nil
          · refine Or.inr ⟨List.cons_ne_nil _ _, ?_⟩
            rw [chainOf_grow_sem.mp h]
            simp [spineWord]
        · rintro (habs | ⟨_, hw⟩)
          · exact absurd habs settledSem_nil
          · refine Or.inr (chainOf_grow_sem.mpr ?_)
            rw [hw]
            simp [spineWord]
  | grow settled c f sub ih =>
    intro i u rest hsp hu hup hdiv hchars
    obtain ⟨hsettled, hcf, hord, hfin, hsub⟩ := hsp
    cases i with
    | zero =>
      obtain ⟨hrne, hrank⟩ := hdiv
        (by show 0 < (c :: spineWord sub).length; simp)
      cases rest with
      | nil => exact absurd rfl hrne
      | cons c2 rest2 =>
        have hrank2 : charRank c < charRank c2 := hrank
        have hinv1 := collapseSpine_inv sub u (SpinePlus_toOk hsub) hu
        have hplus1 := collapseSpine_plus sub u hsub hu hup
        have hlang := collapseTo_lang (.grow settled c f sub) 0 u
          ⟨hsettled, hcf, hord, hfin, hsub⟩ hu
        rcases hcs : collapseSpine u sub with ⟨dsub, u1⟩
        rw [hcs] at hinv1 hplus1
        dsimp only at hinv1 hplus1
        obtain ⟨⟨ext1, hext1⟩, hu1, hdict1⟩ := hinv1
        obtain ⟨hup1, hdp1⟩ := hplus1
        have hstep : collapseTo u (.grow settled c f sub) 0 =
            (.tip (settled ++ [(c, f, dsub)]), u1) := by
          simp only [collapseTo, hcs]
        rw [hstep] at hlang ⊢
        dsimp only at hlang ⊢
        have hranks : ∀ e ∈ settled ++ [(c, f, dsub)],
            charRank e.1 < charRank c2 := by
          intro e he
          rcases List.mem_append.mp he with hs | hnew
          · exact Nat.lt_trans (hord e hs) hrank2
          · have he2 := List.mem_singleton.mp hnew
            subst he2
            exact hrank2
        have hset2 : SettledPlus u1 (settled ++ [(c, f, dsub)]) := by
          constructor
          · intro e he
            rcases List.mem_append.mp he with hs | hnew
            · refine ⟨(hsettled.1 e hs).1, (hsettled.1 e hs).2.1, ?_⟩
              rw [hext1]
              exact DictPlus_mono ext1 (hsettled.1 e hs).2.2
            · have he2 := List.mem_singleton.mp hnew
              subst he2
              refine ⟨hcf, ?_, hdp1⟩
              intro hd0
              exact hfin (collapseSpine_nil hsub (by rw [hcs]; exact hd0))
          · rw [List.map_append, List.pairwise_append]
            refine ⟨hsettled.2, List.pairwise_singleton _ _, ?_⟩
            intro a ha b hb
            simp only [List.map_cons, List.map_nil,
              List.mem_singleton] at hb
            subst hb
            simp only [List.mem_map] at ha
            obtain ⟨e, he, rfl⟩ := ha
            exact hord e he
        have hat : attachChain (.tip (settled ++ [(c, f, dsub)]))
            (c2 :: rest2) =
            .grow (settled ++ [(c, f, dsub)]) c2 (decide (rest2 = []))
              (chainOf rest2) := by
          show Spine.grow ((settled ++ [(c, f, dsub)]).filter
              (fun e => e.1 != c2)) c2 (decide (rest2 = []))
              (chainOf rest2) = _
          rw [filter_ne_of_ranks hranks]
        rw [hat]
        refine ⟨?_, hu1, hup1, ⟨ext1, hext1⟩, ?_, ?_, ?_⟩
        · refine ⟨hset2, hchars c2 (List.mem_cons_self _ _), hranks, ?_, ?_⟩
          · intro htip
            rw [(chainOf_tip rest2).mp htip]
            rfl
          · exact chainOf_plus rest2
              (fun ch h2 => hchars ch (List.mem_cons_of_mem _ h2))
        · show c2 :: spineWord (chainOf rest2) = _
          rw [chainOf_word]
          rfl
        · intro h
          exact Spine.noConfusion h
        · intro w
          show settledSem u1 (settled ++ [(c, f, dsub)]) w ∨ _ ↔ _
          constructor
          · rintro (hs | h)
            · exact Or.inl ((hlang w).mp hs)
            · exact Or.inr ⟨List.cons_ne_nil _ _, chainOf_grow_sem.mp h⟩
          · rintro (hs | ⟨_, hw⟩)
            · exact Or.inl ((hlang w).mpr hs)
            · exact Or.inr (chainOf_grow_sem.mpr hw)
    | succ i2 =>
      have hdiv2 : i2 < (spineWord sub).length → rest ≠ [] ∧
          charRank ((spineWord sub).getD i2 ' ') <
            charRank (rest.headD ' ') := by
        intro h
        exact hdiv (by show i2 + 1 < (spineWord sub).length + 1; omega)
      have hih := ih i2 u rest hsub hu hup hdiv2 hchars
      rcases hct : collapseTo u sub i2 with ⟨sub2, u1⟩
      rw [hct] at hih
      dsimp only at hih
      obtain ⟨hSP2, hu1, hup1, ⟨ext1, hext1⟩, hword2, htip2, hsem2⟩ := hih
      have hstep : collapseTo u (.grow settled c f sub) (i2 + 1) =
          (.grow settled c f sub2, u1) := by
        simp only [collapseTo, hct]
      rw [hstep]
      dsimp only
      have hat : attachChain (.grow settled c f sub2) rest =
          .grow settled c f (attachChain sub2 rest) := rfl
      rw [hat]
      have hsetl : ∀ w, (settledSem u1 settled w ↔ settledSem u settled w) :=
        by
        intro w
        rw [hext1]
        exact (settledSem_ext ext1 hu
          (fun e he => (SettledPlus_entries hsettled e he).2.2)).symm
      refine ⟨?_, hu1, hup1, ⟨ext1, hext1⟩, ?_, ?_, ?_⟩
      · refine ⟨?_, hcf, hord, ?_, hSP2⟩
        · rw [hext1]
          exact SettledPlus_mono ext1 hsettled
        · intro h
          exact hfin (htip2 h).1
      · show c :: spineWord (attachChain sub2 rest) = _
        rw [hword2]
        rfl
      · intro h
        exact Spine.noConfusion h
      · intro w
        show settledSem u1 settled w ∨ _ ↔ _
        constructor
        · rintro (hs | ⟨w2, rfl, hcase⟩)
          · exact Or.inl (Or.inl ((hsetl w).mp hs))
          · rcases hcase with ⟨rfl, hf⟩ | hrec
            · exact Or.inl (Or.inr ⟨[], rfl, Or.inl ⟨rfl, hf⟩⟩)
            · rcases (hsem2 w2).mp hrec with hold | ⟨hrne, rfl⟩
              · exact Or.inl (Or.inr ⟨w2, rfl, Or.inr hold⟩)
              · exact Or.inr ⟨hrne, rfl⟩
        · rintro ((hs | ⟨w2, rfl, hcase⟩) | ⟨hrne, rfl⟩)
          · exact Or.inl ((hsetl w).mpr hs)
          · rcases hcase with ⟨rfl, hf⟩ | hrec
            · exact Or.inr ⟨[], rfl, Or.inl ⟨rfl, hf⟩⟩
            · exact Or.inr ⟨w2, rfl, Or.inr ((hsem2 w2).mpr (Or.inl hrec))⟩
          · exact Or.inr ⟨(spineWord sub).take i2 ++ rest, rfl,
              Or.inr ((hsem2 _).mpr (Or.inr ⟨hrne, rfl⟩))⟩

theorem commonPrefixLen_take :
    ∀ (a b : Str), a.take (commonPrefixLen a b) =
      b.take (commonPrefixLen a b) := by
  intro a
  induction a with
  | nil =>
    intro b
    cases b <;> rfl
  | cons x xs ih =>
    intro b
    cases b with
    | nil => rfl
    | cons y ys =>
      by_cases hxy : x = y
      · subst hxy
        rw [commonPrefixLen, if_pos rfl]
        show x :: xs.take (commonPrefixLen xs ys) =
          x :: ys.take (commonPrefixLen xs ys)
        rw [ih ys]
      · rw [commonPrefixLen, if_neg hxy]
        rfl

/-- One `add_word` call on a between-words state: it succeeds, keeps the
invariants, records the word as the new pending word, and adds exactly
that word to the language. -/
theorem addWord_step (st : BState) (wrd : Str)
    (hplus : SpinePlus st.unique st.spine) (hu : UniqueOk st.unique)
    (hup : UniquePlus st.unique)
    (hlast : spineWord st.spine ≠ [] →
      spineSem st.unique st.spine (spineWord st.spine))
    (hword : ∀ ch ∈ spineWord st.spine, ch ∈ fullOrder)
    (hord : wordLe (spineWord st.spine) wrd)
    (hne : wrd ≠ []) (hlen : wrd.length < MAXLEN)
    (hchars : ∀ ch ∈ wrd, ch ∈ fullOrder) :
    ∃ st2, addWord st wrd = .ok st2 ∧
      SpinePlus st2.unique st2.spine ∧ UniqueOk st2.unique ∧
      UniquePlus st2.unique ∧ spineWord st2.spine = wrd ∧
      (spineWord st2.spine ≠ [] →
        spineSem st2.unique st2.spine (spineWord st2.spine)) ∧
      (∀ w, spineSem st2.unique st2.spine w ↔
        (spineSem st.unique st.spine w ∨ w = wrd)) := by
  have hstep : addWord st wrd = .ok
      ⟨attachChain (collapseTo st.unique st.spine
          (commonPrefixLen wrd (spineWord st.spine))).1
        (wrd.drop (commonPrefixLen wrd (spineWord st.spine))),
       (collapseTo st.unique st.spine
          (commonPrefixLen wrd (spineWord st.spine))).2⟩ := by
    unfold addWord
    rw [if_neg (by omega)]
  set lw := spineWord st.spine with hlw
  set i := commonPrefixLen wrd lw with hi
  have hcase : (i < lw.length → wrd.drop i ≠ [] ∧
      charRank (lw.getD i ' ') < charRank ((wrd.drop i).headD ' ')) ∧
      (lw.take i ++ wrd.drop i = wrd) ∧
      (wrd.drop i = [] → wrd = lw) := by
    rcases hord with hlt | heq
    · have hkc := keyLt_common lw wrd hword hchars hlt
      rcases hkc with ⟨h1, h2⟩ | ⟨h1, h2, h3⟩
      · rw [← hi] at h1
        refine ⟨fun hcontra => absurd h1 (by omega), ?_, ?_⟩
        · have htk : lw.take i = wrd.take i :=
            (commonPrefixLen_take wrd lw).symm
          rw [htk, List.take_append_drop]
        · intro hd
          exfalso
          have hge : wrd.length ≤ i := by
            by_contra hlt2
            rw [drop_cons_of_lt (by omega)] at hd
            exact List.cons_ne_nil _ _ hd
          omega
      · rw [← hi] at h1 h2 h3
        refine ⟨fun _ => ?_, ?_, ?_⟩
        · rw [drop_cons_of_lt h2]
          exact ⟨List.cons_ne_nil _ _, h3⟩
        · have htk : lw.take i = wrd.take i :=
            (commonPrefixLen_take wrd lw).symm
          rw [htk, List.take_append_drop]
        · intro hd
          exfalso
          have hge : wrd.length ≤ i := by
            by_contra hlt2
            rw [drop_cons_of_lt (by omega)] at hd
            exact List.cons_ne_nil _ _ hd
          omega
    · have hieq : i = wrd.length := by
        rw [hi, ← heq, commonPrefixLen_self]
      refine ⟨fun hcontra => absurd hcontra (by rw [heq]; omega), ?_,
        fun _ => heq.symm⟩
      rw [hieq, List.drop_length, List.append_nil, heq, List.take_length]
  obtain ⟨hdiv, htkdr, hdup⟩ := hcase
  have hatt := collapseTo_attach st.spine i st.unique (wrd.drop i)
    hplus hu hup hdiv
    (fun ch hch => hchars ch (List.mem_of_mem_drop hch))
  obtain ⟨hplus2, hu2, hup2, ⟨ext, hext⟩, hword2, _, hsem2⟩ := hatt
  refine ⟨⟨attachChain (collapseTo st.unique st.spine i).1 (wrd.drop i),
    (collapseTo st.unique st.spine i).2⟩, hstep, hplus2, hu2, hup2, ?_, ?_,
    ?_⟩
  · show spineWord (attachChain (collapseTo st.unique st.spine i).1
        (wrd.drop i)) = wrd
    rw [hword2]
    exact htkdr
  · intro _
    show spineSem (collapseTo st.unique st.spine i).2
      (attachChain (collapseTo st.unique st.spine i).1 (wrd.drop i))
      (spineWord (attachChain (collapseTo st.unique st.spine i).1
        (wrd.drop i)))
    rw [hword2]
    apply (hsem2 _).mpr
    by_cases hd : wrd.drop i = []
    · left
      rw [htkdr, hdup hd]
      apply hlast
      rw [← hdup hd]
      exact hne
    · right
      exact ⟨hd, rfl⟩
  · intro w
    show spineSem (collapseTo st.unique st.spine i).2
      (attachChain (collapseTo st.unique st.spine i).1 (wrd.drop i)) w ↔ _
    rw [hsem2 w]
    by_cases hd : wrd.drop i = []
    · constructor
      · rintro (h | ⟨hcon, _⟩)
        · exact Or.inl h
        · exact absurd hd hcon
      · rintro (h | rfl)
        · exact Or.inl h
        · refine Or.inl ?_
          rw [hdup hd]
          apply hlast
          rw [← hdup hd]
          exact hne
    · constructor
      · rintro (h | ⟨_, rfl⟩)
        · exact Or.inl h
        · exact Or.inr htkdr
      · rintro (h | rfl)
        · exact Or.inl h
        · exact Or.inr ⟨hd, htkdr.symm⟩

/-- Adding a sorted batch of words: the build succeeds and the language
of the final pending state is the initial language plus the batch. -/
theorem buildAll_lang :
    ∀ (ws : List Str) (st : BState),
    SpinePlus st.unique st.spine → UniqueOk st.unique →
    UniquePlus st.unique →
    (spineWord st.spine ≠ [] →
      spineSem st.unique st.spine (spineWord st.spine)) →
    (∀ ch ∈ spineWord st.spine, ch ∈ fullOrder) →
    List.Chain' wordLe (spineWord st.spine :: ws) →
    (∀ w ∈ ws, w ≠ [] ∧ w.length < MAXLEN ∧ ∀ ch ∈ w, ch ∈ fullOrder) →
    ∃ st2, buildAll ws st = .ok st2 ∧
      SpinePlus st2.unique st2.spine ∧ UniqueOk st2.unique ∧
      UniquePlus st2.unique ∧
      (spineWord st2.spine ≠ [] →
        spineSem st2.unique st2.spine (spineWord st2.spine)) ∧
      (∀ ch ∈ spineWord st2.spine, ch ∈ fullOrder) ∧
      (∀ w, spineSem st2.unique st2.spine w ↔
        (spineSem st.unique st.spine w ∨ w ∈ ws)) := by
  intro ws
  induction ws with
  | nil =>
    intro st hplus hu hup hlast hword _ _
    refine ⟨st, rfl, hplus, hu, hup, hlast, hword, ?_⟩
    intro w
    constructor
    · intro h
      exact Or.inl h
    · rintro (h | hmem)
      · exact h
      · cases hmem
  | cons wrd ws2 ih =>
    intro st hplus hu hup hlast hword hchain hws
    obtain ⟨hrel, hchain2⟩ := List.chain'_cons.mp hchain
    have hw1 := hws wrd (List.mem_cons_self _ _)
    have hstep := addWord_step st wrd hplus hu hup hlast hword hrel
      hw1.1 hw1.2.1 hw1.2.2
    obtain ⟨st1, hok, hplus1, hu1, hup1, hew, hlast1, hsem1⟩ := hstep
    have hword1 : ∀ ch ∈ spineWord st1.spine, ch ∈ fullOrder := by
      rw [hew]
      exact hw1.2.2
    have hchain1 : List.Chain' wordLe (spineWord st1.spine :: ws2) := by
      rw [hew]
      exact hchain2
    have hih := ih st1 hplus1 hu1 hup1 hlast1 hword1 hchain1
      (fun w hw => hws w (List.mem_cons_of_mem _ hw))
    obtain ⟨st2, hok2, hplus2, hu2, hup2, hlast2, hword2, hsem2⟩ := hih
    have hrun : buildAll (wrd :: ws2) st = buildAll ws2 st1 := by
      show (match addWord st wrd with
        | Except.error e => (Except.error e : Except Unit BState)
        | Except.ok stx => buildAll ws2 stx) = _
      rw [hok]
    refine ⟨st2, by rw [hrun]; exact hok2, hplus2, hu2, hup2, hlast2,
      hword2, ?_⟩
    intro w
    rw [hsem2 w, hsem1 w]
    constructor
    · rintro ((h | rfl) | hmem)
      · exact Or.inl h
      · exact Or.inr (List.mem_cons_self _ _)
      · exact Or.inr (List.mem_cons_of_mem _ hmem)
    · rintro (h | hmem)
      · exact Or.inl (Or.inl h)
      · rcases List.mem_cons.mp hmem with rfl | h2
        · exact Or.inl (Or.inr rfl)
        · exact Or.inr h2

/-! ## Parsing the written text file -/

theorem digitChar_toNat : ∀ m : Nat, m < 10 →
    (Nat.digitChar m).toNat = 48 + m := by
  intro m hm
  interval_cases m <;> rfl

theorem natStrAux_chars : ∀ (fuel n : Nat), n ≤ fuel →
    ∀ c ∈ natStrAux fuel n, 48 ≤ c.toNat ∧ c.toNat ≤ 57 := by
  intro fuel
  induction fuel with
  | zero =>
    intro n hn c hc
    have hn0 : n = 0 := by omega
    subst hn0
    have hc2 := List.mem_singleton.mp hc
    subst hc2
    constructor <;> decide
  | succ fuel ih =>
    intro n hn c hc
    rw [natStrAux] at hc
    by_cases hlt : n < 10
    · rw [if_pos hlt] at hc
      have hc2 := List.mem_singleton.mp hc
      subst hc2
      rw [digitChar_toNat n hlt]
      omega
    · rw [if_neg hlt] at hc
      rcases List.mem_append.mp hc with h1 | h2
      · exact ih (n / 10) (by omega) c h1
      · have hc2 := List.mem_singleton.mp h2
        subst hc2
        rw [digitChar_toNat (n % 10) (by omega)]
        omega

theorem natStr_chars {n : Nat} : ∀ c ∈ natStr n,
    48 ≤ c.toNat ∧ c.toNat ≤ 57 :=
  natStrAux_chars n n (le_refl n)

theorem parseNat_natStrAux : ∀ (fuel n : Nat), n ≤ fuel →
    parseNat (natStrAux fuel n) = n := by
  intro fuel
  induction fuel with
  | zero =>
    intro n hn
    have hn0 : n = 0 := by omega
    subst hn0
    rfl
  | succ fuel ih =>
    intro n hn
    rw [natStrAux]
    by_cases hlt : n < 10
    · rw [if_pos hlt]
      show 0 * 10 + ((Nat.digitChar n).toNat - 48) = n
      rw [digitChar_toNat n hlt]
      omega
    · rw [if_neg hlt]
      unfold parseNat
      rw [List.foldl_append]
      have hpre := ih (n / 10) (by omega)
      unfold parseNat at hpre
      rw [hpre]
      show n / 10 * 10 + ((Nat.digitChar (n % 10)).toNat - 48) = n
      rw [digitChar_toNat (n % 10) (by omega)]
      omega

theorem parseNat_natStr (n : Nat) : parseNat (natStr n) = n :=
  parseNat_natStrAux n n (le_refl n)

theorem splitCh_no_sep {sep : Char} : ∀ {s : Str}, sep ∉ s →
    splitCh sep s = [s] := by
  intro s
  induction s with
  | nil => intro _; rfl
  | cons c rest ih =>
    intro hmem
    have hc : ¬c = sep := fun h => hmem (h ▸ List.mem_cons_self _ _)
    have hrest : sep ∉ rest := fun h => hmem (List.mem_cons_of_mem _ h)
    rw [splitCh]
    simp only [if_neg hc]
    rw [ih hrest]
    rfl

theorem splitCh_append {sep : Char} : ∀ (a b : Str), sep ∉ a →
    splitCh sep (a ++ sep :: b) = a :: splitCh sep b := by
  intro a
  induction a with
  | nil =>
    intro b _
    show splitCh sep (sep :: b) = [] :: splitCh sep b
    rw [splitCh]
    simp
  | cons c a2 ih =>
    intro b hmem
    have hc : ¬c = sep := fun h => hmem (h ▸ List.mem_cons_self _ _)
    have ha2 : sep ∉ a2 := fun h => hmem (List.mem_cons_of_mem _ h)
    show splitCh sep (c :: (a2 ++ sep :: b)) = (c :: a2) :: splitCh sep b
    rw [splitCh]
    simp only [if_neg hc]
    rw [ih b ha2]
    rfl

theorem splitCh_joinUnders : ∀ (ps : List Str), ps ≠ [] →
    (∀ p ∈ ps, '_' ∉ p) → splitCh '_' (joinUnders ps) = ps := by
  intro ps
  induction ps with
  | nil => intro h; exact absurd rfl h
  | cons p ps2 ih =>
    intro _ hps
    cases ps2 with
    | nil =>
      show splitCh '_' p = [p]
      exact splitCh_no_sep (hps p (List.mem_cons_self _ _))
    | cons p2 ps3 =>
      show splitCh '_' (p ++ '_' :: joinUnders (p2 :: ps3)) = _
      rw [splitCh_append p _ (hps p (List.mem_cons_self _ _))]
      rw [ih (List.cons_ne_nil _ _)
        (fun q hq => hps q (List.mem_cons_of_mem _ hq))]

theorem splitCh_edgeStr (u : Unique) (e : Str × Option Nat)
    (hpfx : ':' ∉ e.1) :
    splitCh ':' (edgeStr u e) = [e.1, natStr (childId u e.2)] := by
  show splitCh ':' (e.1 ++ ':' :: natStr (childId u e.2)) = _
  rw [splitCh_append e.1 _ hpfx]
  rw [splitCh_no_sep (by
    intro hmem
    have h2 := natStr_chars _ hmem
    have h3 : (':').toNat = 58 := by decide
    omega)]

theorem lookupNode_mapVal (g : Nat → DNode → DNode) :
    ∀ (nodes : List (Nat × DNode)) (j : Nat),
    lookupNode (nodes.map (fun en => (en.1, g en.1 en.2))) j =
      (lookupNode nodes j).map (g j) := by
  intro nodes
  induction nodes with
  | nil => intro j; rfl
  | cons en rest ih =>
    intro j
    obtain ⟨k, nd⟩ := en
    show lookupNode ((k, g k nd) :: _) j = _
    rw [lookupNode, lookupNode]
    by_cases hkj : k = j
    · subst hkj
      rw [if_pos rfl, if_pos rfl]
      rfl
    · rw [if_neg hkj, if_neg hkj]
      exact ih j

theorem setFinal_eq (nodes : List (Nat × DNode)) (i : Nat) (f : Bool) :
    setFinal nodes i f = nodes.map (fun en =>
      (en.1, if en.1 = i then (⟨f, en.2.edges⟩ : DNode) else en.2)) :=
  List.map_congr_left (fun e _ => by
    by_cases h : e.1 = i <;> simp [h])

theorem addEdgeL_eq (nodes : List (Nat × DNode)) (i : Nat)
    (e : Str × Option Nat) :
    addEdgeL nodes i e = nodes.map (fun en =>
      (en.1, if en.1 = i then (⟨en.2.final, en.2.edges ++ [e]⟩ : DNode)
        else en.2)) :=
  List.map_congr_left (fun en _ => by
    by_cases h : en.1 = i <;> simp [h])

theorem lookupNode_setFinal (nodes : List (Nat × DNode)) (i : Nat)
    (f : Bool) (j : Nat) :
    lookupNode (setFinal nodes i f) j =
      if j = i then (lookupNode nodes j).map
        (fun nd => ⟨f, nd.edges⟩)
      else lookupNode nodes j := by
  rw [setFinal_eq]
  have h := lookupNode_mapVal
    (fun k2 nd => if k2 = i then (⟨f, nd.edges⟩ : DNode) else nd) nodes j
  refine h.trans ?_
  by_cases hj : j = i
  · rw [if_pos hj]
    cases lookupNode nodes j with
    | none => rfl
    | some nd =>
      show some (if j = i then _ else _) = _
      rw [if_pos hj]
      rfl
  · rw [if_neg hj]
    cases lookupNode nodes j with
    | none => rfl
    | some nd =>
      show some (if j = i then _ else _) = _
      rw [if_neg hj]

theorem lookupNode_addEdgeL (nodes : List (Nat × DNode)) (i : Nat)
    (e : Str × Option Nat) (j : Nat) :
    lookupNode (addEdgeL nodes i e) j =
      if j = i then (lookupNode nodes j).map
        (fun nd => ⟨nd.final, nd.edges ++ [e]⟩)
      else lookupNode nodes j := by
  rw [addEdgeL_eq]
  have h := lookupNode_mapVal
    (fun k2 nd => if k2 = i then (⟨nd.final, nd.edges ++ [e]⟩ : DNode)
      else nd) nodes j
  refine h.trans ?_
  by_cases hj : j = i
  · rw [if_pos hj]
    cases lookupNode nodes j with
    | none => rfl
    | some nd =>
      show some (if j = i then _ else _) = _
      rw [if_pos hj]
      rfl
  · rw [if_neg hj]
    cases lookupNode nodes j with
    | none => rfl
    | some nd =>
      show some (if j = i then _ else _) = _
      rw [if_neg hj]

theorem lookupNode_append1 :
    ∀ (nodes : List (Nat × DNode)) (i : Nat) (nd : DNode) (j : Nat),
    lookupNode (nodes ++ [(i, nd)]) j =
      match lookupNode nodes j with
      | some x => some x
      | none => if i = j then some nd else none := by
  intro nodes i nd
  induction nodes with
  | nil =>
    intro j
    show lookupNode [(i, nd)] j = _
    rw [lookupNode]
    rfl
  | cons en rest ih =>
    intro j
    obtain ⟨k, nd2⟩ := en
    show lookupNode ((k, nd2) :: (rest ++ [(i, nd)])) j = _
    rw [lookupNode, lookupNode]
    by_cases hkj : k = j
    · rw [if_pos hkj, if_pos hkj]
    · rw [if_neg hkj, if_neg hkj]
      exact ih j

theorem renderEdges_def (u : Unique) (d : BDict) :
    renderEdges u d = (sortEdges d).map
      (fun e => (e.1, e.2.map (fun k => idAt u k))) := by
  unfold renderEdges
  apply List.map_congr_left
  intro e _
  obtain ⟨p, ch⟩ := e
  cases ch <;> rfl

/-- Parsing one serialized edge of the current node appends the rendered
edge to that node and leaves every other node of the graph unchanged. -/
theorem parseEdge_spec (u : Unique) (st : LState) (n0 : Nat)
    (e : Str × Option Nat) (cur : DNode)
    (hcur : lookupNode st.nodes n0 = some cur)
    (hpfx : ':' ∉ e.1) :
    (parseEdge st n0 (edgeStr u e)).index = st.index ∧
    lookupNode (parseEdge st n0 (edgeStr u e)).nodes n0 =
      some ⟨cur.final, cur.edges ++ [(e.1, e.2.map (fun k => idAt u k))]⟩ ∧
    (∀ j, j ≠ n0 →
      DawgDict.graph ⟨(parseEdge st n0 (edgeStr u e)).nodes⟩ j =
        DawgDict.graph ⟨st.nodes⟩ j) ∧
    (∀ j x, j ≠ n0 → lookupNode st.nodes j = some x →
      lookupNode (parseEdge st n0 (edgeStr u e)).nodes j = some x) := by
  have hsplit : splitCh ':' (edgeStr u e) =
      [e.1, natStr (childId u e.2)] := splitCh_edgeStr u e hpfx
  have hstep : parseEdge st n0 (edgeStr u e) =
      (if childId u e.2 = 0 then
        ⟨addEdgeL st.nodes n0 (e.1, none), st.index⟩
      else if lookupHas st.nodes (childId u e.2) then
        ⟨addEdgeL st.nodes n0 (e.1, some (childId u e.2)), st.index⟩
      else
        ⟨addEdgeL (st.nodes ++ [(childId u e.2, ⟨false, []⟩)]) n0
          (e.1, some (childId u e.2)), st.index⟩) := by
    simp only [parseEdge, hsplit, List.headD_cons, List.getD_cons_succ,
      List.getD_cons_zero, parseNat_natStr]
  cases he2 : e.2 with
  | none =>
    have hcid : childId u e.2 = 0 := by rw [he2]; rfl
    rw [hstep, hcid, if_pos rfl]
    refine ⟨rfl, ?_, ?_, ?_⟩
    · show lookupNode (addEdgeL st.nodes n0 (e.1, none)) n0 = _
      rw [lookupNode_addEdgeL, if_pos rfl, hcur]
      rfl
    · intro j hj
      show (lookupNode (addEdgeL st.nodes n0 (e.1, none)) j).getD _ = _
      rw [lookupNode_addEdgeL, if_neg hj]
      rfl
    · intro j x hj hx
      show lookupNode (addEdgeL st.nodes n0 (e.1, none)) j = some x
      rw [lookupNode_addEdgeL, if_neg hj]
      exact hx
  | some k =>
    have hcid : childId u e.2 = idAt u k := by rw [he2]; rfl
    have hne0 : ¬childId u e.2 = 0 := by
      rw [hcid]
      show ¬2 + (u.take k).countP (fun x => x.isSome) = 0
      omega
    rw [hstep, if_neg hne0]
    by_cases hhas : lookupHas st.nodes (childId u e.2) = true
    · rw [if_pos hhas]
      refine ⟨rfl, ?_, ?_, ?_⟩
      · show lookupNode (addEdgeL st.nodes n0
            (e.1, some (childId u e.2))) n0 = _
        rw [lookupNode_addEdgeL, if_pos rfl, hcur]
        rw [hcid]
        rfl
      · intro j hj
        show (lookupNode (addEdgeL st.nodes n0
            (e.1, some (childId u e.2))) j).getD _ = _
        rw [lookupNode_addEdgeL, if_neg hj]
        rfl
      · intro j x hj hx
        show lookupNode (addEdgeL st.nodes n0
            (e.1, some (childId u e.2))) j = some x
        rw [lookupNode_addEdgeL, if_neg hj]
        exact hx
    · rw [if_neg hhas]
      refine ⟨rfl, ?_, ?_, ?_⟩
      · show lookupNode (addEdgeL (st.nodes ++ [(childId u e.2,
            ⟨false, []⟩)]) n0 (e.1, some (childId u e.2))) n0 = _
        rw [lookupNode_addEdgeL, if_pos rfl, lookupNode_append1, hcur]
        rw [hcid]
        rfl
      · intro j hj
        show (lookupNode (addEdgeL (st.nodes ++ [(childId u e.2,
            ⟨false, []⟩)]) n0 (e.1, some (childId u e.2))) j).getD
            (⟨false, []⟩ : DNode) =
          (lookupNode st.nodes j).getD (⟨false, []⟩ : DNode)
        rw [lookupNode_addEdgeL, if_neg hj, lookupNode_append1]
        cases hl : lookupNode st.nodes j with
        | some x => rfl
        | none =>
          by_cases hcj : childId u e.2 = j
          · rw [if_pos hcj]
            rfl
          · rw [if_neg hcj]
      · intro j x hj hx
        show lookupNode (addEdgeL (st.nodes ++ [(childId u e.2,
            ⟨false, []⟩)]) n0 (e.1, some (childId u e.2))) j = some x
        rw [lookupNode_addEdgeL, if_neg hj, lookupNode_append1, hx]

/-- Folding the edge parser over serialized edges of the current node. -/
theorem parseEdges_fold (u : Unique) (n0 : Nat) :
    ∀ (es : List (Str × Option Nat)) (st : LState) (cur : DNode),
    lookupNode st.nodes n0 = some cur →
    (∀ e ∈ es, ':' ∉ e.1) →
    (es.foldl (fun s e => parseEdge s n0 (edgeStr u e)) st).index =
      st.index ∧
    lookupNode (es.foldl (fun s e => parseEdge s n0 (edgeStr u e))
        st).nodes n0 =
      some ⟨cur.final, cur.edges ++
        es.map (fun e => (e.1, e.2.map (fun k => idAt u k)))⟩ ∧
    (∀ j, j ≠ n0 →
      DawgDict.graph ⟨(es.foldl (fun s e => parseEdge s n0 (edgeStr u e))
        st).nodes⟩ j = DawgDict.graph ⟨st.nodes⟩ j) ∧
    (∀ j x, j ≠ n0 → lookupNode st.nodes j = some x →
      lookupNode (es.foldl (fun s e => parseEdge s n0 (edgeStr u e))
        st).nodes j = some x) := by
  intro es
  induction es with
  | nil =>
    intro st cur hcur _
    refine ⟨rfl, ?_, fun j _ => rfl, fun j x _ hx => hx⟩
    show lookupNode st.nodes n0 = _
    rw [hcur]
    simp
  | cons e es2 ih =>
    intro st cur hcur hes
    have h1 := parseEdge_spec u st n0 e cur hcur
      (hes e (List.mem_cons_self _ _))
    obtain ⟨hidx1, hcur1, hgr1, hpers1⟩ := h1
    have hih := ih (parseEdge st n0 (edgeStr u e))
      ⟨cur.final, cur.edges ++ [(e.1, e.2.map (fun k => idAt u k))]⟩ hcur1
      (fun e2 he2 => hes e2 (List.mem_cons_of_mem _ he2))
    obtain ⟨hidx2, hcur2, hgr2, hpers2⟩ := hih
    rw [List.foldl_cons]
    refine ⟨by rw [hidx2, hidx1], ?_, ?_, ?_⟩
    · rw [hcur2]
      simp
    · intro j hj
      rw [hgr2 j hj, hgr1 j hj]
    · intro j x hj hx
      exact hpers2 j x hj (hpers1 j x hj hx)

/-- `_parse_and_add` on the serialized line of one builder node installs
exactly that node at the current id and leaves the rest of the graph
unchanged. -/
theorem parseAndAdd_spec (u : Unique) (st : LState) (fin : Bool)
    (d : BDict) (n0 : Nat)
    (hn0 : (if 1 < st.index then st.index else 0) = n0)
    (hd : d ≠ [])
    (hgood : ∀ e ∈ d, goodPfx e.1 = true ∧
      (∀ ch ∈ e.1, ch ∈ fullOrder ∨ ch = '|'))
    (hcur : lookupNode st.nodes n0 = none ∨
      lookupNode st.nodes n0 = some ⟨false, []⟩) :
    (parseAndAdd st (nodeLine u ⟨fin, d⟩)).index = st.index + 1 ∧
    lookupNode (parseAndAdd st (nodeLine u ⟨fin, d⟩)).nodes n0 =
      some ⟨fin, renderEdges u d⟩ ∧
    (∀ j, j ≠ n0 →
      DawgDict.graph ⟨(parseAndAdd st (nodeLine u ⟨fin, d⟩)).nodes⟩ j =
        DawgDict.graph ⟨st.nodes⟩ j) ∧
    (∀ j x, j ≠ n0 → lookupNode st.nodes j = some x →
      lookupNode (parseAndAdd st (nodeLine u ⟨fin, d⟩)).nodes j = some x)
    := by
  have hsort : ∀ e ∈ sortEdges d, goodPfx e.1 = true ∧
      (∀ ch ∈ e.1, ch ∈ fullOrder ∨ ch = '|') :=
    fun e he => hgood e ((stableSort_perm pfxLt d).mem_iff.mp he)
  have hcolon : ∀ e ∈ sortEdges d, ':' ∉ e.1 := by
    intro e he hmem
    rcases (hsort e he).2 ':' hmem with h1 | h1
    · exact (by decide : ':' ∉ fullOrder) h1
    · exact (by decide : ¬(':' = '|')) h1
  have hunder : ∀ p ∈ (sortEdges d).map (edgeStr u), '_' ∉ p := by
    intro p hp hmem
    obtain ⟨e, he, rfl⟩ := List.mem_map.mp hp
    rcases List.mem_append.mp hmem with h1 | h1
    · rcases (hsort e he).2 '_' h1 with h2 | h2
      · exact (by decide : '_' ∉ fullOrder) h2
      · exact (by decide : ¬('_' = '|')) h2
    · rcases List.mem_cons.mp h1 with h2 | h2
      · exact (by decide : ¬('_' = ':')) h2
      · have h3 := natStr_chars _ h2
        have h4 : ('_').toNat = 95 := by decide
        omega
  have hparts_ne : (sortEdges d).map (edgeStr u) ≠ [] := by
    intro h
    exact sortEdges_ne_nil hd (List.map_eq_nil.mp h)
  have hsplitline : splitCh '_' (nodeLine u ⟨fin, d⟩) =
      (if fin then ['|'] :: (sortEdges d).map (edgeStr u)
       else (sortEdges d).map (edgeStr u)) := by
    cases fin with
    | true =>
      show splitCh '_' ((['|'] : Str) ++ '_' ::
        joinUnders ((sortEdges d).map (edgeStr u))) = _
      rw [splitCh_append (['|'] : Str) _ (by decide)]
      rw [splitCh_joinUnders _ hparts_ne hunder]
      rw [if_pos rfl]
    | false =>
      show splitCh '_' (joinUnders ((sortEdges d).map (edgeStr u))) = _
      rw [splitCh_joinUnders _ hparts_ne hunder]
      rw [if_neg Bool.false_ne_true]
  have hfinal : ((splitCh '_' (nodeLine u ⟨fin, d⟩)).headD [] ==
      (['|'] : Str)) = fin := by
    rw [hsplitline]
    cases fin with
    | true => rfl
    | false =>
      show ((((sortEdges d).map (edgeStr u)).headD []) ==
        (['|'] : Str)) = false
      cases hse : sortEdges d with
      | nil => exact absurd hse (sortEdges_ne_nil hd)
      | cons e0 tl =>
        have hg0 : goodPfx e0.1 = true :=
          (hsort e0 (by rw [hse]; exact List.mem_cons_self _ _)).1
        cases hp0 : e0.1 with
        | nil => rw [hp0] at hg0; cases hg0
        | cons c0 t0 =>
          have hc0 : c0 ≠ '|' := by
            rw [hp0] at hg0
            simp only [goodPfx, Bool.and_eq_true, bne_iff_ne] at hg0
            exact hg0.1
          show ((edgeStr u e0) == (['|'] : Str)) = false
          rw [beq_eq_false_iff_ne]
          intro hcontra
          rw [show edgeStr u e0 = e0.1 ++ ':' ::
            natStr (childId u e0.2) from rfl, hp0] at hcontra
          have := List.cons.injEq c0 (t0 ++ ':' :: natStr (childId u e0.2))
            '|' []
          rw [show (c0 :: t0) ++ ':' :: natStr (childId u e0.2) =
            c0 :: (t0 ++ ':' :: natStr (childId u e0.2)) from rfl]
            at hcontra
          injection hcontra with hh _
          exact hc0 hh
  have heds : (if fin = true then
      (splitCh '_' (nodeLine u ⟨fin, d⟩)).tail
      else splitCh '_' (nodeLine u ⟨fin, d⟩)) =
      (sortEdges d).map (edgeStr u) := by
    rw [hsplitline]
    cases fin with
    | true => simp
    | false => simp
  have hpa : parseAndAdd st (nodeLine u ⟨fin, d⟩) =
      ((sortEdges d).map (edgeStr u)).foldl
        (fun s2 e => parseEdge s2 n0 e)
        ⟨if lookupHas st.nodes n0 then setFinal st.nodes n0 fin
          else st.nodes ++ [(n0, ⟨fin, []⟩)], st.index + 1⟩ := by
    unfold parseAndAdd
    dsimp only
    rw [hn0, hfinal, heds]
  have hnodes1 : lookupNode (if lookupHas st.nodes n0 then
        setFinal st.nodes n0 fin
        else st.nodes ++ [(n0, ⟨fin, []⟩)]) n0 = some ⟨fin, []⟩ ∧
      (∀ j, j ≠ n0 → lookupNode (if lookupHas st.nodes n0 then
        setFinal st.nodes n0 fin
        else st.nodes ++ [(n0, ⟨fin, []⟩)]) j = lookupNode st.nodes j) := by
    rcases hcur with hc | hc
    · have hhas : lookupHas st.nodes n0 = false := by
        unfold lookupHas
        rw [hc]
        rfl
      rw [if_neg (by rw [hhas]; exact Bool.false_ne_true)]
      constructor
      · rw [lookupNode_append1, hc, if_pos rfl]
      · intro j hj
        rw [lookupNode_append1]
        cases hl : lookupNode st.nodes j with
        | some x => rfl
        | none => rw [if_neg (fun h => hj h.symm)]
    · have hhas : lookupHas st.nodes n0 = true := by
        unfold lookupHas
        rw [hc]
        rfl
      rw [if_pos hhas]
      constructor
      · rw [lookupNode_setFinal, if_pos rfl, hc]
        rfl
      · intro j hj
        rw [lookupNode_setFinal, if_neg hj]
  obtain ⟨hn1cur, hn1other⟩ := hnodes1
  have hfold := parseEdges_fold u n0 (sortEdges d)
    ⟨(if lookupHas st.nodes n0 then setFinal st.nodes n0 fin
      else st.nodes ++ [(n0, ⟨fin, []⟩)]), st.index + 1⟩ ⟨fin, []⟩
    hn1cur hcolon
  obtain ⟨hidx, hcurF, hgrF, hpersF⟩ := hfold
  have hfm : ((sortEdges d).map (edgeStr u)).foldl
      (fun s2 e => parseEdge s2 n0 e)
      (⟨if lookupHas st.nodes n0 then setFinal st.nodes n0 fin
        else st.nodes ++ [(n0, ⟨fin, []⟩)], st.index + 1⟩ : LState) =
      (sortEdges d).foldl (fun s e => parseEdge s n0 (edgeStr u e))
      ⟨if lookupHas st.nodes n0 then setFinal st.nodes n0 fin
        else st.nodes ++ [(n0, ⟨fin, []⟩)], st.index + 1⟩ :=
    List.foldl_map _ _ _ _
  rw [hpa, hfm]
  refine ⟨?_, ?_, ?_, ?_⟩
  · rw [hidx]
  · rw [hcurF, renderEdges_def]
    simp
  · intro j hj
    rw [hgrF j hj]
    show (lookupNode _ j).getD (⟨false, []⟩ : DNode) =
      (lookupNode st.nodes j).getD (⟨false, []⟩ : DNode)
    rw [hn1other j hj]
  · intro j x hj hx
    refine hpersF j x hj ?_
    show lookupNode _ j = some x
    rw [hn1other j hj]
    exact hx

theorem filterMap_idx : ∀ (u : Unique) (k : Nat) (nd : DNode),
    u.getD k none = some nd →
    (u.filterMap id)[(u.take k).countP (fun x => x.isSome)]? = some nd := by
  intro u
  induction u with
  | nil =>
    intro k nd h
    rw [List.getD_eq_getElem?_getD] at h
    simp at h
  | cons x u2 ih =>
    intro k nd h
    cases k with
    | zero =>
      rw [List.getD_cons_zero] at h
      subst h
      simp
    | succ k2 =>
      rw [List.getD_cons_succ] at h
      have hih := ih k2 nd h
      cases x with
      | none => simpa using hih
      | some y => simpa using hih

theorem filterMap_surj : ∀ (u : Unique) (idx : Nat),
    idx < (u.filterMap id).length →
    ∃ k nd, u.getD k none = some nd ∧
      (u.take k).countP (fun x => x.isSome) = idx := by
  intro u
  induction u with
  | nil =>
    intro idx h
    simp at h
  | cons x u2 ih =>
    intro idx h
    cases x with
    | none =>
      have hih := ih idx (by simpa using h)
      obtain ⟨k, nd, h1, h2⟩ := hih
      refine ⟨k + 1, nd, by rw [List.getD_cons_succ]; exact h1, ?_⟩
      simpa using h2
    | some y =>
      cases idx with
      | zero =>
        exact ⟨0, y, List.getD_cons_zero, by simp⟩
      | succ idx2 =>
        have hih := ih idx2 (by
          simp at h
          omega)
        obtain ⟨k, nd, h1, h2⟩ := hih
        refine ⟨k + 1, nd, by rw [List.getD_cons_succ]; exact h1, ?_⟩
        simp
        omega

theorem graph_default_of_lookup {nodes : List (Nat × DNode)} {j : Nat}
    (h : lookupNode nodes j = none ∨
      lookupNode nodes j = some ⟨false, []⟩) :
    DawgDict.graph ⟨nodes⟩ j = ⟨false, []⟩ := by
  show (lookupNode nodes j).getD _ = _
  rcases h with h | h <;> rw [h] <;> rfl

theorem lookup_of_graph_default {nodes : List (Nat × DNode)} {j : Nat}
    (h : DawgDict.graph ⟨nodes⟩ j = ⟨false, []⟩) :
    lookupNode nodes j = none ∨ lookupNode nodes j = some ⟨false, []⟩ := by
  have h2 : (lookupNode nodes j).getD ⟨false, []⟩ = ⟨false, []⟩ := h
  cases hl : lookupNode nodes j with
  | none => exact Or.inl rfl
  | some x =>
    rw [hl] at h2
    exact Or.inr (by rw [show x = ⟨false, []⟩ from h2])

theorem loadLines_eq : ∀ (lines : List Str) (st : LState),
    (∀ l ∈ lines, l ≠ []) →
    lines.foldl (fun s (line : Str) =>
      if line.isEmpty then s else parseAndAdd s line) st =
    lines.foldl (fun s line => parseAndAdd s line) st := by
  intro lines
  induction lines with
  | nil => intro st _; rfl
  | cons l ls ih =>
    intro st hne
    rw [List.foldl_cons, List.foldl_cons]
    have hl : l.isEmpty = false := by
      cases l with
      | nil => exact absurd rfl (hne [] (List.mem_cons_self _ _))
      | cons c t => rfl
    rw [hl]
    show List.foldl _ (if false = true then st else parseAndAdd st l) _ = _
    rw [if_neg Bool.false_ne_true]
    exact ih (parseAndAdd st l) (fun l2 h2 => hne l2 (List.mem_cons_of_mem _ h2))

theorem joinUnders_ne_nil {p : Str} {ps : List Str} (hp : p ≠ []) :
    joinUnders (p :: ps) ≠ [] := by
  cases ps with
  | nil => exact hp
  | cons p2 ps2 =>
    show p ++ '_' :: joinUnders (p2 :: ps2) ≠ []
    cases p with
    | nil => exact fun h => List.cons_ne_nil _ _ h
    | cons c t => exact fun h => List.cons_ne_nil _ _ h

theorem nodeLine_ne_nil (u : Unique) (nd : DNode) (hd : nd.edges ≠ [])
    (hgood : ∀ e ∈ nd.edges, goodPfx e.1 = true) :
    nodeLine u nd ≠ [] := by
  unfold nodeLine
  cases hf : nd.final with
  | true => exact fun h => List.cons_ne_nil _ _ h
  | false =>
    show [] ++ stringifyEdges u nd.edges ≠ []
    rw [List.nil_append]
    unfold stringifyEdges
    cases hse : sortEdges nd.edges with
    | nil => exact absurd hse (sortEdges_ne_nil hd)
    | cons e0 tl =>
      rw [List.map_cons]
      refine joinUnders_ne_nil ?_
      have hg0 : goodPfx e0.1 = true := by
        refine hgood e0 ?_
        have := (stableSort_perm pfxLt nd.edges).mem_iff.mp
          (by rw [show stableSort pfxLt nd.edges = sortEdges nd.edges
            from rfl, hse]; exact List.mem_cons_self _ _)
        exact this
      cases hp0 : e0.1 with
      | nil => rw [hp0] at hg0; cases hg0
      | cons c0 t0 =>
        show e0.1 ++ ':' :: natStr (childId u e0.2) ≠ []
        rw [hp0]
        exact fun h => List.cons_ne_nil _ _ h

/-- Folding the line parser over the serialized node lines: each node is
installed at its line number, earlier entries persist, and the rest of
the graph is unchanged. -/
theorem parseLines_spec (u : Unique) :
    ∀ (nds : List DNode) (st : LState),
    1 < st.index →
    (∀ nd ∈ nds, nd.edges ≠ [] ∧ (∀ e ∈ nd.edges, goodPfx e.1 = true ∧
      (∀ ch ∈ e.1, ch ∈ fullOrder ∨ ch = '|'))) →
    (∀ j, st.index ≤ j → lookupNode st.nodes j = none ∨
      lookupNode st.nodes j = some ⟨false, []⟩) →
    (nds.foldl (fun s nd => parseAndAdd s (nodeLine u nd)) st).index =
      st.index + nds.length ∧
    (∀ idx nd2, nds[idx]? = some nd2 →
      lookupNode (nds.foldl (fun s nd => parseAndAdd s (nodeLine u nd))
        st).nodes (st.index + idx) =
      some ⟨nd2.final, renderEdges u nd2.edges⟩) ∧
    (∀ j, j < st.index ∨ st.index + nds.length ≤ j →
      DawgDict.graph ⟨(nds.foldl (fun s nd => parseAndAdd s
        (nodeLine u nd)) st).nodes⟩ j = DawgDict.graph ⟨st.nodes⟩ j) ∧
    (∀ j x, j < st.index → lookupNode st.nodes j = some x →
      lookupNode (nds.foldl (fun s nd => parseAndAdd s (nodeLine u nd))
        st).nodes j = some x) := by
  intro nds
  induction nds with
  | nil =>
    intro st hidx hnds hph
    refine ⟨by simp, ?_, fun j _ => rfl, fun j x _ hx => hx⟩
    intro idx nd2 h
    simp at h
  | cons nd nds2 ih =>
    intro st hidx hnds hph
    have hnd := hnds nd (List.mem_cons_self _ _)
    have hpa := parseAndAdd_spec u st nd.final nd.edges st.index
      (by rw [if_pos hidx]) hnd.1 hnd.2
      (hph st.index (le_refl _))
    have hidx1 : (parseAndAdd st (nodeLine u nd)).index = st.index + 1 :=
      hpa.1
    have hcur1 : lookupNode (parseAndAdd st (nodeLine u nd)).nodes
        st.index = some ⟨nd.final, renderEdges u nd.edges⟩ := hpa.2.1
    have hgr1 : ∀ j, j ≠ st.index →
        DawgDict.graph ⟨(parseAndAdd st (nodeLine u nd)).nodes⟩ j =
          DawgDict.graph ⟨st.nodes⟩ j := hpa.2.2.1
    have hpers1 : ∀ j x, j ≠ st.index →
        lookupNode st.nodes j = some x →
        lookupNode (parseAndAdd st (nodeLine u nd)).nodes j = some x :=
      hpa.2.2.2
    have hph1 : ∀ j, (parseAndAdd st (nodeLine u nd)).index ≤ j →
        lookupNode (parseAndAdd st (nodeLine u nd)).nodes j = none ∨
        lookupNode (parseAndAdd st (nodeLine u nd)).nodes j =
          some ⟨false, []⟩ := by
      intro j hj
      rw [hidx1] at hj
      refine lookup_of_graph_default ?_
      rw [hgr1 j (by omega)]
      exact graph_default_of_lookup (hph j (by omega))
    have hih := ih (parseAndAdd st (nodeLine u nd))
      (by rw [hidx1]; omega)
      (fun nd2 h2 => hnds nd2 (List.mem_cons_of_mem _ h2)) hph1
    obtain ⟨hidx2, hnode2, hgr2, hpers2⟩ := hih
    rw [List.foldl_cons]
    refine ⟨?_, ?_, ?_, ?_⟩
    · rw [hidx2, hidx1, List.length_cons]
      omega
    · intro idx nd2 h
      cases idx with
      | zero =>
        rw [List.getElem?_cons_zero] at h
        injection h with h
        have := hpers2 st.index ⟨nd.final, renderEdges u nd.edges⟩
          (by rw [hidx1]; omega) hcur1
        rw [← h]
        simpa using this
      | succ idx2 =>
        rw [List.getElem?_cons_succ] at h
        have := hnode2 idx2 nd2 h
        rw [hidx1] at this
        rw [show st.index + (idx2 + 1) = st.index + 1 + idx2 by omega]
        exact this
    · intro j hj
      have hj2 : j < (parseAndAdd st (nodeLine u nd)).index ∨
          (parseAndAdd st (nodeLine u nd)).index + nds2.length ≤ j := by
        rw [hidx1]
        rcases hj with h | h
        · left; omega
        · right
          rw [List.length_cons] at h
          omega
      rw [hgr2 j hj2]
      refine hgr1 j ?_
      rcases hj with h | h
      · omega
      · rw [List.length_cons] at h
        omega
    · intro j x hj hx
      refine hpers2 j x (by rw [hidx1]; omega) ?_
      exact hpers1 j x (by omega) hx

/-- Loading the text written by `write_text`: the root entry and every
registered unique node appear under their renumbered ids with rendered
edges, and all other ids are absent or placeholders. -/
theorem loadLines_writeText (root : BDict) (u : Unique)
    (hroot_ne : root ≠ [])
    (hrootgood : ∀ e ∈ root, goodPfx e.1 = true ∧
      (∀ ch ∈ e.1, ch ∈ fullOrder ∨ ch = '|'))
    (hugood : ∀ k nd, u.getD k none = some nd → nd.edges ≠ [] ∧
      (∀ e ∈ nd.edges, goodPfx e.1 = true ∧
        (∀ ch ∈ e.1, ch ∈ fullOrder ∨ ch = '|'))) :
    lookupNode (loadLines (writeText root u)).nodes 0 =
      some ⟨false, renderEdges u root⟩ ∧
    (∀ k nd, u.getD k none = some nd →
      (loadLines (writeText root u)).graph (idAt u k) =
        ⟨nd.final, renderEdges u nd.edges⟩) ∧
    (∀ j, j ≠ 0 → (∀ k nd, u.getD k none = some nd → idAt u k ≠ j) →
      (loadLines (writeText root u)).graph j = ⟨false, []⟩) := by
  have hmemL : ∀ nd ∈ u.filterMap id, ∃ k, u.getD k none = some nd := by
    intro nd hnd
    obtain ⟨x, hx, hid⟩ := List.mem_filterMap.mp hnd
    obtain ⟨k, hk, hget⟩ := List.mem_iff_getElem.mp hx
    refine ⟨k, ?_⟩
    rw [List.getD_eq_getElem?_getD, List.getElem?_eq_getElem hk, hget]
    show x = some nd
    exact hid
  have hLgood : ∀ nd ∈ u.filterMap id, nd.edges ≠ [] ∧
      (∀ e ∈ nd.edges, goodPfx e.1 = true ∧
        (∀ ch ∈ e.1, ch ∈ fullOrder ∨ ch = '|')) := by
    intro nd hnd
    obtain ⟨k, hk⟩ := hmemL nd hnd
    exact hugood k nd hk
  have hlines_ne : ∀ l ∈ writeText root u, l ≠ [] := by
    intro l hl
    rcases List.mem_cons.mp hl with rfl | h2
    · show nodeLine u ⟨false, root⟩ ≠ []
      exact nodeLine_ne_nil u ⟨false, root⟩ hroot_ne
        (fun e he => (hrootgood e he).1)
    · obtain ⟨nd, hnd, rfl⟩ := List.mem_map.mp h2
      exact nodeLine_ne_nil u nd (hLgood nd hnd).1
        (fun e he => ((hLgood nd hnd).2 e he).1)
  have hload : loadLines (writeText root u) =
      ⟨((writeText root u).foldl (fun s line => parseAndAdd s line)
        ⟨[], 1⟩).nodes⟩ := by
    unfold loadLines
    rw [loadLines_eq _ _ hlines_ne]
  have hpa0 := parseAndAdd_spec u ⟨[], 1⟩ false root 0 (by decide)
    hroot_ne hrootgood (Or.inl rfl)
  have hidx0 : (parseAndAdd ⟨[], 1⟩ (nodeLine u ⟨false, root⟩)).index = 2 :=
    hpa0.1
  have hcur0 : lookupNode (parseAndAdd ⟨[], 1⟩
      (nodeLine u ⟨false, root⟩)).nodes 0 =
      some ⟨false, renderEdges u root⟩ := hpa0.2.1
  have hgr0 : ∀ j, j ≠ 0 →
      DawgDict.graph ⟨(parseAndAdd ⟨[], 1⟩
        (nodeLine u ⟨false, root⟩)).nodes⟩ j =
      DawgDict.graph ⟨([] : List (Nat × DNode))⟩ j := hpa0.2.2.1
  have hpl := parseLines_spec u (u.filterMap id)
    (parseAndAdd ⟨[], 1⟩ (nodeLine u ⟨false, root⟩))
    (by rw [hidx0]; omega) hLgood
    (by
      intro j hj
      rw [hidx0] at hj
      refine lookup_of_graph_default ?_
      rw [hgr0 j (by omega)]
      rfl)
  obtain ⟨hidxF, hnodeF, hgrF, hpersF⟩ := hpl
  have hfold : (writeText root u).foldl
      (fun s line => parseAndAdd s line) ⟨[], 1⟩ =
      (u.filterMap id).foldl (fun s nd => parseAndAdd s (nodeLine u nd))
        (parseAndAdd ⟨[], 1⟩ (nodeLine u ⟨false, root⟩)) := by
    show ((nodeLine u ⟨false, root⟩ ::
      (u.filterMap id).map (nodeLine u)).foldl
        (fun s line => parseAndAdd s line) ⟨[], 1⟩) = _
    rw [List.foldl_cons]
    exact List.foldl_map _ _ _ _
  rw [hload, hfold]
  refine ⟨?_, ?_, ?_⟩
  · exact hpersF 0 ⟨false, renderEdges u root⟩ (by rw [hidx0]; omega) hcur0
  · intro k nd hk
    have hfmi := filterMap_idx u k nd hk
    have := hnodeF ((u.take k).countP (fun x => x.isSome)) nd hfmi
    rw [hidx0] at this
    show (lookupNode _ (idAt u k)).getD _ = _
    rw [show idAt u k = 2 + (u.take k).countP (fun x => x.isSome)
      from rfl, this]
    rfl
  · intro j hj0 hjid
    by_cases hrange : 2 ≤ j ∧ j < 2 + (u.filterMap id).length
    · exfalso
      obtain ⟨k, nd, hk, hcount⟩ := filterMap_surj u (j - 2) (by omega)
      refine hjid k nd hk ?_
      show 2 + (u.take k).countP (fun x => x.isSome) = j
      omega
    · have hj2 : j < (parseAndAdd ⟨[], 1⟩
          (nodeLine u ⟨false, root⟩)).index ∨
        (parseAndAdd ⟨[], 1⟩ (nodeLine u ⟨false, root⟩)).index +
          (u.filterMap id).length ≤ j := by
        rw [hidx0]
        omega
      show DawgDict.graph ⟨_⟩ j = _
      rw [hgrF j hj2, hgr0 j hj0]
      rfl

/-- The words recognized by the loaded graph at a rendered node are
exactly the words recognized by the builder graph at the original node
(the renumbering of `finish` preserves the language). -/
theorem parsed_sem (u : Unique) (g : Graph) (hu : UniqueOk u)
    (hg : ∀ k nd, u.getD k none = some nd →
      g (idAt u k) = ⟨nd.final, renderEdges u nd.edges⟩) :
    ∀ n : Nat, ∀ w : Str, w.length ≤ n →
      (∀ (pfx : Str) (nx : Option Nat), ChildOk u nx →
        (EdgeSem g pfx (nx.map (fun k => idAt u k)) w ↔
          EdgeSem (bGraph u) pfx nx w)) ∧
      (∀ d : BDict, DictOk u d → ∀ x : Bool,
        (NodeSem g ⟨x, renderEdges u d⟩ w ↔
          NodeSem (bGraph u) ⟨x, d⟩ w)) := by
  intro n
  induction n with
  | zero =>
    intro w hw
    have hwnil : w = [] := List.eq_nil_of_length_eq_zero (by omega)
    subst hwnil
    constructor
    · intro pfx nx _
      constructor <;> intro h <;> exact absurd h EdgeSem_not_nil
    · intro d _ x
      constructor <;> intro h <;> exact absurd h NodeSem_not_nil
  | succ n ih =>
    intro w hw
    have hedge : ∀ (pfx : Str) (nx : Option Nat), ChildOk u nx →
        (EdgeSem g pfx (nx.map (fun k => idAt u k)) w ↔
          EdgeSem (bGraph u) pfx nx w) := by
      intro pfx nx hch
      cases nx with
      | none =>
        have hfin : ∀ rest : Str,
            finalAt g rest (Option.map (fun k => idAt u k) none) =
            finalAt (bGraph u) rest none := by
          intro rest
          cases rest <;> rfl
        constructor
        · intro h
          cases h with
          | stop hfin2 =>
            exact .stop (by rw [← hfin]; exact hfin2)
          | more hne hrec =>
            rename_i c rest w2
            exact .more hne (((ih w2 (by
              simp only [List.length_cons] at hw
              omega)).1 (dropBar rest) none hch).mp hrec)
        · intro h
          cases h with
          | stop hfin2 =>
            exact .stop (by rw [hfin]; exact hfin2)
          | more hne hrec =>
            rename_i c rest w2
            exact .more hne (((ih w2 (by
              simp only [List.length_cons] at hw
              omega)).1 (dropBar rest) none hch).mpr hrec)
      | some k =>
        obtain ⟨nd, hnd⟩ := hch k rfl
        have hgk : g (idAt u k) = ⟨nd.final, renderEdges u nd.edges⟩ :=
          hg k nd hnd
        have hbk : bGraph u k = nd := by
          unfold bGraph
          rw [hnd]
          rfl
        have hfin : ∀ rest : Str,
            finalAt g rest (Option.map (fun k => idAt u k) (some k)) =
            finalAt (bGraph u) rest (some k) := by
          intro rest
          cases rest with
          | cons r t => rfl
          | nil =>
            show (g (idAt u k)).final = (bGraph u k).final
            rw [hgk, hbk]
        constructor
        · intro h
          cases h with
          | stop hfin2 =>
            exact .stop (by rw [← hfin]; exact hfin2)
          | more hne hrec =>
            rename_i c rest w2
            exact .more hne (((ih w2 (by
              simp only [List.length_cons] at hw
              omega)).1 (dropBar rest) (some k) hch).mp hrec)
          | child hnil hnode =>
            rename_i c rest w2
            rw [hgk] at hnode
            have hnode2 := ((ih w2 (by
              simp only [List.length_cons] at hw
              omega)).2 nd.edges (DictOk_of_unique hu hnd) nd.final).mp
              hnode
            refine .child hnil ?_
            rw [hbk]
            exact hnode2
        · intro h
          cases h with
          | stop hfin2 =>
            exact .stop (by rw [hfin]; exact hfin2)
          | more hne hrec =>
            rename_i c rest w2
            exact .more hne (((ih w2 (by
              simp only [List.length_cons] at hw
              omega)).1 (dropBar rest) (some k) hch).mpr hrec)
          | child hnil hnode =>
            rename_i c rest w2
            rw [hbk] at hnode
            have hnode2 := ((ih w2 (by
              simp only [List.length_cons] at hw
              omega)).2 nd.edges (DictOk_of_unique hu hnd) nd.final).mpr
              hnode
            refine .child hnil ?_
            rw [hgk]
            exact hnode2
    refine ⟨hedge, ?_⟩
    intro d hd x
    rw [renderEdges_def]
    have hperm : ((sortEdges d).map
        (fun e => (e.1, e.2.map (fun k => idAt u k)))).Perm
        (d.map (fun e => (e.1, e.2.map (fun k => idAt u k)))) :=
      (stableSort_perm pfxLt d).map _
    rw [NodeSem_perm hperm]
    rw [NodeSem_iff, NodeSem_iff]
    constructor
    · rintro ⟨e2, he2, hsem⟩
      obtain ⟨e, he, rfl⟩ := List.mem_map.mp he2
      exact ⟨e, he, (hedge e.1 e.2 (hd e he).2).mp hsem⟩
    · rintro ⟨e, he, hsem⟩
      exact ⟨(e.1, e.2.map (fun k => idAt u k)),
        List.mem_map.mpr ⟨e, he, rfl⟩,
        (hedge e.1 e.2 (hd e he).2).mpr hsem⟩

theorem WFNode_render (u : Unique) (fin : Bool) (d : BDict)
    (hgood : ∀ e ∈ d, goodPfx e.1 = true)
    (hnodup : (d.map (fun e => e.1.headD ' ')).Nodup) :
    WFNode ⟨fin, renderEdges u d⟩ := by
  constructor
  · intro e he
    rw [renderEdges_def] at he
    obtain ⟨e0, he0, rfl⟩ := List.mem_map.mp he
    exact hgood e0 ((stableSort_perm pfxLt d).mem_iff.mp he0)
  · show ((renderEdges u d).map (fun e => e.1.headD ' ')).Nodup
    rw [renderEdges_def, List.map_map]
    exact (((stableSort_perm pfxLt d).map _).nodup_iff).mpr hnodup


/-- **C1** (corrected): round-trip of build and lookup.  For every
non-empty word list in ascending collation order whose words are
non-empty, shorter than `MAXLEN` and drawn from the alphabet, the builder
succeeds, and loading the written text gives a dictionary whose `find`
returns `some true` exactly on the listed words and `some false` on the
empty word. -/
theorem dawg_round_trip (ws : List Str) (hne : ws ≠ [])
    (hw : ∀ w ∈ ws, w ≠ [] ∧ w.length < MAXLEN ∧
      ∀ ch ∈ w, ch ∈ fullOrder)
    (hsorted : List.Chain' wordLe ws) :
    ∃ lines, buildText ws = .ok lines ∧
      (∀ w, ((loadLines lines).find w = some true ↔ w ∈ ws)) ∧
      (loadLines lines).find [] = some false := by
  have huI : UniqueOk ([] : Unique) := by
    intro k nd h
    rw [List.getD_eq_getElem?_getD] at h
    simp at h
  have hupI : UniquePlus ([] : Unique) := by
    intro k nd h
    rw [List.getD_eq_getElem?_getD] at h
    simp at h
  have hchainI : List.Chain' wordLe (spineWord initB.spine :: ws) := by
    show List.Chain' wordLe ([] :: ws)
    cases ws with
    | nil => exact absurd rfl hne
    | cons w0 ws2 =>
      refine List.chain'_cons.mpr ⟨?_, hsorted⟩
      have hw0 : w0 ≠ [] := (hw w0 (List.mem_cons_self _ _)).1
      cases hw0c : w0 with
      | nil => exact absurd hw0c hw0
      | cons c t =>
        left
        rfl
  have hball := buildAll_lang ws initB ⟨SettledPlus_nil, rfl⟩ huI hupI
    (fun h => absurd rfl h) (fun ch h => absurd h (List.not_mem_nil ch))
    hchainI hw
  obtain ⟨stF, hok, hplusF, huF, hupF, hlastF, hwordF, hsemF⟩ := hball
  have hsem2 : ∀ w, spineSem stF.unique stF.spine w ↔ w ∈ ws := by
    intro w
    rw [hsemF w]
    constructor
    · rintro (h | h)
      · exact absurd h settledSem_nil
      · exact h
    · exact Or.inr
  have hspineOk := SpinePlus_toOk hplusF
  have hinv := collapseSpine_inv stF.spine stF.unique hspineOk huF
  have hplus2 := collapseSpine_plus stF.spine stF.unique hplusF huF hupF
  have hlang := collapseSpine_lang stF.spine stF.unique hplusF huF
  rcases hcs : collapseSpine stF.unique stF.spine with ⟨root, uF⟩
  rw [hcs] at hinv hplus2 hlang
  dsimp only at hinv hplus2 hlang
  obtain ⟨⟨ext, hext⟩, huF2, hrootOk⟩ := hinv
  obtain ⟨hupF2, hrootPlus⟩ := hplus2
  have hroot_ne : root ≠ [] := by
    intro h0
    cases hws0 : ws with
    | nil => exact absurd hws0 hne
    | cons w0 ws2 =>
      have hw0 : spineSem stF.unique stF.spine w0 :=
        (hsem2 w0).mpr (by rw [hws0]; exact List.mem_cons_self _ _)
      have htip := collapseSpine_nil hplusF (by rw [hcs]; exact h0)
      rw [htip] at hw0
      exact absurd hw0 settledSem_nil
  have hfin : finishB stF = (root, uF) := hcs
  have hbt : buildText ws = .ok (writeText root uF) := by
    unfold buildText
    rw [hok]
    dsimp only
    rw [hfin]
  have hload := loadLines_writeText root uF hroot_ne
    (fun e he => ⟨(hrootPlus.1 e he).1, hrootPlus.2.2 e he⟩)
    (fun k nd hk => ⟨(huF2 k nd hk).1, fun e he =>
      ⟨((hupF2 k nd hk).1 e he).1, (hupF2 k nd hk).2.2 e he⟩⟩)
  obtain ⟨hlook0, hgnodes, hgdefault⟩ := hload
  have hwf : WFGraph (loadLines (writeText root uF)).graph := by
    intro j
    by_cases hj0 : j = 0
    · subst hj0
      have hg0 : (loadLines (writeText root uF)).graph 0 =
          ⟨false, renderEdges uF root⟩ := by
        show (lookupNode _ 0).getD _ = _
        rw [hlook0]
        rfl
      rw [hg0]
      exact WFNode_render uF false root
        (fun e he => (hrootPlus.1 e he).1) hrootPlus.2.1
    · by_cases hcov : ∃ k nd, uF.getD k none = some nd ∧ idAt uF k = j
      · obtain ⟨k, nd, hk, hid⟩ := hcov
        rw [← hid, hgnodes k nd hk]
        exact WFNode_render uF nd.final nd.edges
          (fun e he => ((hupF2 k nd hk).1 e he).1) (hupF2 k nd hk).2.1
      · rw [hgdefault j hj0 (fun k nd hk hid => hcov ⟨k, nd, hk, hid⟩)]
        exact WFNode_default
  have hfindiff : ∀ w, ((loadLines (writeText root uF)).find w =
      some true ↔ w ∈ ws) := by
    intro w
    rw [dawg_find_iff _ w hwf ⟨false, renderEdges uF root⟩ hlook0]
    have htrans := (parsed_sem uF (loadLines (writeText root uF)).graph
      huF2 hgnodes w.length w (le_refl _)).2 root hrootOk false
    rw [htrans, hlang w, hsem2 w]
  refine ⟨writeText root uF, hbt, hfindiff, ?_⟩
  have hshape : ∃ bb, (loadLines (writeText root uF)).find [] =
      some bb := by
    unfold DawgDict.find
    rw [hlook0]
    exact ⟨_, rfl⟩
  obtain ⟨bb, hbb⟩ := hshape
  cases bb with
  | false => exact hbb
  | true =>
    exfalso
    have hmem := (hfindiff []).mp hbb
    exact (hw [] hmem).1 rfl

/-- Counterexample to the unconditional round-trip claim: for the empty
word list the builder writes a single empty line, the loader skips it and
creates no nodes, and `find` of the empty word returns `none` (the
`KeyError` of `navigate`), not `false`. -/
theorem dawg_round_trip_empty_counterexample :
    buildText [] = .ok [[]] ∧ (loadLines [[]]).find [] = none ∧
    (∀ w, (loadLines [[]]).find w = none) :=
  ⟨rfl, rfl, fun _ => rfl⟩

set_option maxRecDepth 8192 in
theorem dawg_round_trip_witness :
    ∃ lines, buildText [['a', 'b'], ['a', 'c']] = .ok lines ∧
      (∀ w, ((loadLines lines).find w = some true ↔
        w ∈ [['a', 'b'], ['a', 'c']])) ∧
      (loadLines lines).find [] = some false :=
  dawg_round_trip [['a', 'b'], ['a', 'c']] (by decide) (by decide)
    (List.chain'_cons.mpr ⟨Or.inl (by decide), List.chain'_singleton _⟩)

end Skrafl
